import Mathlib

/-!
# forest: the AVL tree of include/forest/avl_tree.h

A shallow embedding of the class template avl_tree and of its node struct.

* Nodes live in a store (a list); a reference to a node is its index in the
  store, the null reference is none.  Indices are never reused, so reference
  equality in the source is index equality here.
* left and right are owning references (shared_ptr), parent is a non-owning
  one (weak_ptr).  A node is destroyed when its last owner lets go of it; the
  field live records that, and lock answers null for a destroyed node, as
  weak_ptr::lock does.
* A parameter of type reference-to-shared_ptr is a slot: either a local
  variable of the caller or the left / right field of a node.  Every use of
  the parameter reads the slot again, as the source does.
* Keys are integers (the source is generic in a totally ordered key type).
* height and size are unsigned long long (arithmetic modulo 2 ^ 64);
  balance_factor is a 32-bit int.
* insert (with the two rotations) is the one operation that assigns to the
  root member or to a field of a node; it returns the new tree state.  The
  queries and the traversals contain no such assignment: they are functions of
  the tree state and return a value only.
* Operations answer in Except fault: null_dereference where the source
  dereferences a null reference, step_budget where a loop or recursion of the
  model used up its budget.
-/

namespace forest

/-- A reference to a node (an index into the store), or null. -/
abbrev ptr := Option Nat

/-- What can go wrong when the source is run on some state. -/
inductive fault where
  | null_dereference
  | step_budget
deriving DecidableEq, Repr

/-- The struct avl_tree_node, with the lifetime flag live of the object. -/
structure avl_tree_node where
  key : Int
  balance_factor : Int
  parent : ptr
  left : ptr
  right : ptr
  live : Bool
deriving DecidableEq, Repr

/-- The class avl_tree: its root member and the nodes allocated so far. -/
structure avl_tree where
  root : ptr
  store : List avl_tree_node
deriving DecidableEq, Repr

/-- A parameter passed by reference: a local variable of the caller holding
node x, or the left or right field of node c. -/
inductive slot where
  | local_variable (x : Nat)
  | left_field (c : Nat)
  | right_field (c : Nat)
deriving DecidableEq, Repr

/-- Replace the element at position i by its image under f. -/
def modify_at {α : Type} (f : α → α) : List α → Nat → List α
  | [], _ => []
  | a :: l, 0 => f a :: l
  | a :: l, i + 1 => a :: modify_at f l i

namespace avl_tree

/-- The constructor avl_tree(): root = nullptr. -/
def empty_tree : avl_tree := { root := none, store := [] }

/-- The expression p->, which needs p to be non-null. -/
def deref (t : avl_tree) (p : ptr) : Except fault avl_tree_node :=
  match p with
  | none => .error .null_dereference
  | some i =>
    match t.store[i]? with
    | some n => .ok n
    | none => .error .null_dereference

/-- The call weak_ptr::lock(): the node, or null once it has been destroyed. -/
def lock (t : avl_tree) (p : ptr) : ptr :=
  match p with
  | none => none
  | some i =>
    match t.store[i]? with
    | some n => if n.live then some i else none
    | none => none

/-- Assignment to fields of node i. -/
def put (t : avl_tree) (i : Nat) (f : avl_tree_node → avl_tree_node) : avl_tree :=
  { t with store := modify_at f t.store i }

/-- The value currently held by a slot. -/
def read (t : avl_tree) : slot → ptr
  | .local_variable x => some x
  | .left_field c =>
    match t.store[c]? with
    | some n => n.left
    | none => none
  | .right_field c =>
    match t.store[c]? with
    | some n => n.right
    | none => none

/-- The use count of node i: the owning references to it, held by the root
member, by the local variables listed in held, and by the left and right
fields of nodes that are themselves alive. -/
def use_count (t : avl_tree) (held : List Nat) (i : Nat) : Nat :=
  (if t.root = some i then 1 else 0) + held.count i
    + (t.store.filter (fun n => n.live && n.left == some i)).length
    + (t.store.filter (fun n => n.live && n.right == some i)).length

/-- Whether node i is alive with no owner left. -/
def unowned (t : avl_tree) (held : List Nat) (i : Nat) : Bool :=
  match t.store[i]? with
  | some n => n.live && use_count t held i == 0
  | none => false

/-- Destroy every node that is alive and has no owner. -/
def release_pass (t : avl_tree) (held : List Nat) : avl_tree :=
  let mark : Nat → avl_tree_node → avl_tree_node :=
    fun i n => if unowned t held i then { n with live := false } else n
  { t with store := List.zipWith mark (List.range t.store.length) t.store }

/-- Destruction cascades: a destroyed node lets go of its children. -/
def release : Nat → avl_tree → List Nat → avl_tree
  | 0, t, _ => t
  | fuel + 1, t, held =>
    if (List.range t.store.length).any (unowned t held) then
      release fuel (release_pass t held) held
    else t

/-- The effect of shared_ptr reference counting after owners were dropped,
held being the local variables still in scope. -/
def collect (t : avl_tree) (held : List Nat) : avl_tree :=
  release t.store.length t held

/-- The unsigned long long subtraction a - b. -/
def sub_u64 (a b : Nat) : Nat := (a % 2 ^ 64 + 2 ^ 64 - b % 2 ^ 64) % 2 ^ 64

/-- The conversion of an unsigned long long to int. -/
def to_int32 (u : Nat) : Int :=
  if u % 2 ^ 32 < 2 ^ 31 then ((u % 2 ^ 32 : Nat) : Int) else ((u % 2 ^ 32 : Nat) : Int) - 2 ^ 32

/-- The private height(x), with a budget for the recursion depth. -/
def height_from : Nat → avl_tree → ptr → Except fault Nat
  | _, _, none => .ok 0
  | 0, _, some _ => .error .step_budget
  | fuel + 1, t, some x => do
    let n ← t.deref (some x)
    let hl ← height_from fuel t n.left
    let hr ← height_from fuel t n.right
    pure ((max hl hr + 1) % 2 ^ 64)

/-- The private size(x), with a budget for the recursion depth. -/
def size_from : Nat → avl_tree → ptr → Except fault Nat
  | _, _, none => .ok 0
  | 0, _, some _ => .error .step_budget
  | fuel + 1, t, some x => do
    let n ← t.deref (some x)
    let sl ← size_from fuel t n.left
    let sr ← size_from fuel t n.right
    pure ((sl + sr + 1) % 2 ^ 64)

/-- The private in_order_traversal(x, handler): the nodes handed to the
handler, in the order of the calls. -/
def in_order_from : Nat → avl_tree → ptr → Except fault (List Nat)
  | _, _, none => .ok []
  | 0, _, some _ => .error .step_budget
  | fuel + 1, t, some x => do
    let n ← t.deref (some x)
    let l ← in_order_from fuel t n.left
    let r ← in_order_from fuel t n.right
    pure (l ++ x :: r)

/-- The private rotate_right(rotation_root); held are the local variables of
the caller. -/
def rotate_right (t : avl_tree) (rotation_root : slot) (held : List Nat) :
    Except fault avl_tree := do
  -- new_root = rotation_root->left
  let new_root := (← t.deref (t.read rotation_root)).left
  -- orphan_subtree = new_root->right
  let orphan_subtree := (← t.deref new_root).right
  let q ← match new_root with
    | some q => pure q
    | none => .error .null_dereference
  -- rotation_root->left = orphan_subtree
  let r ← match t.read rotation_root with
    | some r => pure r
    | none => .error .null_dereference
  let t := t.put r (fun n => { n with left := orphan_subtree })
  -- if (orphan_subtree != nullptr) orphan_subtree->parent = rotation_root
  let t := match orphan_subtree with
    | some o => t.put o (fun n => { n with parent := t.read rotation_root })
    | none => t
  -- new_root->right = rotation_root
  let t := t.put q (fun n => { n with right := t.read rotation_root })
  -- the parent slot of rotation_root
  let up := t.lock (← t.deref (t.read rotation_root)).parent
  let t ← match up with
    | none => pure { t with root := new_root }
    | some p => do
      let pn ← t.deref (some p)
      if t.read rotation_root = pn.left then
        pure (t.put p (fun n => { n with left := new_root }))
      else if t.read rotation_root = pn.right then
        pure (t.put p (fun n => { n with right := new_root }))
      else pure t
  -- new_root->parent = rotation_root->parent
  let up_link := (← t.deref (t.read rotation_root)).parent
  let t := t.put q (fun n => { n with parent := up_link })
  -- rotation_root->parent = new_root
  let r ← match t.read rotation_root with
    | some r => pure r
    | none => .error .null_dereference
  let t := t.put r (fun n => { n with parent := new_root })
  -- new_root and orphan_subtree go out of scope
  pure (t.collect held)

/-- The private rotate_left(rotation_root); held are the local variables of
the caller. -/
def rotate_left (t : avl_tree) (rotation_root : slot) (held : List Nat) :
    Except fault avl_tree := do
  -- new_root = rotation_root->right
  let new_root := (← t.deref (t.read rotation_root)).right
  -- orphan_subtree = new_root->left
  let orphan_subtree := (← t.deref new_root).left
  let q ← match new_root with
    | some q => pure q
    | none => .error .null_dereference
  -- rotation_root->right = orphan_subtree
  let r ← match t.read rotation_root with
    | some r => pure r
    | none => .error .null_dereference
  let t := t.put r (fun n => { n with right := orphan_subtree })
  -- if (orphan_subtree != nullptr) orphan_subtree->parent = rotation_root
  let t := match orphan_subtree with
    | some o => t.put o (fun n => { n with parent := t.read rotation_root })
    | none => t
  -- new_root->left = rotation_root
  let t := t.put q (fun n => { n with left := t.read rotation_root })
  -- the parent slot of rotation_root
  let up := t.lock (← t.deref (t.read rotation_root)).parent
  let t ← match up with
    | none => pure { t with root := new_root }
    | some p => do
      let pn ← t.deref (some p)
      if t.read rotation_root = pn.left then
        pure (t.put p (fun n => { n with left := new_root }))
      else
        pure (t.put p (fun n => { n with right := new_root }))
  -- new_root->parent = rotation_root->parent
  let up_link := (← t.deref (t.read rotation_root)).parent
  let t := t.put q (fun n => { n with parent := up_link })
  -- rotation_root->parent = new_root
  let r ← match t.read rotation_root with
    | some r => pure r
    | none => .error .null_dereference
  let t := t.put r (fun n => { n with parent := new_root })
  -- new_root and orphan_subtree go out of scope
  pure (t.collect held)

/-- The private height(x) on a tree: no path without a repeated node is longer
than the store. -/
def height_at (t : avl_tree) (x : ptr) : Except fault Nat :=
  height_from t.store.length t x

/-- The first loop of insert: the descent from current with the last visited
node in parent.  The answer is none when the key was found (return nullptr),
and the final value of parent otherwise. -/
def insert_descent : Nat → avl_tree → Int → ptr → ptr → Except fault (Option ptr)
  | _, _, _, none, parent => .ok (some parent)
  | 0, _, _, some _, _ => .error .step_budget
  | fuel + 1, t, key, some c, _ => do
    let n ← t.deref (some c)
    if key > n.key then insert_descent fuel t key n.right (some c)
    else if key < n.key then insert_descent fuel t key n.left (some c)
    else pure none

/-- The second loop of insert (re-trace up the tree) from current; held are
the other local variables of insert, parent and inserted_node. -/
def insert_retrace : Nat → avl_tree → ptr → List Nat → Except fault avl_tree
  | _, t, none, _ => .ok t
  | 0, _, some _, _ => .error .step_budget
  | fuel + 1, t, some c, held => do
    -- current->balance_factor = height(current->right) - height(current->left)
    let cn ← t.deref (some c)
    let hr ← t.height_at cn.right
    let hl ← t.height_at cn.left
    let bf := to_int32 (sub_u64 hr hl)
    let t := t.put c (fun n => { n with balance_factor := bf })
    let t ←
      if bf = -2 then do
        let ln ← t.deref (← t.deref (some c)).left
        let t ← if ln.balance_factor = 1 then t.rotate_left (.left_field c) (c :: held)
          else pure t
        t.rotate_right (.local_variable c) (c :: held)
      else if bf = 2 then do
        let rn ← t.deref (← t.deref (some c)).right
        let t ← if rn.balance_factor = -1 then t.rotate_right (.right_field c) (c :: held)
          else pure t
        t.rotate_left (.local_variable c) (c :: held)
      else pure t
    -- current = current->parent.lock()
    let next := t.lock (← t.deref (some c)).parent
    let t := t.collect (next.toList ++ held)
    insert_retrace fuel t next held

/-- The public insert(key).  The balance_factor of a new node is left
uninitialised by the constructor and is assigned by the first step of the
re-trace before anything reads it; it is 0 here until then.  The reference
that is returned is not kept by the caller. -/
def insert (t : avl_tree) (key : Int) : Except fault (ptr × avl_tree) := do
  match ← insert_descent t.store.length t key t.root none with
  | none => pure (none, t)
  | some parent =>
    -- current = make_shared(key); current->parent = parent
    let c := t.store.length
    let t := { t with store := t.store ++
      [{ key := key, balance_factor := 0, parent := parent, left := none, right := none,
         live := true }] }
    let t ← match parent with
      | none => pure { t with root := some c }
      | some p => do
        let pn ← t.deref (some p)
        if key > pn.key then pure (t.put p (fun n => { n with right := some c }))
        else if key < pn.key then pure (t.put p (fun n => { n with left := some c }))
        else pure t
    let t ← insert_retrace (2 * t.store.length + 2) t (some c) (parent.toList ++ [c])
    pure (some c, t.collect [])

/-- The loop of search(key) from x. -/
def search_from : Nat → avl_tree → Int → ptr → Except fault ptr
  | _, _, _, none => .ok none
  | 0, _, _, some _ => .error .step_budget
  | fuel + 1, t, key, some x => do
    let n ← t.deref (some x)
    if key > n.key then search_from fuel t key n.right
    else if key < n.key then search_from fuel t key n.left
    else pure (some x)

/-- The public search(key). -/
def search (t : avl_tree) (key : Int) : Except fault ptr :=
  search_from t.store.length t key t.root

/-- The loop while (x->left != nullptr) x = x->left. -/
def leftmost : Nat → avl_tree → Nat → Except fault Nat
  | fuel, t, x => do
    match (← t.deref (some x)).left with
    | none => pure x
    | some l =>
      match fuel with
      | 0 => .error .step_budget
      | fuel + 1 => leftmost fuel t l

/-- The loop while (x->right != nullptr) x = x->right. -/
def rightmost : Nat → avl_tree → Nat → Except fault Nat
  | fuel, t, x => do
    match (← t.deref (some x)).right with
    | none => pure x
    | some r =>
      match fuel with
      | 0 => .error .step_budget
      | fuel + 1 => rightmost fuel t r

/-- The public minimum(). -/
def minimum (t : avl_tree) : Except fault ptr :=
  match t.root with
  | none => .ok none
  | some x => do pure (some (← leftmost t.store.length t x))

/-- The public maximum(). -/
def maximum (t : avl_tree) : Except fault ptr :=
  match t.root with
  | none => .ok none
  | some x => do pure (some (← rightmost t.store.length t x))

/-- The loop of successor: while (parent != nullptr && x == parent->right). -/
def climb_from_right : Nat → avl_tree → Nat → ptr → Except fault ptr
  | _, _, _, none => .ok none
  | 0, _, _, some _ => .error .step_budget
  | fuel + 1, t, x, some p => do
    let pn ← t.deref (some p)
    if some x = pn.right then climb_from_right fuel t p (t.lock pn.parent)
    else pure (some p)

/-- The loop of predecessor: while (parent != nullptr && x == parent->left). -/
def climb_from_left : Nat → avl_tree → Nat → ptr → Except fault ptr
  | _, _, _, none => .ok none
  | 0, _, _, some _ => .error .step_budget
  | fuel + 1, t, x, some p => do
    let pn ← t.deref (some p)
    if some x = pn.left then climb_from_left fuel t p (t.lock pn.parent)
    else pure (some p)

/-- The outer loop of successor(key) from x. -/
def successor_from : Nat → avl_tree → Int → ptr → Except fault ptr
  | _, _, _, none => .ok none
  | 0, _, _, some _ => .error .step_budget
  | fuel + 1, t, key, some x => do
    let n ← t.deref (some x)
    if key > n.key then successor_from fuel t key n.right
    else if key < n.key then successor_from fuel t key n.left
    else
      match n.right with
      | some r => do pure (some (← leftmost t.store.length t r))
      | none => climb_from_right (t.store.length + 1) t x (t.lock n.parent)

/-- The outer loop of predecessor(key) from x. -/
def predecessor_from : Nat → avl_tree → Int → ptr → Except fault ptr
  | _, _, _, none => .ok none
  | 0, _, _, some _ => .error .step_budget
  | fuel + 1, t, key, some x => do
    let n ← t.deref (some x)
    if key > n.key then predecessor_from fuel t key n.right
    else if key < n.key then predecessor_from fuel t key n.left
    else
      match n.left with
      | some l => do pure (some (← rightmost t.store.length t l))
      | none => climb_from_left (t.store.length + 1) t x (t.lock n.parent)

/-- The public successor(key). -/
def successor (t : avl_tree) (key : Int) : Except fault ptr :=
  successor_from t.store.length t key t.root

/-- The public predecessor(key). -/
def predecessor (t : avl_tree) (key : Int) : Except fault ptr :=
  predecessor_from t.store.length t key t.root

/-- The public height(). -/
def height (t : avl_tree) : Except fault Nat := t.height_at t.root

/-- The public size(). -/
def size (t : avl_tree) : Except fault Nat := size_from t.store.length t t.root

/-- The public empty(). -/
def empty (t : avl_tree) : Bool :=
  if t.root = none then true else false

/-- The public in_order_traversal(handler): the nodes handed to the handler. -/
def in_order_traversal (t : avl_tree) : Except fault (List Nat) :=
  in_order_from t.store.length t t.root

/-- The key of the node a non-null reference points to. -/
def key_of (t : avl_tree) (i : Nat) : Option Int :=
  match t.store[i]? with
  | some n => some n.key
  | none => none

/-- The keys seen by a handler that reads x->key in in_order_traversal. -/
def in_order_keys (t : avl_tree) : Except fault (List Int) := do
  pure ((← t.in_order_traversal).filterMap t.key_of)

/-- A sequence of insert calls on t, one after the other. -/
def insert_all : avl_tree → List Int → Except fault avl_tree
  | t, [] => .ok t
  | t, k :: ks => do
    let (_, t) ← t.insert k
    insert_all t ks

/-- A sequence of insert calls on t together with what each call returned. -/
def insert_results : avl_tree → List Int → Except fault (List ptr × avl_tree)
  | t, [] => .ok ([], t)
  | t, k :: ks => do
    let (r, t) ← t.insert k
    let (rs, t) ← insert_results t ks
    pure (r :: rs, t)

end avl_tree

/-! ## Observations used to state the properties -/

/-- A binary tree of keys: what is reachable from a node through left and
right, without the references. -/
inductive key_tree where
  | leaf
  | node (left : key_tree) (key : Int) (right : key_tree)
deriving DecidableEq, Repr

namespace avl_tree

/-- The tree of keys below x. -/
def shape_from : Nat → avl_tree → ptr → Except fault key_tree
  | _, _, none => .ok .leaf
  | 0, _, some _ => .error .step_budget
  | fuel + 1, t, some x => do
    let n ← t.deref (some x)
    let l ← shape_from fuel t n.left
    let r ← shape_from fuel t n.right
    pure (.node l n.key r)

/-- The tree of keys reachable from the root. -/
def shape (t : avl_tree) : Except fault key_tree :=
  shape_from t.store.length t t.root

/-- The balance of node x: height(right) - height(left) as an integer, the
heights being those of the private height(x). -/
def balance_at (t : avl_tree) (x : Nat) : Except fault Int := do
  let n ← t.deref (some x)
  let hr ← t.height_at n.right
  let hl ← t.height_at n.left
  pure ((hr : Int) - (hl : Int))

/-- For every node in the order of in_order_traversal: its key and its
balance. -/
def in_order_balances (t : avl_tree) : Except fault (List (Int × Int)) := do
  (← t.in_order_traversal).mapM (fun x => do
    let n ← t.deref (some x)
    pure (n.key, ← t.balance_at x))

/-- For every node in the order of in_order_traversal: its key and its
stored balance_factor field. -/
def in_order_stored_balance_factors (t : avl_tree) : Except fault (List (Int × Int)) := do
  (← t.in_order_traversal).mapM (fun x => do
    let n ← t.deref (some x)
    pure (n.key, n.balance_factor))

/-- Whether every node below x has height(right) - height(left) in -1, 0, 1. -/
def height_balanced_from : Nat → avl_tree → ptr → Except fault Bool
  | _, _, none => .ok true
  | 0, _, some _ => .error .step_budget
  | fuel + 1, t, some x => do
    let n ← t.deref (some x)
    let b ← t.balance_at x
    let l ← height_balanced_from fuel t n.left
    let r ← height_balanced_from fuel t n.right
    pure (decide (-1 ≤ b ∧ b ≤ 1) && l && r)

/-- Whether every node reachable from the root is height-balanced. -/
def height_balanced (t : avl_tree) : Except fault Bool :=
  height_balanced_from t.store.length t t.root

/-- Whether x, reached from the node (or the root member) above, has that
node as its locked parent link, and so on below x. -/
def parent_consistent_from : Nat → avl_tree → ptr → ptr → Except fault Bool
  | _, _, _, none => .ok true
  | 0, _, _, some _ => .error .step_budget
  | fuel + 1, t, above, some x => do
    let n ← t.deref (some x)
    let l ← parent_consistent_from fuel t (some x) n.left
    let r ← parent_consistent_from fuel t (some x) n.right
    pure (decide (t.lock n.parent = above) && l && r)

/-- Parent consistency of the tree reachable from the root. -/
def parent_consistent (t : avl_tree) : Except fault Bool :=
  parent_consistent_from t.store.length t none t.root

/-- The key of the node a reference points to, null for null. -/
def key_at (t : avl_tree) (p : ptr) : Option Int :=
  match p with
  | none => none
  | some i => t.key_of i

/-- The tree after the inserts 30, 10, 20: the third insert does a double
rotation. -/
def tree_30_10_20 : avl_tree :=
  { root := some 2,
    store :=
      [{ key := 30, balance_factor := -2, parent := some 2, left := none, right := none,
         live := true },
       { key := 10, balance_factor := 1, parent := some 0, left := none, right := none,
         live := true },
       { key := 20, balance_factor := 0, parent := none, left := some 1, right := some 0,
         live := true }] }

end avl_tree

/-! ## Trees of references -/

/-- A binary tree of references: the nodes that are reachable from a
reference through left and right, with the way they hang together. -/
inductive ref_tree where
  | leaf
  | node (left : ref_tree) (x : Nat) (right : ref_tree)
deriving DecidableEq, Repr

namespace ref_tree

/-- The nodes in the order left subtree, node, right subtree. -/
def nodes : ref_tree → List Nat
  | leaf => []
  | node l x r => nodes l ++ x :: nodes r

/-- The number of nodes on the longest path down from the top. -/
def depth : ref_tree → Nat
  | leaf => 0
  | node l _ r => max (depth l) (depth r) + 1

/-- The reference to the top node, null for the empty tree. -/
def top : ref_tree → ptr
  | leaf => none
  | node _ x _ => some x

/-- The nodes at depth d (the top node has depth 0), from left to right. -/
def at_depth : ref_tree → Nat → List Nat
  | leaf, _ => []
  | node _ x _, 0 => [x]
  | node l _ r, d + 1 => at_depth l d ++ at_depth r d

/-- Level order: the nodes at depth 0, then those at depth 1, and so on, each
level from left to right. -/
def level_order (T : ref_tree) : List Nat :=
  (List.range T.depth).flatMap T.at_depth

/-- The rotation to the right at node p: the left child q of p takes the place
of p, p becomes the right child of q and the right subtree of q becomes the
left subtree of p. -/
def rotate_right_at (p : Nat) : ref_tree → ref_tree
  | leaf => leaf
  | node l x r =>
    if x = p then
      match l with
      | node a q b => node a q (node b x r)
      | leaf => node leaf x r
    else node (rotate_right_at p l) x (rotate_right_at p r)

/-- The rotation to the left at node p, the mirror image of rotate_right_at. -/
def rotate_left_at (p : Nat) : ref_tree → ref_tree
  | leaf => leaf
  | node l x r =>
    if x = p then
      match r with
      | node b q c => node (node l x b) q c
      | leaf => node l x leaf
    else node (rotate_left_at p l) x (rotate_left_at p r)

/-- The balance of a tree: depth of the right subtree minus depth of the left
subtree of its top node. -/
def balance : ref_tree → Int
  | leaf => 0
  | node l _ r => (depth r : Int) - (depth l : Int)

/-- The tree as a queue of non-empty trees. -/
def as_forest : ref_tree → List ref_tree
  | leaf => []
  | node l x r => [node l x r]

/-- Level order of a queue of trees, down to depth D: the tops of the trees,
then their nodes at depth 1, and so on. -/
def forest_levels (ts : List ref_tree) (D : Nat) : List Nat :=
  (List.range D).flatMap (fun d => ts.flatMap (fun T => T.at_depth d))

/-- The number of nodes of a queue of trees. -/
def forest_size (ts : List ref_tree) : Nat :=
  (ts.map (fun T => T.nodes.length)).sum

end ref_tree

/-- One step of a path from a node down to a subtree: the node x, whether the
subtree is its left child (dir) and the subtree on the other side. -/
structure frame where
  x : Nat
  dir : Bool
  sib : ref_tree
deriving DecidableEq, Repr

namespace frame

/-- The tree at node x of the frame with S as the subtree the path goes to. -/
def fill (f : frame) (S : ref_tree) : ref_tree :=
  if f.dir then .node S f.x f.sib else .node f.sib f.x S

end frame

namespace ref_tree

/-- The tree with S at the end of the path fs; the frames are listed from the
parent of S up to the root. -/
def plug : List frame → ref_tree → ref_tree
  | [], S => S
  | f :: fs, S => plug fs (f.fill S)

/-- The nodes of the tree that come before the subtree at the end of the path
in the in-order sequence. -/
def ctx_before : List frame → List Nat
  | [] => []
  | f :: fs => ctx_before fs ++ (if f.dir then [] else f.sib.nodes ++ [f.x])

/-- The nodes of the tree that come after the subtree at the end of the path
in the in-order sequence. -/
def ctx_after : List frame → List Nat
  | [] => []
  | f :: fs => (if f.dir then f.x :: f.sib.nodes else []) ++ ctx_after fs

end ref_tree

namespace avl_tree

/-- The key of node x, for a node of the store. -/
def key_val (t : avl_tree) (x : Nat) : Int :=
  match t.store[x]? with
  | some n => n.key
  | none => 0

/-- The child links below the reference p form the tree T: p refers to the top
of T, and the left and right fields of every node of T refer to the tops of
its subtrees. -/
def reps (t : avl_tree) : ref_tree → ptr → Bool
  | .leaf, p => p == none
  | .node l x r, p =>
    p == some x && decide (x < t.store.length)
      && reps t l (t.read (.left_field x)) && reps t r (t.read (.right_field x))

/-- Binary-search-tree order on T: every key in the left subtree of a node is
smaller and every key in its right subtree is larger than the key of the
node. -/
def ordered (t : avl_tree) : ref_tree → Bool
  | .leaf => true
  | .node l x r =>
    l.nodes.all (fun y => decide (t.key_val y < t.key_val x))
      && r.nodes.all (fun y => decide (t.key_val x < t.key_val y))
      && ordered t l && ordered t r

/-- The parent link of node x, locked. -/
def parent_of (t : avl_tree) (x : Nat) : ptr :=
  match t.store[x]? with
  | some n => t.lock n.parent
  | none => none

/-- Parent consistency on T, whose top hangs from above (null for the root of
the tree): the parent link of every node refers to the node it is a child
of. -/
def linked (t : avl_tree) : ref_tree → ptr → Bool
  | .leaf, _ => true
  | .node l x r, above =>
    t.parent_of x == above && linked t l (some x) && linked t r (some x)

/-- The loop of the private breadth_first_traversal(x, handler) on the queue:
the nodes handed to the handler, in the order of the calls. -/
def breadth_first_loop : Nat → avl_tree → List Nat → Except fault (List Nat)
  | _, _, [] => .ok []
  | 0, _, _ :: _ => .error .step_budget
  | fuel + 1, t, y :: queue => do
    let n ← t.deref (some y)
    let visited ← breadth_first_loop fuel t (queue ++ n.left.toList ++ n.right.toList)
    pure (y :: visited)

/-- The public breadth_first_traversal(handler): the nodes handed to the
handler.  Child links without a cycle reach a node along at most
2 ^ store.length paths. -/
def breadth_first_traversal (t : avl_tree) : Except fault (List Nat) :=
  match t.root with
  | none => .ok []
  | some x => breadth_first_loop (2 ^ t.store.length) t [x]

/-- The state t2 is t up to the lifetime flags: same root member and, node by
node, the same key, balance_factor, parent, left and right. -/
def same_fields (t t2 : avl_tree) : Prop :=
  t2.root = t.root ∧ t2.store.length = t.store.length ∧
    ∀ (j : Nat) (n : avl_tree_node), t.store[j]? = some n →
      ∃ b, t2.store[j]? = some { n with live := b }

/-- The store of t2 is the store of t with g applied node by node. -/
def mapped (t t2 : avl_tree) (g : Nat → avl_tree_node → avl_tree_node) : Prop :=
  t2.store.length = t.store.length ∧
    ∀ (j : Nat) (n : avl_tree_node), t.store[j]? = some n → t2.store[j]? = some (g j n)

/-- The tree after the inserts 10, 20, 30: the third insert does a single
rotation. -/
def tree_10_20_30 : avl_tree :=
  { root := some 1,
    store :=
      [{ key := 10, balance_factor := 2, parent := some 1, left := none, right := none,
         live := true },
       { key := 20, balance_factor := 0, parent := none, left := some 0, right := some 2,
         live := true },
       { key := 30, balance_factor := 0, parent := some 1, left := none, right := none,
         live := true }] }

/-- The child links of tree_10_20_30. -/
def ref_10_20_30 : ref_tree :=
  .node (.node .leaf 0 .leaf) 1 (.node .leaf 2 .leaf)

/-- The state in which insert(20), after insert(30) and insert(10), calls
rotate_left(current->left): current is node 0 (key 30), its left child is
node 1 (key 10), whose right child is the new node 2 (key 20). -/
def tree_30_10_20_before_rotation : avl_tree :=
  { root := some 0,
    store :=
      [{ key := 30, balance_factor := -2, parent := none, left := some 1, right := none,
         live := true },
       { key := 10, balance_factor := 1, parent := some 0, left := none, right := some 2,
         live := true },
       { key := 20, balance_factor := 0, parent := some 1, left := none, right := none,
         live := true }] }

/-- The child links of tree_30_10_20_before_rotation. -/
def ref_30_10_20_before_rotation : ref_tree :=
  .node (.node .leaf 1 (.node .leaf 2 .leaf)) 0 .leaf

/-- The path fs leads from the root member down to the reference a: the tree
hangs from the root member, every node on the path has the next one (at the
end a) in the field on the side of the path and the subtree beside the path
below its other field. -/
def hangs (t : avl_tree) : List frame → ptr → Prop
  | [], a => t.root = a
  | f :: fs, a =>
    f.x < t.store.length ∧
      (if f.dir then
        t.read (.left_field f.x) = a ∧ t.reps f.sib (t.read (.right_field f.x)) = true
      else
        t.read (.right_field f.x) = a ∧ t.reps f.sib (t.read (.left_field f.x)) = true) ∧
      hangs t fs (some f.x)

/-- The state t2 is t with some nodes destroyed: same root member, same fields
node by node, and every node that is alive in t2 was alive in t. -/
def fades (t t2 : avl_tree) : Prop :=
  same_fields t t2 ∧
    ∀ (j : Nat) (n n2 : avl_tree_node), t.store[j]? = some n → t2.store[j]? = some n2 →
      n2.live = true → n.live = true

/-- The nodes on a path and in the subtrees beside it. -/
def ctx_nodes (fs : List frame) : List Nat :=
  ref_tree.ctx_before fs ++ ref_tree.ctx_after fs

/-- The re-trace has left the subtree C for the node above: the stored
balance_factor of the top node of C is the balance of C and its parent link
refers to the node above. -/
def settled (t : avl_tree) (C : ref_tree) (above : ptr) : Prop :=
  ∀ x, C.top = some x →
    ∃ n, t.store[x]? = some n ∧ n.balance_factor = C.balance ∧ t.parent_of x = above

/-- The child links of tree_30_10_20: the node with key 20 is the root, the
nodes with the keys 10 and 30 are its children. -/
def ref_30_10_20 : ref_tree :=
  .node (.node .leaf 1 .leaf) 2 (.node .leaf 0 .leaf)

end avl_tree
/-! ## Properties -/

namespace avl_tree

set_option maxRecDepth 100000

/-- A descent that search ends on a node is a descent that insert ends with
return nullptr. -/
theorem insert_descent_of_search_from (t : avl_tree) (key : Int) :
    ∀ (fuel : Nat) (c parent : ptr) (x : Nat),
      search_from fuel t key c = .ok (some x) →
      insert_descent fuel t key c parent = .ok none := by
  intro fuel
  induction fuel with
  | zero =>
    intro c parent x h
    cases c with
    | none => simp [search_from] at h
    | some c => simp [search_from] at h
  | succ fuel ih =>
    intro c parent x h
    cases c with
    | none => simp [search_from] at h
    | some c =>
      simp only [search_from, insert_descent, bind, Except.bind] at h ⊢
      cases hd : t.deref (some c) with
      | error e => simp [hd] at h
      | ok n =>
        simp only [hd] at h ⊢
        by_cases h1 : key > n.key
        · simp only [h1, if_true] at h ⊢
          exact ih _ _ _ h
        · simp only [h1, if_false] at h ⊢
          by_cases h2 : key < n.key
          · simp only [h2, if_true] at h ⊢
            exact ih _ _ _ h
          · simp only [h2, if_false]
            rfl

/-- C1, evaluated at the failing input: the keys 30, 10, 20, 5, 1 are inserted
into the empty tree, every insert returns a node, and afterwards
in_order_traversal visits the keys 10, 20, 30 only; 5 and 1 are missing. -/
theorem in_order_misses_inserted_keys :
    (do
      let (rs, t) ← insert_results empty_tree [30, 10, 20, 5, 1]
      pure (rs, ← t.in_order_keys))
      = .ok ([some 0, some 1, some 2, some 3, some 4], [10, 20, 30]) := rfl

/-- C2, evaluated at the failing input: after the keys 4, 2, 1, 6, 5, 3, 7 are
inserted into the empty tree (every insert returns a node), the node with key
5 is reachable from the root, has no left child and a right subtree of height
2: its height(right) - height(left) is 2. -/
theorem insert_leaves_unbalanced_node :
    (do
      let (rs, t) ← insert_results empty_tree [4, 2, 1, 6, 5, 3, 7]
      pure (rs, ← t.shape, ← t.in_order_balances, ← t.height_balanced))
      = .ok ([some 0, some 1, some 2, some 3, some 4, some 5, some 6],
          .node (.node (.node .leaf 1 .leaf) 2 (.node .leaf 3 .leaf)) 4
            (.node .leaf 5 (.node .leaf 6 (.node .leaf 7 .leaf))),
          [(1, 0), (2, 0), (3, 0), (4, 1), (5, 2), (6, 1), (7, 0)],
          false) := rfl

/-- C3, evaluated at the failing input: after the inserts 30, 10, 20 (the third
does a double rotation whose first rotation is called on current->left) the
root has key 20, its left child has key 10, and the parent link of that child
refers to the node with key 30, not to the root. -/
theorem double_rotation_leaves_stale_parent :
    insert_all empty_tree [30, 10, 20] = .ok tree_30_10_20 ∧
    tree_30_10_20.parent_consistent = .ok false ∧
    (do
      let r ← tree_30_10_20.deref tree_30_10_20.root
      let c ← tree_30_10_20.deref r.left
      pure (r.key, c.key, tree_30_10_20.key_at (tree_30_10_20.lock c.parent)))
      = .ok (20, 10, some 30) := ⟨rfl, rfl, rfl⟩

/-- C4, evaluated at the failing input: in the sequence insert(30), insert(10),
insert(20), insert(5), insert(1) every call returns a node, and on the
resulting tree search(5) and search(1) return nullptr. -/
theorem search_misses_inserted_key :
    (do
      let (rs, t) ← insert_results empty_tree [30, 10, 20, 5, 1]
      pure (rs, ← t.search 5, ← t.search 1))
      = .ok ([some 0, some 1, some 2, some 3, some 4], none, none) := rfl

/-- C5, evaluated at the failing input: in the tree built by the inserts 30,
10, 20, successor(10) returns the node with key 30 and predecessor(30) returns
the node with key 20, not the node with key 10. -/
theorem predecessor_of_successor_differs :
    (do
      let t ← insert_all empty_tree [30, 10, 20]
      let s ← t.successor 10
      let p ← t.predecessor 30
      pure (t.key_at s, t.key_at p))
      = .ok (some 30, some 20) := rfl

/-- C6, evaluated at the failing input: on the tree reached by the inserts 30,
10, 20, 5, the call insert(1) returns a node, the second insert(1) right after
it returns a node as well, and size() is 3 after the first call and 4 after
the second. -/
theorem second_insert_not_rejected :
    (do
      let t ← insert_all empty_tree [30, 10, 20, 5]
      let (r1, t1) ← t.insert 1
      let (r2, t2) ← t1.insert 1
      pure (r1, r2, ← t1.size, ← t2.size))
      = .ok (some 4, some 5, 3, 4) := rfl

/-- C7: on every tree state and for every key on which search returns a node,
insert returns nullptr and the tree state (the root and every field of every
node) is the one before the call. -/
theorem insert_duplicate_unchanged (t : avl_tree) (key : Int) (x : Nat)
    (h : t.search key = .ok (some x)) : t.insert key = .ok (none, t) := by
  have hd := insert_descent_of_search_from t key t.store.length t.root none x h
  simp only [insert, hd, bind, Except.bind]
  rfl

/-- C7 at a concrete tree: insert(10) on the tree of the inserts 30, 10, 20. -/
theorem insert_duplicate_unchanged_witness :
    tree_30_10_20.search 10 = .ok (some 1) ∧
    tree_30_10_20.insert 10 = .ok (none, tree_30_10_20) :=
  ⟨rfl, insert_duplicate_unchanged tree_30_10_20 10 1 rfl⟩

/-- C8, evaluated at the failing input: after the inserts 10, 20, 30 the root
has key 20 with the leaves 10 and 30 as children and every node has
height(right) - height(left) = 0, but the stored balance_factor of the node
with key 10 is 2 (those of 20 and 30 are 0). -/
theorem ascending_three_stored_balance :
    (do
      let t ← insert_all empty_tree [10, 20, 30]
      pure (← t.shape, ← t.in_order_stored_balance_factors, ← t.in_order_balances))
      = .ok (.node (.node .leaf 10 .leaf) 20 (.node .leaf 30 .leaf),
          [(10, 2), (20, 0), (30, 0)],
          [(10, 0), (20, 0), (30, 0)]) := rfl

/-- C9: inserting 30, 10, 20 into the empty tree gives the tree whose root has
key 20, whose left child is the leaf 10 and whose right child is the leaf 30,
and nothing else is reachable from the root. -/
theorem double_rotation_shape :
    (do
      let t ← insert_all empty_tree [30, 10, 20]
      t.shape)
      = .ok (.node (.node .leaf 10 .leaf) 20 (.node .leaf 30 .leaf)) := rfl

/-- C10: on the empty tree minimum, maximum, search, successor and predecessor
return nullptr for every key, height and size are 0 and empty is true.  The
queries assign to nothing: they are functions of the tree. -/
theorem empty_tree_queries (k : Int) :
    empty_tree.minimum = .ok none ∧ empty_tree.maximum = .ok none ∧
    empty_tree.search k = .ok none ∧ empty_tree.successor k = .ok none ∧
    empty_tree.predecessor k = .ok none ∧ empty_tree.height = .ok 0 ∧
    empty_tree.size = .ok 0 ∧ empty_tree.empty = true :=
  ⟨rfl, rfl, rfl, rfl, rfl, rfl, rfl, rfl⟩

end avl_tree

namespace avl_tree

set_option maxRecDepth 100000

/-! ### Trees of references in the store -/

theorem reps_node {t : avl_tree} {l r : ref_tree} {x : Nat} {p : ptr}
    (h : t.reps (.node l x r) p = true) :
    p = some x ∧ ∃ n, t.store[x]? = some n ∧ t.deref (some x) = .ok n ∧
      t.reps l n.left = true ∧ t.reps r n.right = true := by
  simp only [reps, Bool.and_eq_true, beq_iff_eq, decide_eq_true_eq] at h
  obtain ⟨⟨⟨hp, hx⟩, hl⟩, hr⟩ := h
  have hs : t.store[x]? = some t.store[x] := List.getElem?_eq_getElem hx
  refine ⟨hp, t.store[x], hs, ?_, ?_, ?_⟩
  · simp [deref, hs]
  · simpa [read, hs] using hl
  · simpa [read, hs] using hr

theorem reps_leaf {t : avl_tree} {p : ptr} (h : t.reps .leaf p = true) : p = none := by
  simpa [reps] using h

theorem reps_top {t : avl_tree} {T : ref_tree} {p : ptr} (h : t.reps T p = true) :
    p = T.top := by
  cases T with
  | leaf => simpa [reps, ref_tree.top] using h
  | node l x r => exact (reps_node h).1

theorem nodes_lt_length {t : avl_tree} :
    ∀ {T : ref_tree} {p : ptr}, t.reps T p = true → ∀ y ∈ T.nodes, y < t.store.length := by
  intro T
  induction T with
  | leaf => intro p _ y hy; simp [ref_tree.nodes] at hy
  | node l x r ihl ihr =>
    intro p h y hy
    have hx : x < t.store.length := by
      simp only [reps, Bool.and_eq_true, decide_eq_true_eq] at h
      exact h.1.1.2
    obtain ⟨_, n, _, _, hl, hr⟩ := reps_node h
    simp only [ref_tree.nodes, List.mem_append, List.mem_cons] at hy
    rcases hy with hy | rfl | hy
    · exact ihl hl y hy
    · exact hx
    · exact ihr hr y hy

theorem depth_le_length_nodes : ∀ T : ref_tree, T.depth ≤ T.nodes.length := by
  intro T
  induction T with
  | leaf => simp [ref_tree.depth]
  | node l x r ihl ihr =>
    simp only [ref_tree.depth, ref_tree.nodes, List.length_append, List.length_cons]
    omega

theorem nodes_length_le {t : avl_tree} {T : ref_tree} {p : ptr} (h : t.reps T p = true)
    (hn : T.nodes.Nodup) : T.nodes.length ≤ t.store.length := by
  have hsub : T.nodes ⊆ List.range t.store.length := by
    intro y hy
    exact List.mem_range.mpr (nodes_lt_length h y hy)
  simpa using (hn.subperm hsub).length_le

theorem depth_le_store {t : avl_tree} {T : ref_tree} {p : ptr} (h : t.reps T p = true)
    (hn : T.nodes.Nodup) : T.depth ≤ t.store.length :=
  le_trans (depth_le_length_nodes T) (nodes_length_le h hn)

theorem ordered_node {t : avl_tree} {l r : ref_tree} {x : Nat}
    (h : t.ordered (.node l x r) = true) :
    (∀ y ∈ l.nodes, t.key_val y < t.key_val x) ∧ (∀ y ∈ r.nodes, t.key_val x < t.key_val y) ∧
      t.ordered l = true ∧ t.ordered r = true := by
  simp only [ordered, Bool.and_eq_true, List.all_eq_true, decide_eq_true_eq] at h
  exact ⟨h.1.1.1, h.1.1.2, h.1.2, h.2⟩

theorem ordered_pairwise {t : avl_tree} :
    ∀ {T : ref_tree}, t.ordered T = true →
      T.nodes.Pairwise (fun a b => t.key_val a < t.key_val b) := by
  intro T
  induction T with
  | leaf => intro _; simp [ref_tree.nodes]
  | node l x r ihl ihr =>
    intro h
    obtain ⟨hl, hr, hol, hor⟩ := ordered_node h
    simp only [ref_tree.nodes]
    rw [List.pairwise_append]
    refine ⟨ihl hol, ?_, ?_⟩
    · rw [List.pairwise_cons]
      exact ⟨hr, ihr hor⟩
    · intro a ha b hb
      simp only [List.mem_cons] at hb
      rcases hb with rfl | hb
      · exact hl a ha
      · exact lt_trans (hl a ha) (hr b hb)

theorem ordered_nodup {t : avl_tree} {T : ref_tree} (h : t.ordered T = true) :
    T.nodes.Nodup := by
  have hp := ordered_pairwise h
  exact hp.imp (fun {a b} hab heq => by subst heq; exact lt_irrefl _ hab)

theorem in_order_from_reps {t : avl_tree} :
    ∀ {T : ref_tree} {p : ptr} {fuel : Nat}, t.reps T p = true → T.depth ≤ fuel →
      in_order_from fuel t p = .ok T.nodes := by
  intro T
  induction T with
  | leaf =>
    intro p fuel h _
    rw [reps_leaf h]
    cases fuel <;> rfl
  | node l x r ihl ihr =>
    intro p fuel h hf
    obtain ⟨hp, n, _, hd, hl, hr⟩ := reps_node h
    subst hp
    cases fuel with
    | zero => simp [ref_tree.depth] at hf
    | succ fuel =>
      simp only [ref_tree.depth] at hf
      simp only [in_order_from, hd, bind, Except.bind,
        ihl hl (by omega : l.depth ≤ fuel), ihr hr (by omega : r.depth ≤ fuel)]
      rfl
theorem key_val_of_store {t : avl_tree} {x : Nat} {n : avl_tree_node}
    (h : t.store[x]? = some n) : t.key_val x = n.key := by
  simp [key_val, h]

/-! ### search, minimum, maximum -/

theorem search_from_reps {t : avl_tree} (k : Int) :
    ∀ {T : ref_tree} {p : ptr} {fuel : Nat}, t.reps T p = true → t.ordered T = true →
      T.depth ≤ fuel →
      ∃ r, search_from fuel t k p = .ok r ∧
        (∀ x, r = some x → x ∈ T.nodes ∧ t.key_val x = k) ∧
        (r = none → ∀ x ∈ T.nodes, t.key_val x ≠ k) := by
  intro T
  induction T with
  | leaf =>
    intro p fuel h _ _
    rw [reps_leaf h]
    refine ⟨none, by cases fuel <;> rfl, by simp, by simp [ref_tree.nodes]⟩
  | node l x r ihl ihr =>
    intro p fuel h ho hf
    obtain ⟨hp, n, hs, hd, hl, hr⟩ := reps_node h
    obtain ⟨hlt, hgt, hol, hor⟩ := ordered_node ho
    have hk := key_val_of_store hs
    subst hp
    cases fuel with
    | zero => simp [ref_tree.depth] at hf
    | succ fuel =>
      simp only [ref_tree.depth] at hf
      simp only [search_from, hd, bind, Except.bind]
      by_cases h1 : k > n.key
      · obtain ⟨r0, hr0, hsome, hnone⟩ := ihr hr hor (by omega : r.depth ≤ fuel)
        refine ⟨r0, by simp only [h1, if_true]; exact hr0, ?_, ?_⟩
        · intro y hy
          obtain ⟨hm, hky⟩ := hsome y hy
          exact ⟨by simp [ref_tree.nodes, hm], hky⟩
        · intro hn y hy
          simp only [ref_tree.nodes, List.mem_append, List.mem_cons] at hy
          rcases hy with hy | rfl | hy
          · have := hlt y hy; omega
          · omega
          · exact hnone hn y hy
      · by_cases h2 : k < n.key
        · obtain ⟨r0, hr0, hsome, hnone⟩ := ihl hl hol (by omega : l.depth ≤ fuel)
          refine ⟨r0, by simp only [h1, h2, if_true, if_false]; exact hr0, ?_, ?_⟩
          · intro y hy
            obtain ⟨hm, hky⟩ := hsome y hy
            exact ⟨by simp [ref_tree.nodes, hm], hky⟩
          · intro hn y hy
            simp only [ref_tree.nodes, List.mem_append, List.mem_cons] at hy
            rcases hy with hy | rfl | hy
            · exact hnone hn y hy
            · omega
            · have := hgt y hy; omega
        · refine ⟨some x, by simp only [h1, h2, if_false]; rfl, ?_, by simp⟩
          intro y hy
          simp only [Option.some.injEq] at hy
          subst hy
          exact ⟨by simp [ref_tree.nodes], by omega⟩

/-- C14: on a tree in binary-search-tree order search(k) returns; it returns a
node if and only if k is the key of a node reachable from the root, and a node
it returns is reachable and has key k. -/
theorem search_iff_stored (t : avl_tree) (T : ref_tree) (k : Int)
    (hreps : t.reps T t.root = true) (hord : t.ordered T = true) :
    ∃ r, t.search k = .ok r ∧
      (r.isSome = true ↔ ∃ x ∈ T.nodes, t.key_val x = k) ∧
      (∀ x, r = some x → x ∈ T.nodes ∧ t.key_val x = k) := by
  obtain ⟨r, hr, hsome, hnone⟩ :=
    search_from_reps k hreps hord (depth_le_store hreps (ordered_nodup hord))
  refine ⟨r, hr, ?_, hsome⟩
  constructor
  · intro h
    obtain ⟨x, hx⟩ := Option.isSome_iff_exists.mp h
    exact ⟨x, hsome x hx⟩
  · rintro ⟨x, hx, hkx⟩
    cases r with
    | none => exact absurd hkx (hnone rfl x hx)
    | some y => rfl
theorem getLast_append_cons {α : Type} (l₁ l₂ : List α) (a : α) :
    (l₁ ++ a :: l₂).getLast? = (a :: l₂).getLast? :=
  List.getLast?_append_of_ne_nil l₁ (List.cons_ne_nil a l₂)

theorem leftmost_reps {t : avl_tree} :
    ∀ {l r : ref_tree} {x fuel : Nat}, t.reps (.node l x r) (some x) = true →
      l.depth ≤ fuel →
      ∃ m, leftmost fuel t x = .ok m ∧ (ref_tree.node l x r).nodes.head? = some m := by
  intro l
  induction l with
  | leaf =>
    intro r x fuel h _
    obtain ⟨_, n, _, hd, hl, _⟩ := reps_node h
    have hnl := reps_leaf hl
    refine ⟨x, ?_, by simp [ref_tree.nodes]⟩
    rw [leftmost]
    simp only [hd, bind, Except.bind, hnl]
    rfl
  | node ll y lr ihl _ =>
    intro r x fuel h hf
    obtain ⟨_, n, _, hd, hl, _⟩ := reps_node h
    have hy := (reps_node hl).1
    rw [hy] at hl
    cases fuel with
    | zero => simp [ref_tree.depth] at hf
    | succ fuel =>
      simp only [ref_tree.depth] at hf
      obtain ⟨m, hm, hh⟩ := ihl (r := lr) hl (by omega : ll.depth ≤ fuel)
      refine ⟨m, ?_, ?_⟩
      · rw [leftmost]
        simp only [hd, bind, Except.bind, hy]
        exact hm
      · simp only [ref_tree.nodes] at hh ⊢
        cases hll : ll.nodes with
        | nil => simpa [hll] using hh
        | cons a as => simpa [hll] using hh

theorem rightmost_reps {t : avl_tree} :
    ∀ {r l : ref_tree} {x fuel : Nat}, t.reps (.node l x r) (some x) = true →
      r.depth ≤ fuel →
      ∃ m, rightmost fuel t x = .ok m ∧ (ref_tree.node l x r).nodes.getLast? = some m := by
  intro r
  induction r with
  | leaf =>
    intro l x fuel h _
    obtain ⟨_, n, _, hd, _, hr⟩ := reps_node h
    have hnr := reps_leaf hr
    refine ⟨x, ?_, by simp [ref_tree.nodes]⟩
    rw [rightmost]
    simp only [hd, bind, Except.bind, hnr]
    rfl
  | node rl y rr _ ihr =>
    intro l x fuel h hf
    obtain ⟨_, n, _, hd, _, hr⟩ := reps_node h
    have hy := (reps_node hr).1
    rw [hy] at hr
    cases fuel with
    | zero => simp [ref_tree.depth] at hf
    | succ fuel =>
      simp only [ref_tree.depth] at hf
      obtain ⟨m, hm, hh⟩ := ihr (l := rl) hr (by omega : rr.depth ≤ fuel)
      refine ⟨m, ?_, ?_⟩
      · rw [rightmost]
        simp only [hd, bind, Except.bind, hy]
        exact hm
      · simp only [ref_tree.nodes] at hh ⊢
        rw [getLast_append_cons] at hh ⊢
        rw [show x :: (rl.nodes ++ y :: rr.nodes) = (x :: rl.nodes) ++ y :: rr.nodes from rfl,
          getLast_append_cons]
        exact hh
/-- C16: on a non-empty tree in binary-search-tree order minimum() returns the
first and maximum() the last node visited by in_order_traversal, and their
keys are a lower and an upper bound of every key in the tree. -/
theorem minimum_maximum_extreme (t : avl_tree) (T : ref_tree)
    (hreps : t.reps T t.root = true) (hord : t.ordered T = true) (hne : t.root ≠ none) :
    ∃ m M visits, t.minimum = .ok (some m) ∧ t.maximum = .ok (some M) ∧
      t.in_order_traversal = .ok visits ∧ visits = T.nodes ∧
      visits.head? = some m ∧ visits.getLast? = some M ∧
      (∀ y ∈ visits, t.key_val m ≤ t.key_val y) ∧
      (∀ y ∈ visits, t.key_val y ≤ t.key_val M) := by
  have hdepth := depth_le_store hreps (ordered_nodup hord)
  have hpw := ordered_pairwise hord
  have hin := in_order_from_reps hreps hdepth
  cases T with
  | leaf => exact absurd (reps_leaf hreps) hne
  | node l x r =>
    have hroot := (reps_node hreps).1
    rw [hroot] at hreps
    simp only [ref_tree.depth] at hdepth
    obtain ⟨m, hm, hhead⟩ := leftmost_reps hreps (by omega : l.depth ≤ t.store.length)
    obtain ⟨M, hM, hlast⟩ := rightmost_reps hreps (by omega : r.depth ≤ t.store.length)
    refine ⟨m, M, (ref_tree.node l x r).nodes, ?_, ?_, hin, rfl, hhead, hlast, ?_, ?_⟩
    · simp only [minimum, hroot, hm, bind, Except.bind]
      rfl
    · simp only [maximum, hroot, hM, bind, Except.bind]
      rfl
    · intro y hy
      obtain ⟨ys, hys⟩ := List.head?_eq_some_iff.mp hhead
      rw [hys] at hpw hy
      rw [List.pairwise_cons] at hpw
      rcases List.mem_cons.mp hy with rfl | hy
      · exact le_refl _
      · exact le_of_lt (hpw.1 y hy)
    · intro y hy
      obtain ⟨ys, hys⟩ := List.getLast?_eq_some_iff.mp hlast
      rw [hys] at hpw hy
      rw [List.pairwise_append] at hpw
      rcases List.mem_append.mp hy with hy | hy
      · exact le_of_lt (hpw.2.2 y hy M (by simp))
      · simp only [List.mem_singleton] at hy
        subst hy
        exact le_refl _

/-! ### successor and predecessor on a key that is not stored -/

theorem successor_from_absent {t : avl_tree} (k : Int) :
    ∀ {T : ref_tree} {p : ptr} {fuel : Nat}, t.reps T p = true → T.depth ≤ fuel →
      (∀ x ∈ T.nodes, t.key_val x ≠ k) → successor_from fuel t k p = .ok none := by
  intro T
  induction T with
  | leaf =>
    intro p fuel h _ _
    rw [reps_leaf h]
    cases fuel <;> rfl
  | node l x r ihl ihr =>
    intro p fuel h hf hk
    obtain ⟨hp, n, hs, hd, hl, hr⟩ := reps_node h
    have hkx := key_val_of_store hs
    subst hp
    cases fuel with
    | zero => simp [ref_tree.depth] at hf
    | succ fuel =>
      simp only [ref_tree.depth] at hf
      simp only [successor_from, hd, bind, Except.bind]
      by_cases h1 : k > n.key
      · simp only [h1, if_true]
        exact ihr hr (by omega) (fun y hy => hk y (by simp [ref_tree.nodes, hy]))
      · by_cases h2 : k < n.key
        · simp only [h1, h2, if_true, if_false]
          exact ihl hl (by omega) (fun y hy => hk y (by simp [ref_tree.nodes, hy]))
        · have := hk x (by simp [ref_tree.nodes])
          omega

theorem predecessor_from_absent {t : avl_tree} (k : Int) :
    ∀ {T : ref_tree} {p : ptr} {fuel : Nat}, t.reps T p = true → T.depth ≤ fuel →
      (∀ x ∈ T.nodes, t.key_val x ≠ k) → predecessor_from fuel t k p = .ok none := by
  intro T
  induction T with
  | leaf =>
    intro p fuel h _ _
    rw [reps_leaf h]
    cases fuel <;> rfl
  | node l x r ihl ihr =>
    intro p fuel h hf hk
    obtain ⟨hp, n, hs, hd, hl, hr⟩ := reps_node h
    have hkx := key_val_of_store hs
    subst hp
    cases fuel with
    | zero => simp [ref_tree.depth] at hf
    | succ fuel =>
      simp only [ref_tree.depth] at hf
      simp only [predecessor_from, hd, bind, Except.bind]
      by_cases h1 : k > n.key
      · simp only [h1, if_true]
        exact ihr hr (by omega) (fun y hy => hk y (by simp [ref_tree.nodes, hy]))
      · by_cases h2 : k < n.key
        · simp only [h1, h2, if_true, if_false]
          exact ihl hl (by omega) (fun y hy => hk y (by simp [ref_tree.nodes, hy]))
        · have := hk x (by simp [ref_tree.nodes])
          omega

/-- On a tree in binary-search-tree order, successor(k) and predecessor(k)
return nullptr for every key k that is stored in no node reachable from the
root: the descent never meets an equal key and ends at a null child. -/
theorem successor_predecessor_absent (t : avl_tree) (T : ref_tree) (k : Int)
    (hreps : t.reps T t.root = true) (hord : t.ordered T = true)
    (hk : ∀ x ∈ T.nodes, t.key_val x ≠ k) :
    t.successor k = .ok none ∧ t.predecessor k = .ok none :=
  ⟨successor_from_absent k hreps (depth_le_store hreps (ordered_nodup hord)) hk,
   predecessor_from_absent k hreps (depth_le_store hreps (ordered_nodup hord)) hk⟩
/-! ### breadth_first_traversal is level order -/

theorem at_depth_of_depth_le : ∀ (T : ref_tree) (d : Nat), T.depth ≤ d → T.at_depth d = [] := by
  intro T
  induction T with
  | leaf => intro d _; rfl
  | node l x r ihl ihr =>
    intro d h
    simp only [ref_tree.depth] at h
    cases d with
    | zero => omega
    | succ d =>
      simp only [ref_tree.at_depth, ihl d (by omega), ihr d (by omega), List.append_nil]

theorem flatMap_range_shift {α : Type} (A B : Nat → List α) :
    ∀ n, (List.range n).flatMap (fun d => A d ++ B d) ++ A n
      = A 0 ++ (List.range n).flatMap (fun d => B d ++ A (d + 1)) := by
  intro n
  induction n with
  | zero => simp
  | succ n ih =>
    rw [List.range_succ, List.flatMap_append, List.flatMap_append]
    simp only [List.flatMap_cons, List.flatMap_nil, List.append_nil]
    rw [← List.append_assoc (A 0), ← ih]
    simp only [List.append_assoc]

theorem forest_levels_cons (l r : ref_tree) (x : Nat) (ts : List ref_tree) (D : Nat)
    (hD : (ref_tree.node l x r).depth ≤ D) :
    ref_tree.forest_levels (.node l x r :: ts) D
      = x :: ref_tree.forest_levels (ts ++ l.as_forest ++ r.as_forest) D := by
  have has : ∀ (T : ref_tree) (d : Nat), T.as_forest.flatMap (fun S => S.at_depth d) = T.at_depth d := by
    intro T d
    cases T with
    | leaf => rfl
    | node a y b => simp [ref_tree.as_forest]
  simp only [ref_tree.depth] at hD
  obtain ⟨n, rfl⟩ : ∃ n, D = n + 1 := ⟨D - 1, by omega⟩
  have hl : l.at_depth n = [] := at_depth_of_depth_le l n (by omega)
  have hr : r.at_depth n = [] := at_depth_of_depth_le r n (by omega)
  have hshift := flatMap_range_shift (fun d => ts.flatMap (fun S => S.at_depth d))
    (fun d => l.at_depth d ++ r.at_depth d) n
  have hL : ref_tree.forest_levels (.node l x r :: ts) (n + 1)
      = x :: ((ts.flatMap fun S => S.at_depth 0) ++
          (List.range n).flatMap fun d =>
            l.at_depth d ++ r.at_depth d ++ ts.flatMap fun S => S.at_depth (d + 1)) := by
    unfold ref_tree.forest_levels
    rw [List.range_succ_eq_map, List.flatMap_cons, List.flatMap_map]
    simp only [List.flatMap_cons, ref_tree.at_depth, Function.comp, List.singleton_append,
      List.cons_append, Nat.succ_eq_add_one, List.nil_append]
  have hR : ref_tree.forest_levels (ts ++ l.as_forest ++ r.as_forest) (n + 1)
      = ((List.range n).flatMap fun d =>
            (ts.flatMap fun S => S.at_depth d) ++ (l.at_depth d ++ r.at_depth d)) ++
          ts.flatMap fun S => S.at_depth n := by
    unfold ref_tree.forest_levels
    rw [List.range_succ, List.flatMap_append]
    simp only [List.flatMap_append, has, List.append_assoc, List.flatMap_cons, List.flatMap_nil,
      List.append_nil, hl, hr]
  rw [hL, hR, hshift]

theorem forest_levels_nil (D : Nat) : ref_tree.forest_levels [] D = [] := by
  simp [ref_tree.forest_levels]

theorem forall2_as_forest {t : avl_tree} {T : ref_tree} {p : ptr} (h : t.reps T p = true) :
    List.Forall₂ (fun x S => t.reps S (some x) = true) p.toList T.as_forest := by
  cases T with
  | leaf =>
    rw [reps_leaf h]
    exact List.Forall₂.nil
  | node l x r =>
    have hp := (reps_node h).1
    subst hp
    exact List.Forall₂.cons h List.Forall₂.nil

theorem forest_size_children (l r : ref_tree) (x : Nat) (ts : List ref_tree) :
    ref_tree.forest_size (.node l x r :: ts)
      = ref_tree.forest_size (ts ++ l.as_forest ++ r.as_forest) + 1 := by
  have has : ∀ T : ref_tree, ref_tree.forest_size T.as_forest = T.nodes.length := by
    intro T
    cases T with
    | leaf => rfl
    | node a y b => simp [ref_tree.as_forest, ref_tree.forest_size]
  have happ : ∀ a b : List ref_tree,
      ref_tree.forest_size (a ++ b) = ref_tree.forest_size a + ref_tree.forest_size b := by
    intro a b
    simp [ref_tree.forest_size]
  rw [happ, happ, has, has]
  simp only [ref_tree.forest_size, List.map_cons, List.sum_cons, ref_tree.nodes,
    List.length_append, List.length_cons]
  omega

theorem depth_as_forest (T : ref_tree) (D : Nat) (h : T.depth ≤ D) :
    ∀ S ∈ T.as_forest, S.depth ≤ D := by
  intro S hS
  cases T with
  | leaf => simp [ref_tree.as_forest] at hS
  | node a y b =>
    simp only [ref_tree.as_forest, List.mem_singleton] at hS
    subst hS
    exact h

theorem breadth_first_loop_reps {t : avl_tree} (D : Nat) :
    ∀ (fuel : Nat) (q : List Nat) (ts : List ref_tree),
      List.Forall₂ (fun x S => t.reps S (some x) = true) q ts →
      ref_tree.forest_size ts ≤ fuel → (∀ S ∈ ts, S.depth ≤ D) →
      breadth_first_loop fuel t q = .ok (ref_tree.forest_levels ts D) := by
  intro fuel
  induction fuel with
  | zero =>
    intro q ts h hs _
    cases h with
    | nil => rw [forest_levels_nil]; rfl
    | @cons y S q2 ts2 hx hrest =>
      cases S with
      | leaf => simp [reps] at hx
      | node l x r =>
        rw [forest_size_children] at hs
        omega
  | succ fuel ih =>
    intro q ts h hs hD
    cases h with
    | nil => rw [forest_levels_nil]; rfl
    | @cons y S q2 ts2 hx hrest =>
      cases S with
      | leaf => simp [reps] at hx
      | node l x r =>
        obtain ⟨hp, n, _, hd, hl, hr⟩ := reps_node hx
        simp only [Option.some.injEq] at hp
        subst hp
        rw [forest_size_children] at hs
        have hDn := hD _ (List.mem_cons_self _ _)
        have hq : List.Forall₂ (fun x S => t.reps S (some x) = true)
            (q2 ++ n.left.toList ++ n.right.toList) (ts2 ++ l.as_forest ++ r.as_forest) :=
          List.rel_append (List.rel_append hrest (forall2_as_forest hl)) (forall2_as_forest hr)
        have hD2 : ∀ S ∈ ts2 ++ l.as_forest ++ r.as_forest, S.depth ≤ D := by
          intro S hS
          simp only [ref_tree.depth] at hDn
          simp only [List.mem_append] at hS
          rcases hS with (hS | hS) | hS
          · exact hD S (List.mem_cons_of_mem _ hS)
          · exact depth_as_forest l D (by omega) S hS
          · exact depth_as_forest r D (by omega) S hS
        have := ih _ _ hq (by omega) hD2
        simp only [breadth_first_loop, hd, bind, Except.bind, this]
        rw [forest_levels_cons l r y ts2 D hDn]
        rfl

theorem level_order_perm : ∀ (T : ref_tree) (D : Nat), T.depth ≤ D →
    ((List.range D).flatMap T.at_depth).Perm T.nodes := by
  intro T
  induction T with
  | leaf =>
    intro D _
    have : (List.range D).flatMap ref_tree.leaf.at_depth = [] := by
      simp [List.flatMap_eq_nil_iff, ref_tree.at_depth]
    rw [this]
    exact List.Perm.refl _
  | node l x r ihl ihr =>
    intro D h
    simp only [ref_tree.depth] at h
    obtain ⟨n, rfl⟩ : ∃ n, D = n + 1 := ⟨D - 1, by omega⟩
    rw [List.range_succ_eq_map, List.flatMap_cons, List.flatMap_map]
    simp only [ref_tree.at_depth, Function.comp, ref_tree.nodes, List.singleton_append]
    have h1 := (List.flatMap_append_perm (List.range n) l.at_depth r.at_depth).symm
    have h2 := List.Perm.append (ihl n (by omega)) (ihr n (by omega))
    exact ((h1.trans h2).cons x).trans (List.perm_middle.symm)

/-- C17: when the child links below the root form a tree, the queue-based
breadth_first_traversal hands the nodes to the handler in level order (depth
0, then depth 1, and so on, each level from left to right); every node
reachable from the root is handed over exactly once, and on the empty tree
nothing is. -/
theorem breadth_first_is_level_order (t : avl_tree) (T : ref_tree)
    (hreps : t.reps T t.root = true) (hnodup : T.nodes.Nodup) :
    ∃ visits, t.breadth_first_traversal = .ok visits ∧ visits = T.level_order ∧
      visits.Perm T.nodes ∧ visits.Nodup ∧ (t.root = none → visits = []) := by
  have hperm := level_order_perm T T.depth (le_refl _)
  refine ⟨T.level_order, ?_, rfl, hperm, (List.Perm.nodup_iff hperm).mpr hnodup, ?_⟩
  · cases T with
    | leaf =>
      rw [breadth_first_traversal, reps_leaf hreps]
      rfl
    | node l x r =>
      have hroot := (reps_node hreps).1
      rw [hroot] at hreps
      have hsize : ref_tree.forest_size [ref_tree.node l x r] ≤ 2 ^ t.store.length := by
        have h1 := nodes_length_le hreps hnodup
        have h2 : t.store.length < 2 ^ t.store.length := Nat.lt_two_pow _
        simp only [ref_tree.forest_size, List.map_cons, List.map_nil, List.sum_cons,
          List.sum_nil]
        omega
      have := breadth_first_loop_reps (ref_tree.node l x r).depth (2 ^ t.store.length) [x]
        [ref_tree.node l x r] (List.Forall₂.cons hreps List.Forall₂.nil) hsize
        (by intro S hS; simp only [List.mem_singleton] at hS; subst hS; exact le_refl _)
      simp only [breadth_first_traversal, hroot, this]
      simp [ref_tree.forest_levels, ref_tree.level_order]
  · intro hnone
    rw [hnone] at hreps
    cases T with
    | leaf => rfl
    | node l x r => simp [reps] at hreps
/-! ### successor on a stored key -/

theorem linked_node {t : avl_tree} {l r : ref_tree} {x : Nat} {above : ptr}
    (h : t.linked (.node l x r) above = true) :
    t.parent_of x = above ∧ t.linked l (some x) = true ∧ t.linked r (some x) = true := by
  simp only [linked, Bool.and_eq_true, beq_iff_eq] at h
  exact ⟨h.1.1, h.1.2, h.2⟩

theorem parent_of_store {t : avl_tree} {x : Nat} {n : avl_tree_node}
    (h : t.store[x]? = some n) : t.parent_of x = t.lock n.parent := by
  simp [parent_of, h]

theorem top_mem_nodes {T : ref_tree} {y : Nat} (h : T.top = some y) : y ∈ T.nodes := by
  cases T with
  | leaf => simp [ref_tree.top] at h
  | node l x r =>
    simp only [ref_tree.top, Option.some.injEq] at h
    subst h
    simp [ref_tree.nodes]

theorem successor_from_reps {t : avl_tree} (k : Int) :
    ∀ {T : ref_tree} {p : ptr} (above res : ptr) (fuel F : Nat),
      t.reps T p = true → t.ordered T = true → t.linked T above = true →
      T.depth ≤ fuel → F + T.depth ≤ t.store.length + 1 →
      (∀ x, T.top = some x → ∀ f, F ≤ f → climb_from_right f t x above = .ok res) →
      (∃ x ∈ T.nodes, t.key_val x = k) →
      ∃ r, successor_from fuel t k p = .ok r ∧
        ((∃ y, r = some y ∧ y ∈ T.nodes ∧ k < t.key_val y ∧
            ∀ z ∈ T.nodes, k < t.key_val z → t.key_val y ≤ t.key_val z) ∨
          (r = res ∧ ∀ z ∈ T.nodes, t.key_val z ≤ k)) := by
  intro T
  induction T with
  | leaf =>
    intro p above res fuel F _ _ _ _ _ _ hk
    obtain ⟨x, hx, _⟩ := hk
    simp [ref_tree.nodes] at hx
  | node l x rt ihl ihr =>
    intro p above res fuel F h ho hlk hf hF hclimb hk
    obtain ⟨hp, n, hs, hd, hl, hr⟩ := reps_node h
    obtain ⟨hlt, hgt, hol, hor⟩ := ordered_node ho
    obtain ⟨hpar, hll, hlr⟩ := linked_node hlk
    rw [parent_of_store hs] at hpar
    have hkx := key_val_of_store hs
    subst hp
    cases fuel with
    | zero => simp [ref_tree.depth] at hf
    | succ fuel =>
      simp only [ref_tree.depth] at hf hF
      simp only [successor_from, hd, bind, Except.bind]
      by_cases h1 : k > n.key
      · -- the key is in the right subtree
        simp only [h1, if_true]
        have hk' : ∃ y ∈ rt.nodes, t.key_val y = k := by
          obtain ⟨y, hy, hky⟩ := hk
          simp only [ref_tree.nodes, List.mem_append, List.mem_cons] at hy
          rcases hy with hy | rfl | hy
          · have := hlt y hy; omega
          · omega
          · exact ⟨y, hy, hky⟩
        have hclimb' : ∀ y, rt.top = some y → ∀ f, F + 1 ≤ f →
            climb_from_right f t y (some x) = .ok res := by
          intro y hy f hfy
          obtain ⟨f', rfl⟩ : ∃ f', f = f' + 1 := ⟨f - 1, by omega⟩
          have hny : n.right = some y := by rw [reps_top hr, hy]
          simp only [climb_from_right, hd, bind, Except.bind, hny, if_true, hpar]
          exact hclimb x rfl f' (by omega)
        obtain ⟨r, hres, hcase⟩ := ihr (some x) res fuel (F + 1) hr hor hlr (by omega) (by omega) hclimb' hk'
        refine ⟨r, hres, ?_⟩
        rcases hcase with ⟨y, hry, hym, hky, hmin⟩ | ⟨hrr, hall⟩
        · left
          refine ⟨y, hry, by simp [ref_tree.nodes, hym], hky, ?_⟩
          intro z hz hkz
          simp only [ref_tree.nodes, List.mem_append, List.mem_cons] at hz
          rcases hz with hz | rfl | hz
          · have := hlt z hz; omega
          · omega
          · exact hmin z hz hkz
        · right
          refine ⟨hrr, ?_⟩
          intro z hz
          simp only [ref_tree.nodes, List.mem_append, List.mem_cons] at hz
          rcases hz with hz | rfl | hz
          · have := hlt z hz; omega
          · omega
          · exact hall z hz
      · by_cases h2 : k < n.key
        · -- the key is in the left subtree
          simp only [h1, h2, if_true, if_false]
          have hk' : ∃ y ∈ l.nodes, t.key_val y = k := by
            obtain ⟨y, hy, hky⟩ := hk
            simp only [ref_tree.nodes, List.mem_append, List.mem_cons] at hy
            rcases hy with hy | rfl | hy
            · exact ⟨y, hy, hky⟩
            · omega
            · have := hgt y hy; omega
          have hclimb' : ∀ y, l.top = some y → ∀ f, 1 ≤ f →
              climb_from_right f t y (some x) = .ok (some x) := by
            intro y hy f hfy
            obtain ⟨f', rfl⟩ : ∃ f', f = f' + 1 := ⟨f - 1, by omega⟩
            have hyl := hlt y (top_mem_nodes hy)
            have hny : ¬ (some y = n.right) := by
              intro hc
              have hry : rt.top = some y := by rw [← reps_top hr, ← hc]
              have := hgt y (top_mem_nodes hry)
              omega
            simp only [climb_from_right, hd, bind, Except.bind, hny, if_false]
            rfl
          obtain ⟨r, hres, hcase⟩ := ihl (some x) (some x) fuel 1 hl hol hll (by omega) (by omega) hclimb' hk'
          refine ⟨r, hres, ?_⟩
          left
          rcases hcase with ⟨y, hry, hym, hky, hmin⟩ | ⟨hrr, hall⟩
          · refine ⟨y, hry, by simp [ref_tree.nodes, hym], hky, ?_⟩
            intro z hz hkz
            simp only [ref_tree.nodes, List.mem_append, List.mem_cons] at hz
            rcases hz with hz | rfl | hz
            · exact hmin z hz hkz
            · exact le_of_lt (hlt y hym)
            · exact le_of_lt (lt_trans (hlt y hym) (hgt z hz))
          · refine ⟨x, hrr, by simp [ref_tree.nodes], by omega, ?_⟩
            intro z hz hkz
            simp only [ref_tree.nodes, List.mem_append, List.mem_cons] at hz
            rcases hz with hz | rfl | hz
            · have := hall z hz; omega
            · exact le_refl _
            · exact le_of_lt (hgt z hz)
        · -- the key is the key of this node
          simp only [h1, h2, if_false]
          have hkeq : t.key_val x = k := by omega
          cases hnr : n.right with
          | none =>
            have hrt : rt = .leaf := by
              cases rt with
              | leaf => rfl
              | node a y b =>
                have := (reps_node hr).1
                rw [hnr] at this
                exact absurd this (by simp)
            subst hrt
            refine ⟨res, ?_, Or.inr ⟨rfl, ?_⟩⟩
            · simp only [hpar]
              exact hclimb x rfl _ (by omega)
            · intro z hz
              simp only [ref_tree.nodes, List.mem_append, List.mem_cons, List.not_mem_nil,
                or_false] at hz
              rcases hz with hz | rfl
              · have := hlt z hz; omega
              · omega
          | some r0 =>
            cases rt with
            | leaf =>
              have := reps_leaf hr
              rw [hnr] at this
              exact absurd this (by simp)
            | node rl y rr =>
              have hy := (reps_node hr).1
              rw [hy] at hr
              rw [hnr] at hy
              simp only [Option.some.injEq] at hy
              subst hy
              simp only [ref_tree.depth] at hF hf
              obtain ⟨m, hm, hhead⟩ := leftmost_reps hr (by omega : rl.depth ≤ t.store.length)
              refine ⟨some m, by simp only [hm]; rfl, Or.inl ⟨m, rfl, ?_, ?_, ?_⟩⟩
              · obtain ⟨ys, hys⟩ := List.head?_eq_some_iff.mp hhead
                simp only [ref_tree.nodes] at hys ⊢
                simp [hys]
              · obtain ⟨ys, hys⟩ := List.head?_eq_some_iff.mp hhead
                have := hgt m (by rw [hys]; simp)
                omega
              · intro z hz hkz
                obtain ⟨ys, hys⟩ := List.head?_eq_some_iff.mp hhead
                have hpw := ordered_pairwise hor
                rw [hys, List.pairwise_cons] at hpw
                simp only [ref_tree.nodes, List.mem_append, List.mem_cons] at hz
                rcases hz with hz | rfl | hz
                · have := hlt z hz; omega
                · omega
                · have hz' : z ∈ (ref_tree.node rl r0 rr).nodes := by
                    simpa [ref_tree.nodes] using hz
                  rw [hys] at hz'
                  rcases List.mem_cons.mp hz' with rfl | hz'
                  · exact le_refl _
                  · exact le_of_lt (hpw.1 z hz')

/-- C13: on a tree in binary-search-tree order with consistent parent links,
successor(k) of a stored key k returns the node with the least stored key
greater than k, and returns nullptr exactly when no stored key is greater
than k. -/
theorem successor_is_next_key (t : avl_tree) (T : ref_tree) (k : Int)
    (hreps : t.reps T t.root = true) (hord : t.ordered T = true)
    (hlink : t.linked T none = true) (hk : ∃ x ∈ T.nodes, t.key_val x = k) :
    ∃ r, t.successor k = .ok r ∧
      (∀ y, r = some y → y ∈ T.nodes ∧ k < t.key_val y ∧
        ∀ z ∈ T.nodes, k < t.key_val z → t.key_val y ≤ t.key_val z) ∧
      (r = none ↔ ∀ z ∈ T.nodes, t.key_val z ≤ k) := by
  have hdepth := depth_le_store hreps (ordered_nodup hord)
  obtain ⟨r, hr, hcase⟩ := successor_from_reps k none none t.store.length 0 hreps hord hlink hdepth
    (by omega) (fun x _ f _ => by cases f <;> rfl) hk
  refine ⟨r, hr, ?_⟩
  rcases hcase with ⟨y, hry, hym, hky, hmin⟩ | ⟨hrr, hall⟩
  · subst hry
    refine ⟨?_, ?_⟩
    · intro y' hy'
      simp only [Option.some.injEq] at hy'
      subst hy'
      exact ⟨hym, hky, hmin⟩
    · constructor
      · intro hc
        exact absurd hc (by simp)
      · intro hall
        have := hall y hym
        omega
  · subst hrr
    exact ⟨fun y hy => absurd hy (by simp), fun _ => hall, fun _ => rfl⟩
/-! ### The remaining evaluations and the balance factor arithmetic -/

/-- C14 at a concrete tree: search(30) on the tree of the inserts 10, 20, 30. -/
theorem search_iff_stored_witness :
    tree_10_20_30.reps ref_10_20_30 tree_10_20_30.root = true ∧
    tree_10_20_30.ordered ref_10_20_30 = true ∧
    ∃ r, tree_10_20_30.search 30 = .ok r ∧
      (r.isSome = true ↔ ∃ x ∈ ref_10_20_30.nodes, tree_10_20_30.key_val x = 30) ∧
      (∀ x, r = some x → x ∈ ref_10_20_30.nodes ∧ tree_10_20_30.key_val x = 30) :=
  ⟨rfl, rfl, search_iff_stored tree_10_20_30 ref_10_20_30 30 rfl rfl⟩

/-- C16 at a concrete tree: the tree of the inserts 10, 20, 30. -/
theorem minimum_maximum_extreme_witness :
    tree_10_20_30.reps ref_10_20_30 tree_10_20_30.root = true ∧
    tree_10_20_30.ordered ref_10_20_30 = true ∧ tree_10_20_30.root ≠ none ∧
    ∃ m M visits, tree_10_20_30.minimum = .ok (some m) ∧
      tree_10_20_30.maximum = .ok (some M) ∧
      tree_10_20_30.in_order_traversal = .ok visits ∧ visits = ref_10_20_30.nodes ∧
      visits.head? = some m ∧ visits.getLast? = some M ∧
      (∀ y ∈ visits, tree_10_20_30.key_val m ≤ tree_10_20_30.key_val y) ∧
      (∀ y ∈ visits, tree_10_20_30.key_val y ≤ tree_10_20_30.key_val M) :=
  ⟨rfl, rfl, by decide,
    minimum_maximum_extreme tree_10_20_30 ref_10_20_30 rfl rfl (by decide)⟩

/-- The key 25 in the tree of the inserts 10, 20, 30: not stored, and both
successor(25) and predecessor(25) return nullptr. -/
theorem successor_predecessor_absent_witness :
    tree_10_20_30.reps ref_10_20_30 tree_10_20_30.root = true ∧
    tree_10_20_30.ordered ref_10_20_30 = true ∧
    (∀ x ∈ ref_10_20_30.nodes, tree_10_20_30.key_val x ≠ 25) ∧
    tree_10_20_30.successor 25 = .ok none ∧ tree_10_20_30.predecessor 25 = .ok none :=
  ⟨rfl, rfl, by decide,
    successor_predecessor_absent tree_10_20_30 ref_10_20_30 25 rfl rfl (by decide)⟩

/-- C15, evaluated at the failing input: the tree built by the inserts 30, 10,
20 is in binary-search-tree order with the keys 10, 20, 30.  For the key 5,
which is not stored, successor(5) and predecessor(5) return nullptr; for the
stored key 10, the least key, which has no predecessor, predecessor(10)
returns the node with key 30 and not nullptr.  In the mirror image, the tree
built by the inserts 10, 30, 20, successor(35) and predecessor(35) return
nullptr and successor(30), 30 being the greatest key, returns the node with
key 10. -/
theorem predecessor_of_least_key_not_absent :
    insert_all empty_tree [30, 10, 20] = .ok tree_30_10_20 ∧
    tree_30_10_20.reps ref_30_10_20 tree_30_10_20.root = true ∧
    tree_30_10_20.ordered ref_30_10_20 = true ∧
    (∀ x ∈ ref_30_10_20.nodes, tree_30_10_20.key_val x ≠ 5 ∧ 10 ≤ tree_30_10_20.key_val x) ∧
    tree_30_10_20.successor 5 = .ok none ∧ tree_30_10_20.predecessor 5 = .ok none ∧
    tree_30_10_20.predecessor 10 = .ok (some 0) ∧ tree_30_10_20.key_at (some 0) = some 30 ∧
    (do
      let m ← insert_all empty_tree [10, 30, 20]
      pure (← m.in_order_keys, ← m.successor 35, ← m.predecessor 35,
        m.key_at (← m.successor 30)))
      = .ok ([10, 20, 30], none, none, some 10) :=
  ⟨rfl, rfl, rfl, by decide, rfl, rfl, rfl, rfl, rfl⟩

/-- C17 at a concrete tree: the tree of the inserts 10, 20, 30. -/
theorem breadth_first_is_level_order_witness :
    tree_10_20_30.reps ref_10_20_30 tree_10_20_30.root = true ∧
    ref_10_20_30.nodes.Nodup ∧
    ∃ visits, tree_10_20_30.breadth_first_traversal = .ok visits ∧
      visits = ref_10_20_30.level_order ∧ visits.Perm ref_10_20_30.nodes ∧ visits.Nodup ∧
      (tree_10_20_30.root = none → visits = []) :=
  ⟨rfl, by decide, breadth_first_is_level_order tree_10_20_30 ref_10_20_30 rfl (by decide)⟩

/-- C13 at a concrete tree: successor(10) in the tree of the inserts 10, 20,
30. -/
theorem successor_is_next_key_witness :
    tree_10_20_30.reps ref_10_20_30 tree_10_20_30.root = true ∧
    tree_10_20_30.ordered ref_10_20_30 = true ∧
    tree_10_20_30.linked ref_10_20_30 none = true ∧
    (∃ x ∈ ref_10_20_30.nodes, tree_10_20_30.key_val x = 10) ∧
    ∃ r, tree_10_20_30.successor 10 = .ok r ∧
      (∀ y, r = some y → y ∈ ref_10_20_30.nodes ∧ 10 < tree_10_20_30.key_val y ∧
        ∀ z ∈ ref_10_20_30.nodes, 10 < tree_10_20_30.key_val z →
          tree_10_20_30.key_val y ≤ tree_10_20_30.key_val z) ∧
      (r = none ↔ ∀ z ∈ ref_10_20_30.nodes, tree_10_20_30.key_val z ≤ 10) :=
  ⟨rfl, rfl, rfl, ⟨0, by decide, rfl⟩,
    successor_is_next_key tree_10_20_30 ref_10_20_30 10 rfl rfl rfl ⟨0, by decide, rfl⟩⟩

/-- C12, evaluated at the failing input: insert(20) after insert(30) and
insert(10) calls rotate_left on the slot current->left in a parent-consistent
state, with p the node with key 10 and its pivot child q the node with key 20.
Afterwards q is the left child of 30 and p is the left child of q, but the
parent link of q refers to q itself and the parent link of p still refers to
the node with key 30. -/
theorem rotate_left_on_child_slot_links :
    tree_30_10_20_before_rotation.reps ref_30_10_20_before_rotation
      tree_30_10_20_before_rotation.root = true ∧
    tree_30_10_20_before_rotation.linked ref_30_10_20_before_rotation none = true ∧
    tree_30_10_20_before_rotation.rotate_left (.left_field 0) [0, 1, 2] = .ok
      { root := some 0,
        store :=
          [{ key := 30, balance_factor := -2, parent := none, left := some 2, right := none,
             live := true },
           { key := 10, balance_factor := 1, parent := some 0, left := none, right := none,
             live := true },
           { key := 20, balance_factor := 0, parent := some 2, left := some 1, right := none,
             live := true }] } := ⟨rfl, rfl, rfl⟩

/-- C19, evaluated at the failing input: the five pairwise distinct keys 30,
10, 20, 5, 1 are inserted into the empty tree, every insert returns a node,
and size() is 3 afterwards. -/
theorem size_after_five_inserts :
    (do
      let (rs, t) ← insert_results empty_tree [30, 10, 20, 5, 1]
      pure (rs, ← t.size))
      = .ok ([some 0, some 1, some 2, some 3, some 4], 3) := rfl

theorem modify_at_length {α : Type} (f : α → α) :
    ∀ (l : List α) (i : Nat), (modify_at f l i).length = l.length := by
  intro l
  induction l with
  | nil => intro i; rfl
  | cons a l ih =>
    intro i
    cases i with
    | zero => rfl
    | succ i => simp [modify_at, ih]

theorem modify_at_get {α : Type} (f : α → α) :
    ∀ (l : List α) (i j : Nat),
      (modify_at f l i)[j]? = if j = i then (l[j]?).map f else l[j]? := by
  intro l
  induction l with
  | nil => intro i j; simp [modify_at]
  | cons a l ih =>
    intro i j
    cases i with
    | zero =>
      cases j with
      | zero => simp [modify_at]
      | succ j => simp [modify_at]
    | succ i =>
      cases j with
      | zero => simp [modify_at]
      | succ j => simp [modify_at, ih]

@[simp] theorem put_root (t : avl_tree) (i : Nat) (f : avl_tree_node → avl_tree_node) :
    (t.put i f).root = t.root := rfl

@[simp] theorem put_length (t : avl_tree) (i : Nat) (f : avl_tree_node → avl_tree_node) :
    (t.put i f).store.length = t.store.length := modify_at_length f _ _

theorem put_get (t : avl_tree) (i j : Nat) (f : avl_tree_node → avl_tree_node) :
    (t.put i f).store[j]? = if j = i then (t.store[j]?).map f else t.store[j]? :=
  modify_at_get f _ _ _
/-! ### Reference counting changes lifetime flags only -/

theorem same_fields_refl (t : avl_tree) : same_fields t t :=
  ⟨rfl, rfl, fun j n h => ⟨n.live, by simp [h]⟩⟩

theorem same_fields_trans {t t2 t3 : avl_tree} (h1 : same_fields t t2)
    (h2 : same_fields t2 t3) : same_fields t t3 := by
  obtain ⟨r1, l1, f1⟩ := h1
  obtain ⟨r2, l2, f2⟩ := h2
  refine ⟨r2.trans r1, l2.trans l1, ?_⟩
  intro j n hn
  obtain ⟨b, hb⟩ := f1 j n hn
  obtain ⟨b2, hb2⟩ := f2 j _ hb
  exact ⟨b2, hb2⟩

theorem release_pass_same_fields (t : avl_tree) (held : List Nat) :
    same_fields t (release_pass t held) := by
  refine ⟨rfl, by simp [release_pass], ?_⟩
  intro j n hn
  have hj : j < t.store.length := by
    by_contra hc
    rw [List.getElem?_eq_none (by omega)] at hn
    exact absurd hn (by simp)
  by_cases hu : unowned t held j
  · refine ⟨false, ?_⟩
    simp [release_pass, List.getElem?_zipWith, List.getElem?_range hj, hn, hu]
  · refine ⟨n.live, ?_⟩
    simp [release_pass, List.getElem?_zipWith, List.getElem?_range hj, hn, hu]

theorem release_same_fields :
    ∀ (fuel : Nat) (t : avl_tree) (held : List Nat), same_fields t (release fuel t held) := by
  intro fuel
  induction fuel with
  | zero => intro t held; exact same_fields_refl t
  | succ fuel ih =>
    intro t held
    simp only [release]
    split
    · exact same_fields_trans (release_pass_same_fields t held) (ih _ held)
    · exact same_fields_refl t

theorem collect_same_fields (t : avl_tree) (held : List Nat) :
    same_fields t (t.collect held) :=
  release_same_fields _ t held

theorem same_fields_get_none {t t2 : avl_tree} (h : same_fields t t2) {c : Nat}
    (hc : t.store[c]? = none) : t2.store[c]? = none := by
  obtain ⟨_, hl, _⟩ := h
  rw [List.getElem?_eq_none_iff] at hc ⊢
  omega

theorem same_fields_read {t t2 : avl_tree} (h : same_fields t t2) (s : slot) :
    t2.read s = t.read s := by
  cases s with
  | local_variable x => rfl
  | left_field c =>
    cases hc : t.store[c]? with
    | none => simp [read, same_fields_get_none h hc, hc]
    | some n =>
      obtain ⟨b, hb⟩ := h.2.2 c n hc
      simp [read, hb, hc]
  | right_field c =>
    cases hc : t.store[c]? with
    | none => simp [read, same_fields_get_none h hc, hc]
    | some n =>
      obtain ⟨b, hb⟩ := h.2.2 c n hc
      simp [read, hb, hc]

theorem same_fields_key_val {t t2 : avl_tree} (h : same_fields t t2) (x : Nat) :
    t2.key_val x = t.key_val x := by
  cases hc : t.store[x]? with
  | none => simp [key_val, same_fields_get_none h hc, hc]
  | some n =>
    obtain ⟨b, hb⟩ := h.2.2 x n hc
    simp [key_val, hb, hc]
theorem reps_congr {t t2 : avl_tree} (hlen : t2.store.length = t.store.length) :
    ∀ (T : ref_tree) (p : ptr),
      (∀ y ∈ T.nodes, t2.read (.left_field y) = t.read (.left_field y) ∧
        t2.read (.right_field y) = t.read (.right_field y)) →
      t2.reps T p = t.reps T p := by
  intro T
  induction T with
  | leaf => intro p _; rfl
  | node l x r ihl ihr =>
    intro p h
    have hx := h x (by simp [ref_tree.nodes])
    simp only [reps, hlen, hx.1, hx.2]
    rw [ihl _ (fun y hy => h y (by simp [ref_tree.nodes, hy])),
      ihr _ (fun y hy => h y (by simp [ref_tree.nodes, hy]))]

theorem read_put_left (t : avl_tree) (i c : Nat) (f : avl_tree_node → avl_tree_node) :
    (t.put i f).read (.left_field c)
      = if c = i then (match t.store[c]? with | some n => (f n).left | none => none)
        else t.read (.left_field c) := by
  simp only [read, put_get]
  split_ifs with h
  · cases t.store[c]? <;> rfl
  · rfl

theorem read_put_right (t : avl_tree) (i c : Nat) (f : avl_tree_node → avl_tree_node) :
    (t.put i f).read (.right_field c)
      = if c = i then (match t.store[c]? with | some n => (f n).right | none => none)
        else t.read (.right_field c) := by
  simp only [read, put_get]
  split_ifs with h
  · cases t.store[c]? <;> rfl
  · rfl

theorem lock_put (t : avl_tree) (i : Nat) (f : avl_tree_node → avl_tree_node)
    (hf : ∀ n, (f n).live = n.live) (p : ptr) : (t.put i f).lock p = t.lock p := by
  cases p with
  | none => rfl
  | some x =>
    simp only [lock, put_get]
    split_ifs with h
    · cases t.store[x]? with
      | none => rfl
      | some n => simp [hf]
    · rfl

theorem deref_put (t : avl_tree) (i x : Nat) (f : avl_tree_node → avl_tree_node) :
    (t.put i f).deref (some x)
      = if x = i then (t.deref (some x)).map f else t.deref (some x) := by
  simp only [deref, put_get]
  split_ifs with h
  · cases t.store[x]? <;> rfl
  · rfl

theorem deref_of_store {t : avl_tree} {x : Nat} {n : avl_tree_node}
    (h : t.store[x]? = some n) : t.deref (some x) = .ok n := by
  simp [deref, h]
/-! ### What a rotation does to the store -/

theorem lock_eq_some {t : avl_tree} {a : ptr} {x : Nat} (h : t.lock a = some x) :
    a = some x ∧ ∃ n, t.store[x]? = some n ∧ n.live = true := by
  cases a with
  | none => simp [lock] at h
  | some y =>
    simp only [lock] at h
    cases hy : t.store[y]? with
    | none => simp [hy] at h
    | some n =>
      simp only [hy] at h
      by_cases hl : n.live = true
      · simp only [hl, if_true, Option.some.injEq] at h
        subst h
        exact ⟨rfl, n, hy, hl⟩
      · simp [hl] at h

theorem lock_put_left (t : avl_tree) (i : Nat) (v a : ptr) :
    (t.put i (fun n => { n with left := v })).lock a = t.lock a :=
    lock_put t i (fun n => { n with left := v }) (fun _ => rfl) a

theorem lock_put_right (t : avl_tree) (i : Nat) (v a : ptr) :
    (t.put i (fun n => { n with right := v })).lock a = t.lock a :=
    lock_put t i (fun n => { n with right := v }) (fun _ => rfl) a

theorem lock_put_parent (t : avl_tree) (i : Nat) (v a : ptr) :
    (t.put i (fun n => { n with parent := v })).lock a = t.lock a :=
    lock_put t i (fun n => { n with parent := v }) (fun _ => rfl) a

theorem lock_with_root (t : avl_tree) (r a : ptr) :
    ({ root := r, store := t.store } : avl_tree).lock a = t.lock a := rfl

theorem deref_with_root (t : avl_tree) (r a : ptr) :
    ({ root := r, store := t.store } : avl_tree).deref a = t.deref a := rfl

theorem put_with_root (t : avl_tree) (r : ptr) (i : Nat) (f : avl_tree_node → avl_tree_node) :
    ({ root := r, store := t.store } : avl_tree).put i f
      = { root := r, store := (t.put i f).store } := rfl

theorem mapped_refl (t : avl_tree) : mapped t t (fun _ n => n) :=
  ⟨rfl, fun _ _ h => h⟩

theorem mapped_put {t t1 : avl_tree} {g : Nat → avl_tree_node → avl_tree_node}
    (h : mapped t t1 g) (i : Nat) (f : avl_tree_node → avl_tree_node) :
    mapped t (t1.put i f) (fun j n => if j = i then f (g j n) else g j n) := by
  refine ⟨by rw [put_length]; exact h.1, ?_⟩
  intro j n hj
  rw [put_get, h.2 j n hj]
  by_cases hji : j = i <;> simp [hji]

theorem mapped_with_root {t t1 : avl_tree} {g : Nat → avl_tree_node → avl_tree_node}
    (h : mapped t t1 g) (r : ptr) : mapped t { root := r, store := t1.store } g := h

theorem mapped_congr {t t1 : avl_tree} {g g2 : Nat → avl_tree_node → avl_tree_node}
    (h : mapped t t1 g) (hg : ∀ j n, t.store[j]? = some n → g j n = g2 j n) :
    mapped t t1 g2 :=
  ⟨h.1, fun j n hj => by rw [h.2 j n hj, hg j n hj]⟩

theorem rotate_right_local (t : avl_tree) (held : List Nat)
    (p q : Nat) (pn qn : avl_tree_node)
    (hp : t.store[p]? = some pn) (hq : t.store[q]? = some qn) (hpl : pn.left = some q)
    (hpq : p ≠ q) (ho1 : qn.right ≠ some p) (ho2 : qn.right ≠ some q)
    (hP1 : t.lock pn.parent ≠ some p) (hP2 : t.lock pn.parent ≠ some q)
    (hP3 : ∀ x, t.lock pn.parent = some x → qn.right ≠ some x) :
    ∃ t6 : avl_tree, t.rotate_right (.local_variable p) held = .ok (t6.collect held) ∧
      t6.root = (if t.lock pn.parent = none then some q else t.root) ∧
      mapped t t6 (fun j n =>
          { n with
            parent := if j = p then some q else if j = q then pn.parent
              else if qn.right = some j then some p else n.parent
            left := if j = p then qn.right
              else if t.lock pn.parent = some j ∧ n.left = some p then some q else n.left
            right := if j = q then some p
              else if t.lock pn.parent = some j ∧ n.left ≠ some p ∧ n.right = some p then some q
              else n.right }) := by
  have hqp : q ≠ p := fun h => hpq h.symm
  have closing : ∀ (j : Nat) (n : avl_tree_node), t.store[j]? = some n →
      (j = p → n = pn) ∧ (j = q → n = qn) := by
    intro j n hj
    refine ⟨?_, ?_⟩ <;> intro h <;> subst h
    · exact Option.some.inj (hj.symm.trans hp)
    · exact Option.some.inj (hj.symm.trans hq)
  cases hup : t.lock pn.parent with
  | none =>
    cases hor : qn.right with
    | none =>
      simp only [rotate_right, read, deref_of_store hp, deref_of_store hq, hpl, hor, bind,
        Except.bind, pure, Except.pure, deref_put, lock_put_left, lock_put_right,
        lock_put_parent, lock_with_root, deref_with_root, put_with_root,
        hpq, hqp, if_true, if_false, Except.map, hup]
      refine ⟨_, rfl, rfl, ?_⟩
      refine mapped_congr (mapped_put (mapped_put (mapped_with_root (mapped_put (mapped_put (mapped_refl t) _ _) _ _) _) _ _) _ _) ?_
      intro j n hj
      obtain ⟨c1, c2⟩ := closing j n hj
      rcases eq_or_ne j p with rfl | h1
      · rw [c1 rfl]
        simp only [hpq, hqp, hpl, if_true, if_false, reduceCtorEq, Option.some.injEq, ne_eq, not_true_eq_false,
          not_false_eq_true, true_and, false_and, and_false, and_true, and_self]
      · rcases eq_or_ne j q with rfl | h2
        · simp only [h1, if_true, if_false, reduceCtorEq, Option.some.injEq, ne_eq, not_true_eq_false,
            not_false_eq_true, true_and, false_and, and_false, and_true, and_self]
        · simp only [h1, h2, if_true, if_false, reduceCtorEq, Option.some.injEq, ne_eq, not_true_eq_false,
            not_false_eq_true, true_and, false_and, and_false, and_true, and_self]
    | some o =>
      have hop : o ≠ p := fun h => ho1 (by rw [hor, h])
      have hoq : o ≠ q := fun h => ho2 (by rw [hor, h])
      have hpo := hop.symm
      have hqo := hoq.symm
      simp only [rotate_right, read, deref_of_store hp, deref_of_store hq, hpl, hor, bind,
        Except.bind, pure, Except.pure, deref_put, lock_put_left, lock_put_right,
        lock_put_parent, lock_with_root, deref_with_root, put_with_root,
        hpq, hqp, hop, hoq, hpo, hqo, if_true, if_false, Except.map, hup]
      refine ⟨_, rfl, rfl, ?_⟩
      refine mapped_congr (mapped_put (mapped_put (mapped_with_root (mapped_put (mapped_put (mapped_put (mapped_refl t) _ _) _ _) _ _) _) _ _) _ _) ?_
      intro j n hj
      obtain ⟨c1, c2⟩ := closing j n hj
      rcases eq_or_ne j p with rfl | h1
      · rw [c1 rfl]
        simp only [hpq, hqp, hpl, hpo, if_true, if_false, reduceCtorEq, Option.some.injEq, ne_eq, not_true_eq_false,
          not_false_eq_true, true_and, false_and, and_false, and_true, and_self]
      · rcases eq_or_ne j q with rfl | h2
        · simp only [h1, hqo, if_true, if_false, reduceCtorEq, Option.some.injEq, ne_eq, not_true_eq_false,
            not_false_eq_true, true_and, false_and, and_false, and_true, and_self]
        · rcases eq_or_ne j o with rfl | h4
          · simp only [h1, h2, if_true, if_false, reduceCtorEq, Option.some.injEq, ne_eq, not_true_eq_false,
              not_false_eq_true, true_and, false_and, and_false, and_true, and_self]
          · simp only [h1, h2, h4, h4.symm, if_true, if_false, reduceCtorEq, Option.some.injEq, ne_eq, not_true_eq_false,
              not_false_eq_true, true_and, false_and, and_false, and_true, and_self]
  | some P =>
    obtain ⟨hpar, Pn, hPs, _⟩ := lock_eq_some hup
    have hPp : P ≠ p := fun h => hP1 (by rw [hup, h])
    have hPq : P ≠ q := fun h => hP2 (by rw [hup, h])
    have hpP := hPp.symm
    have hqP := hPq.symm
    have c3 : ∀ (n : avl_tree_node), t.store[P]? = some n → n = Pn :=
      fun n hj => Option.some.inj (hj.symm.trans hPs)
    cases hor : qn.right with
    | none =>
      simp only [rotate_right, read, deref_of_store hp, deref_of_store hq, deref_of_store hPs,
        hpl, hor, bind,
        Except.bind, pure, Except.pure, deref_put, lock_put_left, lock_put_right,
        lock_put_parent, lock_with_root, deref_with_root, put_with_root,
        hpq, hqp, hPp, hPq, hpP, hqP, if_true, if_false, Except.map, hup]
      by_cases hL : some p = Pn.left
      · simp only [hL, if_true]
        refine ⟨_, rfl, rfl, ?_⟩
        refine mapped_congr (mapped_put (mapped_put (mapped_put (mapped_put (mapped_put (mapped_refl t) _ _) _ _) _ _) _ _) _ _) ?_
        intro j n hj
        obtain ⟨c1, c2⟩ := closing j n hj
        rcases eq_or_ne j p with rfl | h1
        · rw [c1 rfl]
          simp only [hpq, hqp, hpl, hpP, hPp, if_true, if_false, reduceCtorEq, Option.some.injEq, ne_eq, not_true_eq_false,
            not_false_eq_true, true_and, false_and, and_false, and_true, and_self]
        · rcases eq_or_ne j q with rfl | h2
          · simp only [h1, hqP, hPq, if_true, if_false, reduceCtorEq, Option.some.injEq, ne_eq, not_true_eq_false,
              not_false_eq_true, true_and, false_and, and_false, and_true, and_self]
          · rcases eq_or_ne j P with rfl | h3
            · rw [c3 n hj]
              simp only [h1, h2, hL.symm, if_true, if_false, reduceCtorEq, Option.some.injEq, ne_eq, not_true_eq_false,
                  not_false_eq_true, true_and, false_and, and_false, and_true, and_self]
            · simp only [h1, h2, h3, h3.symm, if_true, if_false, reduceCtorEq, Option.some.injEq, ne_eq, not_true_eq_false,
                not_false_eq_true, true_and, false_and, and_false, and_true, and_self]
      · simp only [hL, if_false]
        have hL2 : ¬ Pn.left = some p := fun h => hL h.symm
        by_cases hR : some p = Pn.right
        · simp only [hR, if_true]
          refine ⟨_, rfl, rfl, ?_⟩
          refine mapped_congr (mapped_put (mapped_put (mapped_put (mapped_put (mapped_put (mapped_refl t) _ _) _ _) _ _) _ _) _ _) ?_
          intro j n hj
          obtain ⟨c1, c2⟩ := closing j n hj
          rcases eq_or_ne j p with rfl | h1
          · rw [c1 rfl]
            simp only [hpq, hqp, hpl, hpP, hPp, if_true, if_false, reduceCtorEq, Option.some.injEq, ne_eq, not_true_eq_false,
              not_false_eq_true, true_and, false_and, and_false, and_true, and_self]
          · rcases eq_or_ne j q with rfl | h2
            · simp only [h1, hqP, hPq, if_true, if_false, reduceCtorEq, Option.some.injEq, ne_eq, not_true_eq_false,
                not_false_eq_true, true_and, false_and, and_false, and_true, and_self]
            · rcases eq_or_ne j P with rfl | h3
              · rw [c3 n hj]
                simp only [h1, h2, hL2, hR.symm, if_true, if_false, reduceCtorEq, Option.some.injEq, ne_eq, not_true_eq_false,
                    not_false_eq_true, true_and, false_and, and_false, and_true, and_self]
              · simp only [h1, h2, h3, h3.symm, if_true, if_false, reduceCtorEq, Option.some.injEq, ne_eq, not_true_eq_false,
                  not_false_eq_true, true_and, false_and, and_false, and_true, and_self]
        · simp only [hR, if_false]
          have hR2 : ¬ Pn.right = some p := fun h => hR h.symm
          refine ⟨_, rfl, rfl, ?_⟩
          refine mapped_congr (mapped_put (mapped_put (mapped_put (mapped_put (mapped_refl t) _ _) _ _) _ _) _ _) ?_
          intro j n hj
          obtain ⟨c1, c2⟩ := closing j n hj
          rcases eq_or_ne j p with rfl | h1
          · rw [c1 rfl]
            simp only [hpq, hqp, hpl, hpP, hPp, if_true, if_false, reduceCtorEq, Option.some.injEq, ne_eq, not_true_eq_false,
              not_false_eq_true, true_and, false_and, and_false, and_true, and_self]
          · rcases eq_or_ne j q with rfl | h2
            · simp only [h1, hqP, hPq, if_true, if_false, reduceCtorEq, Option.some.injEq, ne_eq, not_true_eq_false,
                not_false_eq_true, true_and, false_and, and_false, and_true, and_self]
            · rcases eq_or_ne j P with rfl | h3
              · rw [c3 n hj]
                simp only [h1, h2, hL2, hR2, if_true, if_false, reduceCtorEq, Option.some.injEq, ne_eq, not_true_eq_false,
                    not_false_eq_true, true_and, false_and, and_false, and_true, and_self]
              · simp only [h1, h2, h3, h3.symm, if_true, if_false, reduceCtorEq, Option.some.injEq, ne_eq, not_true_eq_false,
                  not_false_eq_true, true_and, false_and, and_false, and_true, and_self]
    | some o =>
      have hop : o ≠ p := fun h => ho1 (by rw [hor, h])
      have hoq : o ≠ q := fun h => ho2 (by rw [hor, h])
      have hPo : P ≠ o := fun h => hP3 P hup (by rw [hor, h])
      have hoP := hPo.symm
      have hpo := hop.symm
      have hqo := hoq.symm
      simp only [rotate_right, read, deref_of_store hp, deref_of_store hq, deref_of_store hPs,
        hpl, hor, bind,
        Except.bind, pure, Except.pure, deref_put, lock_put_left, lock_put_right,
        lock_put_parent, lock_with_root, deref_with_root, put_with_root,
        hpq, hqp, hop, hoq, hpo, hqo, hPp, hPq, hpP, hqP, hPo, hoP, if_true, if_false,
        Except.map, hup]
      by_cases hL : some p = Pn.left
      · simp only [hL, if_true]
        refine ⟨_, rfl, rfl, ?_⟩
        refine mapped_congr (mapped_put (mapped_put (mapped_put (mapped_put (mapped_put (mapped_put (mapped_refl t) _ _) _ _) _ _) _ _) _ _) _ _) ?_
        intro j n hj
        obtain ⟨c1, c2⟩ := closing j n hj
        rcases eq_or_ne j p with rfl | h1
        · rw [c1 rfl]
          simp only [hpq, hqp, hpl, hpo, hpP, hPp, if_true, if_false, reduceCtorEq, Option.some.injEq, ne_eq, not_true_eq_false,
            not_false_eq_true, true_and, false_and, and_false, and_true, and_self]
        · rcases eq_or_ne j q with rfl | h2
          · simp only [h1, hqo, hqP, hPq, if_true, if_false, reduceCtorEq, Option.some.injEq, ne_eq, not_true_eq_false,
              not_false_eq_true, true_and, false_and, and_false, and_true, and_self]
          · rcases eq_or_ne j P with rfl | h3
            · rw [c3 n hj]
              simp only [h1, h2, hPo, hoP, hL.symm, if_true, if_false, reduceCtorEq, Option.some.injEq, ne_eq, not_true_eq_false,
                  not_false_eq_true, true_and, false_and, and_false, and_true, and_self]
            · rcases eq_or_ne j o with rfl | h4
              · simp only [h1, h2, h3, h3.symm, if_true, if_false, reduceCtorEq, Option.some.injEq, ne_eq, not_true_eq_false,
                  not_false_eq_true, true_and, false_and, and_false, and_true, and_self]
              · simp only [h1, h2, h3, h3.symm, h4, h4.symm, if_true, if_false, reduceCtorEq, Option.some.injEq, ne_eq, not_true_eq_false,
                  not_false_eq_true, true_and, false_and, and_false, and_true, and_self]
      · simp only [hL, if_false]
        have hL2 : ¬ Pn.left = some p := fun h => hL h.symm
        by_cases hR : some p = Pn.right
        · simp only [hR, if_true]
          refine ⟨_, rfl, rfl, ?_⟩
          refine mapped_congr (mapped_put (mapped_put (mapped_put (mapped_put (mapped_put (mapped_put (mapped_refl t) _ _) _ _) _ _) _ _) _ _) _ _) ?_
          intro j n hj
          obtain ⟨c1, c2⟩ := closing j n hj
          rcases eq_or_ne j p with rfl | h1
          · rw [c1 rfl]
            simp only [hpq, hqp, hpl, hpo, hpP, hPp, if_true, if_false, reduceCtorEq, Option.some.injEq, ne_eq, not_true_eq_false,
              not_false_eq_true, true_and, false_and, and_false, and_true, and_self]
          · rcases eq_or_ne j q with rfl | h2
            · simp only [h1, hqo, hqP, hPq, if_true, if_false, reduceCtorEq, Option.some.injEq, ne_eq, not_true_eq_false,
                not_false_eq_true, true_and, false_and, and_false, and_true, and_self]
            · rcases eq_or_ne j P with rfl | h3
              · rw [c3 n hj]
                simp only [h1, h2, hPo, hoP, hL2, hR.symm, if_true, if_false, reduceCtorEq, Option.some.injEq, ne_eq, not_true_eq_false,
                    not_false_eq_true, true_and, false_and, and_false, and_true, and_self]
              · rcases eq_or_ne j o with rfl | h4
                · simp only [h1, h2, h3, h3.symm, if_true, if_false, reduceCtorEq, Option.some.injEq, ne_eq, not_true_eq_false,
                    not_false_eq_true, true_and, false_and, and_false, and_true, and_self]
                · simp only [h1, h2, h3, h3.symm, h4, h4.symm, if_true, if_false, reduceCtorEq, Option.some.injEq, ne_eq, not_true_eq_false,
                    not_false_eq_true, true_and, false_and, and_false, and_true, and_self]
        · simp only [hR, if_false]
          have hR2 : ¬ Pn.right = some p := fun h => hR h.symm
          refine ⟨_, rfl, rfl, ?_⟩
          refine mapped_congr (mapped_put (mapped_put (mapped_put (mapped_put (mapped_put (mapped_refl t) _ _) _ _) _ _) _ _) _ _) ?_
          intro j n hj
          obtain ⟨c1, c2⟩ := closing j n hj
          rcases eq_or_ne j p with rfl | h1
          · rw [c1 rfl]
            simp only [hpq, hqp, hpl, hpo, hpP, hPp, if_true, if_false, reduceCtorEq, Option.some.injEq, ne_eq, not_true_eq_false,
              not_false_eq_true, true_and, false_and, and_false, and_true, and_self]
          · rcases eq_or_ne j q with rfl | h2
            · simp only [h1, hqo, hqP, hPq, if_true, if_false, reduceCtorEq, Option.some.injEq, ne_eq, not_true_eq_false,
                not_false_eq_true, true_and, false_and, and_false, and_true, and_self]
            · rcases eq_or_ne j P with rfl | h3
              · rw [c3 n hj]
                simp only [h1, h2, hPo, hoP, hL2, hR2, if_true, if_false, reduceCtorEq, Option.some.injEq, ne_eq, not_true_eq_false,
                    not_false_eq_true, true_and, false_and, and_false, and_true, and_self]
              · rcases eq_or_ne j o with rfl | h4
                · simp only [h1, h2, h3, h3.symm, if_true, if_false, reduceCtorEq, Option.some.injEq, ne_eq, not_true_eq_false,
                    not_false_eq_true, true_and, false_and, and_false, and_true, and_self]
                · simp only [h1, h2, h3, h3.symm, h4, h4.symm, if_true, if_false, reduceCtorEq, Option.some.injEq, ne_eq, not_true_eq_false,
                    not_false_eq_true, true_and, false_and, and_false, and_true, and_self]

theorem rotate_left_local (t : avl_tree) (held : List Nat)
    (p q : Nat) (pn qn : avl_tree_node)
    (hp : t.store[p]? = some pn) (hq : t.store[q]? = some qn) (hpl : pn.right = some q)
    (hpq : p ≠ q) (ho1 : qn.left ≠ some p) (ho2 : qn.left ≠ some q)
    (hP1 : t.lock pn.parent ≠ some p) (hP2 : t.lock pn.parent ≠ some q)
    (hP3 : ∀ x, t.lock pn.parent = some x → qn.left ≠ some x) :
    ∃ t6 : avl_tree, t.rotate_left (.local_variable p) held = .ok (t6.collect held) ∧
      t6.root = (if t.lock pn.parent = none then some q else t.root) ∧
      mapped t t6 (fun j n =>
          { n with
            parent := if j = p then some q else if j = q then pn.parent
              else if qn.left = some j then some p else n.parent
            left := if j = q then some p
              else if t.lock pn.parent = some j ∧ n.left = some p then some q else n.left
            right := if j = p then qn.left
              else if t.lock pn.parent = some j ∧ n.left ≠ some p then some q else n.right }) := by
  have hqp : q ≠ p := fun h => hpq h.symm
  have closing : ∀ (j : Nat) (n : avl_tree_node), t.store[j]? = some n →
      (j = p → n = pn) ∧ (j = q → n = qn) := by
    intro j n hj
    refine ⟨?_, ?_⟩ <;> intro h <;> subst h
    · exact Option.some.inj (hj.symm.trans hp)
    · exact Option.some.inj (hj.symm.trans hq)
  cases hup : t.lock pn.parent with
  | none =>
    cases hor : qn.left with
    | none =>
      simp only [rotate_left, read, deref_of_store hp, deref_of_store hq, hpl, hor, bind,
        Except.bind, pure, Except.pure, deref_put, lock_put_left, lock_put_right,
        lock_put_parent, lock_with_root, deref_with_root, put_with_root,
        hpq, hqp, if_true, if_false, Except.map, hup]
      refine ⟨_, rfl, rfl, ?_⟩
      refine mapped_congr (mapped_put (mapped_put (mapped_with_root (mapped_put (mapped_put (mapped_refl t) _ _) _ _) _) _ _) _ _) ?_
      intro j n hj
      obtain ⟨c1, c2⟩ := closing j n hj
      rcases eq_or_ne j p with rfl | h1
      · rw [c1 rfl]
        simp only [hpq, hqp, hpl, if_true, if_false, reduceCtorEq, Option.some.injEq, ne_eq, not_true_eq_false,
          not_false_eq_true, true_and, false_and, and_false, and_true, and_self]
      · rcases eq_or_ne j q with rfl | h2
        · simp only [h1, if_true, if_false, reduceCtorEq, Option.some.injEq, ne_eq, not_true_eq_false,
            not_false_eq_true, true_and, false_and, and_false, and_true, and_self]
        · simp only [h1, h2, if_true, if_false, reduceCtorEq, Option.some.injEq, ne_eq, not_true_eq_false,
            not_false_eq_true, true_and, false_and, and_false, and_true, and_self]
    | some o =>
      have hop : o ≠ p := fun h => ho1 (by rw [hor, h])
      have hoq : o ≠ q := fun h => ho2 (by rw [hor, h])
      have hpo := hop.symm
      have hqo := hoq.symm
      simp only [rotate_left, read, deref_of_store hp, deref_of_store hq, hpl, hor, bind,
        Except.bind, pure, Except.pure, deref_put, lock_put_left, lock_put_right,
        lock_put_parent, lock_with_root, deref_with_root, put_with_root,
        hpq, hqp, hop, hoq, hpo, hqo, if_true, if_false, Except.map, hup]
      refine ⟨_, rfl, rfl, ?_⟩
      refine mapped_congr (mapped_put (mapped_put (mapped_with_root (mapped_put (mapped_put (mapped_put (mapped_refl t) _ _) _ _) _ _) _) _ _) _ _) ?_
      intro j n hj
      obtain ⟨c1, c2⟩ := closing j n hj
      rcases eq_or_ne j p with rfl | h1
      · rw [c1 rfl]
        simp only [hpq, hqp, hpl, hpo, if_true, if_false, reduceCtorEq, Option.some.injEq, ne_eq, not_true_eq_false,
          not_false_eq_true, true_and, false_and, and_false, and_true, and_self]
      · rcases eq_or_ne j q with rfl | h2
        · simp only [h1, hqo, if_true, if_false, reduceCtorEq, Option.some.injEq, ne_eq, not_true_eq_false,
            not_false_eq_true, true_and, false_and, and_false, and_true, and_self]
        · rcases eq_or_ne j o with rfl | h4
          · simp only [h1, h2, if_true, if_false, reduceCtorEq, Option.some.injEq, ne_eq, not_true_eq_false,
              not_false_eq_true, true_and, false_and, and_false, and_true, and_self]
          · simp only [h1, h2, h4, h4.symm, if_true, if_false, reduceCtorEq, Option.some.injEq, ne_eq, not_true_eq_false,
              not_false_eq_true, true_and, false_and, and_false, and_true, and_self]
  | some P =>
    obtain ⟨hpar, Pn, hPs, _⟩ := lock_eq_some hup
    have hPp : P ≠ p := fun h => hP1 (by rw [hup, h])
    have hPq : P ≠ q := fun h => hP2 (by rw [hup, h])
    have hpP := hPp.symm
    have hqP := hPq.symm
    have c3 : ∀ (n : avl_tree_node), t.store[P]? = some n → n = Pn :=
      fun n hj => Option.some.inj (hj.symm.trans hPs)
    cases hor : qn.left with
    | none =>
      simp only [rotate_left, read, deref_of_store hp, deref_of_store hq, deref_of_store hPs,
        hpl, hor, bind,
        Except.bind, pure, Except.pure, deref_put, lock_put_left, lock_put_right,
        lock_put_parent, lock_with_root, deref_with_root, put_with_root,
        hpq, hqp, hPp, hPq, hpP, hqP, if_true, if_false, Except.map, hup]
      by_cases hL : some p = Pn.left
      · simp only [hL, if_true]
        refine ⟨_, rfl, rfl, ?_⟩
        refine mapped_congr (mapped_put (mapped_put (mapped_put (mapped_put (mapped_put (mapped_refl t) _ _) _ _) _ _) _ _) _ _) ?_
        intro j n hj
        obtain ⟨c1, c2⟩ := closing j n hj
        rcases eq_or_ne j p with rfl | h1
        · rw [c1 rfl]
          simp only [hpq, hqp, hpl, hpP, hPp, if_true, if_false, reduceCtorEq, Option.some.injEq, ne_eq, not_true_eq_false,
            not_false_eq_true, true_and, false_and, and_false, and_true, and_self]
        · rcases eq_or_ne j q with rfl | h2
          · simp only [h1, hqP, hPq, if_true, if_false, reduceCtorEq, Option.some.injEq, ne_eq, not_true_eq_false,
              not_false_eq_true, true_and, false_and, and_false, and_true, and_self]
          · rcases eq_or_ne j P with rfl | h3
            · rw [c3 n hj]
              simp only [h1, h2, hL.symm, if_true, if_false, reduceCtorEq, Option.some.injEq, ne_eq, not_true_eq_false,
                  not_false_eq_true, true_and, false_and, and_false, and_true, and_self]
            · simp only [h1, h2, h3, h3.symm, if_true, if_false, reduceCtorEq, Option.some.injEq, ne_eq, not_true_eq_false,
                not_false_eq_true, true_and, false_and, and_false, and_true, and_self]
      · simp only [hL, if_false]
        have hL2 : ¬ Pn.left = some p := fun h => hL h.symm
        refine ⟨_, rfl, rfl, ?_⟩
        refine mapped_congr (mapped_put (mapped_put (mapped_put (mapped_put (mapped_put (mapped_refl t) _ _) _ _) _ _) _ _) _ _) ?_
        intro j n hj
        obtain ⟨c1, c2⟩ := closing j n hj
        rcases eq_or_ne j p with rfl | h1
        · rw [c1 rfl]
          simp only [hpq, hqp, hpl, hpP, hPp, if_true, if_false, reduceCtorEq, Option.some.injEq, ne_eq, not_true_eq_false,
            not_false_eq_true, true_and, false_and, and_false, and_true, and_self]
        · rcases eq_or_ne j q with rfl | h2
          · simp only [h1, hqP, hPq, if_true, if_false, reduceCtorEq, Option.some.injEq, ne_eq, not_true_eq_false,
              not_false_eq_true, true_and, false_and, and_false, and_true, and_self]
          · rcases eq_or_ne j P with rfl | h3
            · rw [c3 n hj]
              simp only [h1, h2, hL2, if_true, if_false, reduceCtorEq, Option.some.injEq, ne_eq, not_true_eq_false,
                  not_false_eq_true, true_and, false_and, and_false, and_true, and_self]
            · simp only [h1, h2, h3, h3.symm, if_true, if_false, reduceCtorEq, Option.some.injEq, ne_eq, not_true_eq_false,
                not_false_eq_true, true_and, false_and, and_false, and_true, and_self]
    | some o =>
      have hop : o ≠ p := fun h => ho1 (by rw [hor, h])
      have hoq : o ≠ q := fun h => ho2 (by rw [hor, h])
      have hPo : P ≠ o := fun h => hP3 P hup (by rw [hor, h])
      have hoP := hPo.symm
      have hpo := hop.symm
      have hqo := hoq.symm
      simp only [rotate_left, read, deref_of_store hp, deref_of_store hq, deref_of_store hPs,
        hpl, hor, bind,
        Except.bind, pure, Except.pure, deref_put, lock_put_left, lock_put_right,
        lock_put_parent, lock_with_root, deref_with_root, put_with_root,
        hpq, hqp, hop, hoq, hpo, hqo, hPp, hPq, hpP, hqP, hPo, hoP, if_true, if_false,
        Except.map, hup]
      by_cases hL : some p = Pn.left
      · simp only [hL, if_true]
        refine ⟨_, rfl, rfl, ?_⟩
        refine mapped_congr (mapped_put (mapped_put (mapped_put (mapped_put (mapped_put (mapped_put (mapped_refl t) _ _) _ _) _ _) _ _) _ _) _ _) ?_
        intro j n hj
        obtain ⟨c1, c2⟩ := closing j n hj
        rcases eq_or_ne j p with rfl | h1
        · rw [c1 rfl]
          simp only [hpq, hqp, hpl, hpo, hpP, hPp, if_true, if_false, reduceCtorEq, Option.some.injEq, ne_eq, not_true_eq_false,
            not_false_eq_true, true_and, false_and, and_false, and_true, and_self]
        · rcases eq_or_ne j q with rfl | h2
          · simp only [h1, hqo, hqP, hPq, if_true, if_false, reduceCtorEq, Option.some.injEq, ne_eq, not_true_eq_false,
              not_false_eq_true, true_and, false_and, and_false, and_true, and_self]
          · rcases eq_or_ne j P with rfl | h3
            · rw [c3 n hj]
              simp only [h1, h2, hPo, hoP, hL.symm, if_true, if_false, reduceCtorEq, Option.some.injEq, ne_eq, not_true_eq_false,
                  not_false_eq_true, true_and, false_and, and_false, and_true, and_self]
            · rcases eq_or_ne j o with rfl | h4
              · simp only [h1, h2, h3, h3.symm, if_true, if_false, reduceCtorEq, Option.some.injEq, ne_eq, not_true_eq_false,
                  not_false_eq_true, true_and, false_and, and_false, and_true, and_self]
              · simp only [h1, h2, h3, h3.symm, h4, h4.symm, if_true, if_false, reduceCtorEq, Option.some.injEq, ne_eq, not_true_eq_false,
                  not_false_eq_true, true_and, false_and, and_false, and_true, and_self]
      · simp only [hL, if_false]
        have hL2 : ¬ Pn.left = some p := fun h => hL h.symm
        refine ⟨_, rfl, rfl, ?_⟩
        refine mapped_congr (mapped_put (mapped_put (mapped_put (mapped_put (mapped_put (mapped_put (mapped_refl t) _ _) _ _) _ _) _ _) _ _) _ _) ?_
        intro j n hj
        obtain ⟨c1, c2⟩ := closing j n hj
        rcases eq_or_ne j p with rfl | h1
        · rw [c1 rfl]
          simp only [hpq, hqp, hpl, hpo, hpP, hPp, if_true, if_false, reduceCtorEq, Option.some.injEq, ne_eq, not_true_eq_false,
            not_false_eq_true, true_and, false_and, and_false, and_true, and_self]
        · rcases eq_or_ne j q with rfl | h2
          · simp only [h1, hqo, hqP, hPq, if_true, if_false, reduceCtorEq, Option.some.injEq, ne_eq, not_true_eq_false,
              not_false_eq_true, true_and, false_and, and_false, and_true, and_self]
          · rcases eq_or_ne j P with rfl | h3
            · rw [c3 n hj]
              simp only [h1, h2, hPo, hoP, hL2, if_true, if_false, reduceCtorEq, Option.some.injEq, ne_eq, not_true_eq_false,
                  not_false_eq_true, true_and, false_and, and_false, and_true, and_self]
            · rcases eq_or_ne j o with rfl | h4
              · simp only [h1, h2, h3, h3.symm, if_true, if_false, reduceCtorEq, Option.some.injEq, ne_eq, not_true_eq_false,
                  not_false_eq_true, true_and, false_and, and_false, and_true, and_self]
              · simp only [h1, h2, h3, h3.symm, h4, h4.symm, if_true, if_false, reduceCtorEq, Option.some.injEq, ne_eq, not_true_eq_false,
                  not_false_eq_true, true_and, false_and, and_false, and_true, and_self]

theorem rotate_right_on_right_field (t : avl_tree) (held : List Nat)
    (p q P : Nat) (pn qn Pn : avl_tree_node)
    (hp : t.store[p]? = some pn) (hq : t.store[q]? = some qn) (hPs : t.store[P]? = some Pn)
    (hpl : pn.left = some q) (hPc : Pn.right = some p) (hPl : Pn.left ≠ some p) 
    (hup : t.lock pn.parent = some P)
    (hpq : p ≠ q) (hPp : P ≠ p) (hPq : P ≠ q)
    (ho1 : qn.right ≠ some p) (ho2 : qn.right ≠ some q) (ho3 : qn.right ≠ some P) :
    ∃ t6 : avl_tree, t.rotate_right (.right_field P) held = .ok (t6.collect held) ∧
      t6.root = t.root ∧
      mapped t t6 (fun j n =>
          { n with
            parent := if j = q then some q
              else if qn.right = some j then some p else n.parent
            left := if j = p then qn.right else n.left
            right := if j = q then some p else if j = P then some q else n.right }) := by
  have hqp : q ≠ p := fun h => hpq h.symm
  have hpP := hPp.symm
  have hqP := hPq.symm
  have hPl2 : ¬ some p = Pn.left := fun h => hPl h.symm
  have closing : ∀ (j : Nat) (n : avl_tree_node), t.store[j]? = some n →
      (j = p → n = pn) ∧ (j = q → n = qn) := by
    intro j n hj
    refine ⟨?_, ?_⟩ <;> intro h <;> subst h
    · exact Option.some.inj (hj.symm.trans hp)
    · exact Option.some.inj (hj.symm.trans hq)
  have c3 : ∀ (n : avl_tree_node), t.store[P]? = some n → n = Pn :=
    fun n hj => Option.some.inj (hj.symm.trans hPs)
  cases hor : qn.right with
  | none =>
    simp only [rotate_right, read, put_get, hp, hq, hPs, Option.map_some', deref_of_store hp,
        deref_of_store hq, deref_of_store hPs, hpl, hPc, hor, bind,
        Except.bind, pure, Except.pure, deref_put, lock_put_left, lock_put_right,
        lock_put_parent, hPl2, 
        hpq, hqp, hPp, hPq, hpP, hqP,  if_true, if_false, Except.map, hup]
    refine ⟨_, rfl, rfl, ?_⟩
    refine mapped_congr (mapped_put (mapped_put (mapped_put (mapped_put (mapped_put (mapped_refl t) _ _) _ _) _ _) _ _) _ _) ?_
    intro j n hj
    obtain ⟨c1, c2⟩ := closing j n hj
    rcases eq_or_ne j p with rfl | h1
    · rw [c1 rfl]
      simp only [hpq, hqp, hpl, hpP, hPp, if_true, if_false, reduceCtorEq, Option.some.injEq, ne_eq, not_true_eq_false,
        not_false_eq_true, true_and, false_and, and_false, and_true, and_self]
    · rcases eq_or_ne j q with rfl | h2
      · rw [c2 rfl]
        simp only [h1, hqP, hPq, if_true, if_false, reduceCtorEq, Option.some.injEq, ne_eq, not_true_eq_false,
          not_false_eq_true, true_and, false_and, and_false, and_true, and_self]
      · rcases eq_or_ne j P with rfl | h3
        · rw [c3 n hj]
          simp only [h1, h2, if_true, if_false, reduceCtorEq, Option.some.injEq, ne_eq, not_true_eq_false,
              not_false_eq_true, true_and, false_and, and_false, and_true, and_self]
        · simp only [h1, h2, h3, h3.symm, if_true, if_false, reduceCtorEq, Option.some.injEq, ne_eq, not_true_eq_false,
            not_false_eq_true, true_and, false_and, and_false, and_true, and_self]
  | some o =>
    have hop : o ≠ p := fun h => ho1 (by rw [hor, h])
    have hoq : o ≠ q := fun h => ho2 (by rw [hor, h])
    have hoP : o ≠ P := fun h => ho3 (by rw [hor, h])
    have hPo := hoP.symm
    have hpo := hop.symm
    have hqo := hoq.symm
    simp only [rotate_right, read, put_get, hp, hq, hPs, Option.map_some', deref_of_store hp,
        deref_of_store hq, deref_of_store hPs, hpl, hPc, hor, bind,
        Except.bind, pure, Except.pure, deref_put, lock_put_left, lock_put_right,
        lock_put_parent, hPl2, 
        hpq, hqp, hPp, hPq, hpP, hqP, hop, hoq, hpo, hqo, hPo, hoP, if_true, if_false, Except.map, hup]
    refine ⟨_, rfl, rfl, ?_⟩
    refine mapped_congr (mapped_put (mapped_put (mapped_put (mapped_put (mapped_put (mapped_put (mapped_refl t) _ _) _ _) _ _) _ _) _ _) _ _) ?_
    intro j n hj
    obtain ⟨c1, c2⟩ := closing j n hj
    rcases eq_or_ne j p with rfl | h1
    · rw [c1 rfl]
      simp only [hpq, hqp, hpl, hpP, hPp, hpo, hop, if_true, if_false, reduceCtorEq, Option.some.injEq, ne_eq, not_true_eq_false,
        not_false_eq_true, true_and, false_and, and_false, and_true, and_self]
    · rcases eq_or_ne j q with rfl | h2
      · rw [c2 rfl]
        simp only [h1, hqP, hPq, hqo, if_true, if_false, reduceCtorEq, Option.some.injEq, ne_eq, not_true_eq_false,
          not_false_eq_true, true_and, false_and, and_false, and_true, and_self]
      · rcases eq_or_ne j P with rfl | h3
        · rw [c3 n hj]
          simp only [h1, h2, hPo, hoP, if_true, if_false, reduceCtorEq, Option.some.injEq, ne_eq, not_true_eq_false,
              not_false_eq_true, true_and, false_and, and_false, and_true, and_self]
        · rcases eq_or_ne j o with rfl | h4
          · simp only [h1, h2, h3, h3.symm, if_true, if_false, reduceCtorEq, Option.some.injEq, ne_eq, not_true_eq_false,
              not_false_eq_true, true_and, false_and, and_false, and_true, and_self]
          · simp only [h1, h2, h3, h3.symm, h4, h4.symm, if_true, if_false, reduceCtorEq, Option.some.injEq, ne_eq, not_true_eq_false,
              not_false_eq_true, true_and, false_and, and_false, and_true, and_self]

theorem rotate_left_on_left_field (t : avl_tree) (held : List Nat)
    (p q P : Nat) (pn qn Pn : avl_tree_node)
    (hp : t.store[p]? = some pn) (hq : t.store[q]? = some qn) (hPs : t.store[P]? = some Pn)
    (hpl : pn.right = some q) (hPc : Pn.left = some p) 
    (hup : t.lock pn.parent = some P)
    (hpq : p ≠ q) (hPp : P ≠ p) (hPq : P ≠ q)
    (ho1 : qn.left ≠ some p) (ho2 : qn.left ≠ some q) (ho3 : qn.left ≠ some P) :
    ∃ t6 : avl_tree, t.rotate_left (.left_field P) held = .ok (t6.collect held) ∧
      t6.root = t.root ∧
      mapped t t6 (fun j n =>
          { n with
            parent := if j = q then some q
              else if qn.left = some j then some p else n.parent
            left := if j = q then some p else if j = P then some q else n.left
            right := if j = p then qn.left else n.right }) := by
  have hqp : q ≠ p := fun h => hpq h.symm
  have hpP := hPp.symm
  have hqP := hPq.symm
  have closing : ∀ (j : Nat) (n : avl_tree_node), t.store[j]? = some n →
      (j = p → n = pn) ∧ (j = q → n = qn) := by
    intro j n hj
    refine ⟨?_, ?_⟩ <;> intro h <;> subst h
    · exact Option.some.inj (hj.symm.trans hp)
    · exact Option.some.inj (hj.symm.trans hq)
  have c3 : ∀ (n : avl_tree_node), t.store[P]? = some n → n = Pn :=
    fun n hj => Option.some.inj (hj.symm.trans hPs)
  cases hor : qn.left with
  | none =>
    simp only [rotate_left, read, put_get, hp, hq, hPs, Option.map_some', deref_of_store hp,
        deref_of_store hq, deref_of_store hPs, hpl, hPc, hor, bind,
        Except.bind, pure, Except.pure, deref_put, lock_put_left, lock_put_right,
        lock_put_parent, 
        hpq, hqp, hPp, hPq, hpP, hqP,  if_true, if_false, Except.map, hup]
    refine ⟨_, rfl, rfl, ?_⟩
    refine mapped_congr (mapped_put (mapped_put (mapped_put (mapped_put (mapped_put (mapped_refl t) _ _) _ _) _ _) _ _) _ _) ?_
    intro j n hj
    obtain ⟨c1, c2⟩ := closing j n hj
    rcases eq_or_ne j p with rfl | h1
    · rw [c1 rfl]
      simp only [hpq, hqp, hpl, hpP, hPp, if_true, if_false, reduceCtorEq, Option.some.injEq, ne_eq, not_true_eq_false,
        not_false_eq_true, true_and, false_and, and_false, and_true, and_self]
    · rcases eq_or_ne j q with rfl | h2
      · rw [c2 rfl]
        simp only [h1, hqP, hPq, if_true, if_false, reduceCtorEq, Option.some.injEq, ne_eq, not_true_eq_false,
          not_false_eq_true, true_and, false_and, and_false, and_true, and_self]
      · rcases eq_or_ne j P with rfl | h3
        · rw [c3 n hj]
          simp only [h1, h2, if_true, if_false, reduceCtorEq, Option.some.injEq, ne_eq, not_true_eq_false,
              not_false_eq_true, true_and, false_and, and_false, and_true, and_self]
        · simp only [h1, h2, h3, h3.symm, if_true, if_false, reduceCtorEq, Option.some.injEq, ne_eq, not_true_eq_false,
            not_false_eq_true, true_and, false_and, and_false, and_true, and_self]
  | some o =>
    have hop : o ≠ p := fun h => ho1 (by rw [hor, h])
    have hoq : o ≠ q := fun h => ho2 (by rw [hor, h])
    have hoP : o ≠ P := fun h => ho3 (by rw [hor, h])
    have hPo := hoP.symm
    have hpo := hop.symm
    have hqo := hoq.symm
    simp only [rotate_left, read, put_get, hp, hq, hPs, Option.map_some', deref_of_store hp,
        deref_of_store hq, deref_of_store hPs, hpl, hPc, hor, bind,
        Except.bind, pure, Except.pure, deref_put, lock_put_left, lock_put_right,
        lock_put_parent, 
        hpq, hqp, hPp, hPq, hpP, hqP, hop, hoq, hpo, hqo, hPo, hoP, if_true, if_false, Except.map, hup]
    refine ⟨_, rfl, rfl, ?_⟩
    refine mapped_congr (mapped_put (mapped_put (mapped_put (mapped_put (mapped_put (mapped_put (mapped_refl t) _ _) _ _) _ _) _ _) _ _) _ _) ?_
    intro j n hj
    obtain ⟨c1, c2⟩ := closing j n hj
    rcases eq_or_ne j p with rfl | h1
    · rw [c1 rfl]
      simp only [hpq, hqp, hpl, hpP, hPp, hpo, hop, if_true, if_false, reduceCtorEq, Option.some.injEq, ne_eq, not_true_eq_false,
        not_false_eq_true, true_and, false_and, and_false, and_true, and_self]
    · rcases eq_or_ne j q with rfl | h2
      · rw [c2 rfl]
        simp only [h1, hqP, hPq, hqo, if_true, if_false, reduceCtorEq, Option.some.injEq, ne_eq, not_true_eq_false,
          not_false_eq_true, true_and, false_and, and_false, and_true, and_self]
      · rcases eq_or_ne j P with rfl | h3
        · rw [c3 n hj]
          simp only [h1, h2, hPo, hoP, if_true, if_false, reduceCtorEq, Option.some.injEq, ne_eq, not_true_eq_false,
              not_false_eq_true, true_and, false_and, and_false, and_true, and_self]
        · rcases eq_or_ne j o with rfl | h4
          · simp only [h1, h2, h3, h3.symm, if_true, if_false, reduceCtorEq, Option.some.injEq, ne_eq, not_true_eq_false,
              not_false_eq_true, true_and, false_and, and_false, and_true, and_self]
          · simp only [h1, h2, h3, h3.symm, h4, h4.symm, if_true, if_false, reduceCtorEq, Option.some.injEq, ne_eq, not_true_eq_false,
              not_false_eq_true, true_and, false_and, and_false, and_true, and_self]

theorem rotate_right_on_left_field (t : avl_tree) (held : List Nat)
    (p q P : Nat) (pn qn Pn : avl_tree_node)
    (hp : t.store[p]? = some pn) (hq : t.store[q]? = some qn) (hPs : t.store[P]? = some Pn)
    (hpl : pn.left = some q) (hPc : Pn.left = some p) 
    (hup : t.lock pn.parent = some P)
    (hpq : p ≠ q) (hPp : P ≠ p) (hPq : P ≠ q)
    (ho1 : qn.right ≠ some p) (ho2 : qn.right ≠ some q) (ho3 : qn.right ≠ some P) :
    ∃ t6 : avl_tree, t.rotate_right (.left_field P) held = .ok (t6.collect held) ∧
      t6.root = t.root ∧
      mapped t t6 (fun j n =>
          { n with
            parent := if j = q then some q
              else if qn.right = some j then some p else n.parent
            left := if j = p then qn.right else if j = P then some q else n.left
            right := if j = q then some p else n.right }) := by
  have hqp : q ≠ p := fun h => hpq h.symm
  have hpP := hPp.symm
  have hqP := hPq.symm
  have closing : ∀ (j : Nat) (n : avl_tree_node), t.store[j]? = some n →
      (j = p → n = pn) ∧ (j = q → n = qn) := by
    intro j n hj
    refine ⟨?_, ?_⟩ <;> intro h <;> subst h
    · exact Option.some.inj (hj.symm.trans hp)
    · exact Option.some.inj (hj.symm.trans hq)
  have c3 : ∀ (n : avl_tree_node), t.store[P]? = some n → n = Pn :=
    fun n hj => Option.some.inj (hj.symm.trans hPs)
  cases hor : qn.right with
  | none =>
    simp only [rotate_right, read, put_get, hp, hq, hPs, Option.map_some', deref_of_store hp,
        deref_of_store hq, deref_of_store hPs, hpl, hPc, hor, bind,
        Except.bind, pure, Except.pure, deref_put, lock_put_left, lock_put_right,
        lock_put_parent, 
        hpq, hqp, hPp, hPq, hpP, hqP,  if_true, if_false, Except.map, hup]
    refine ⟨_, rfl, rfl, ?_⟩
    refine mapped_congr (mapped_put (mapped_put (mapped_put (mapped_put (mapped_put (mapped_refl t) _ _) _ _) _ _) _ _) _ _) ?_
    intro j n hj
    obtain ⟨c1, c2⟩ := closing j n hj
    rcases eq_or_ne j p with rfl | h1
    · rw [c1 rfl]
      simp only [hpq, hqp, hpl, hpP, hPp, if_true, if_false, reduceCtorEq, Option.some.injEq, ne_eq, not_true_eq_false,
        not_false_eq_true, true_and, false_and, and_false, and_true, and_self]
    · rcases eq_or_ne j q with rfl | h2
      · rw [c2 rfl]
        simp only [h1, hqP, hPq, if_true, if_false, reduceCtorEq, Option.some.injEq, ne_eq, not_true_eq_false,
          not_false_eq_true, true_and, false_and, and_false, and_true, and_self]
      · rcases eq_or_ne j P with rfl | h3
        · rw [c3 n hj]
          simp only [h1, h2, if_true, if_false, reduceCtorEq, Option.some.injEq, ne_eq, not_true_eq_false,
              not_false_eq_true, true_and, false_and, and_false, and_true, and_self]
        · simp only [h1, h2, h3, h3.symm, if_true, if_false, reduceCtorEq, Option.some.injEq, ne_eq, not_true_eq_false,
            not_false_eq_true, true_and, false_and, and_false, and_true, and_self]
  | some o =>
    have hop : o ≠ p := fun h => ho1 (by rw [hor, h])
    have hoq : o ≠ q := fun h => ho2 (by rw [hor, h])
    have hoP : o ≠ P := fun h => ho3 (by rw [hor, h])
    have hPo := hoP.symm
    have hpo := hop.symm
    have hqo := hoq.symm
    simp only [rotate_right, read, put_get, hp, hq, hPs, Option.map_some', deref_of_store hp,
        deref_of_store hq, deref_of_store hPs, hpl, hPc, hor, bind,
        Except.bind, pure, Except.pure, deref_put, lock_put_left, lock_put_right,
        lock_put_parent, 
        hpq, hqp, hPp, hPq, hpP, hqP, hop, hoq, hpo, hqo, hPo, hoP, if_true, if_false, Except.map, hup]
    refine ⟨_, rfl, rfl, ?_⟩
    refine mapped_congr (mapped_put (mapped_put (mapped_put (mapped_put (mapped_put (mapped_put (mapped_refl t) _ _) _ _) _ _) _ _) _ _) _ _) ?_
    intro j n hj
    obtain ⟨c1, c2⟩ := closing j n hj
    rcases eq_or_ne j p with rfl | h1
    · rw [c1 rfl]
      simp only [hpq, hqp, hpl, hpP, hPp, hpo, hop, if_true, if_false, reduceCtorEq, Option.some.injEq, ne_eq, not_true_eq_false,
        not_false_eq_true, true_and, false_and, and_false, and_true, and_self]
    · rcases eq_or_ne j q with rfl | h2
      · rw [c2 rfl]
        simp only [h1, hqP, hPq, hqo, if_true, if_false, reduceCtorEq, Option.some.injEq, ne_eq, not_true_eq_false,
          not_false_eq_true, true_and, false_and, and_false, and_true, and_self]
      · rcases eq_or_ne j P with rfl | h3
        · rw [c3 n hj]
          simp only [h1, h2, hPo, hoP, if_true, if_false, reduceCtorEq, Option.some.injEq, ne_eq, not_true_eq_false,
              not_false_eq_true, true_and, false_and, and_false, and_true, and_self]
        · rcases eq_or_ne j o with rfl | h4
          · simp only [h1, h2, h3, h3.symm, if_true, if_false, reduceCtorEq, Option.some.injEq, ne_eq, not_true_eq_false,
              not_false_eq_true, true_and, false_and, and_false, and_true, and_self]
          · simp only [h1, h2, h3, h3.symm, h4, h4.symm, if_true, if_false, reduceCtorEq, Option.some.injEq, ne_eq, not_true_eq_false,
              not_false_eq_true, true_and, false_and, and_false, and_true, and_self]

theorem rotate_left_on_right_field (t : avl_tree) (held : List Nat)
    (p q P : Nat) (pn qn Pn : avl_tree_node)
    (hp : t.store[p]? = some pn) (hq : t.store[q]? = some qn) (hPs : t.store[P]? = some Pn)
    (hpl : pn.right = some q) (hPc : Pn.right = some p) (hPl : Pn.left ≠ some p)
    (hup : t.lock pn.parent = some P)
    (hpq : p ≠ q) (hPp : P ≠ p) (hPq : P ≠ q)
    (ho1 : qn.left ≠ some p) (ho2 : qn.left ≠ some q) (ho3 : qn.left ≠ some P) :
    ∃ t6 : avl_tree, t.rotate_left (.right_field P) held = .ok (t6.collect held) ∧
      t6.root = t.root ∧
      mapped t t6 (fun j n =>
          { n with
            parent := if j = q then some q
              else if qn.left = some j then some p else n.parent
            left := if j = q then some p else n.left
            right := if j = p then qn.left else if j = P then some q else n.right }) := by
  have hqp : q ≠ p := fun h => hpq h.symm
  have hpP := hPp.symm
  have hqP := hPq.symm
  have hPl2 : ¬ some p = Pn.left := fun h => hPl h.symm
  have closing : ∀ (j : Nat) (n : avl_tree_node), t.store[j]? = some n →
      (j = p → n = pn) ∧ (j = q → n = qn) := by
    intro j n hj
    refine ⟨?_, ?_⟩ <;> intro h <;> subst h
    · exact Option.some.inj (hj.symm.trans hp)
    · exact Option.some.inj (hj.symm.trans hq)
  have c3 : ∀ (n : avl_tree_node), t.store[P]? = some n → n = Pn :=
    fun n hj => Option.some.inj (hj.symm.trans hPs)
  cases hor : qn.left with
  | none =>
    simp only [rotate_left, read, put_get, hp, hq, hPs, Option.map_some', deref_of_store hp,
        deref_of_store hq, deref_of_store hPs, hpl, hPc, hor, bind,
        Except.bind, pure, Except.pure, deref_put, lock_put_left, lock_put_right,
        lock_put_parent, hPl2, 
        hpq, hqp, hPp, hPq, hpP, hqP,  if_true, if_false, Except.map, hup]
    refine ⟨_, rfl, rfl, ?_⟩
    refine mapped_congr (mapped_put (mapped_put (mapped_put (mapped_put (mapped_put (mapped_refl t) _ _) _ _) _ _) _ _) _ _) ?_
    intro j n hj
    obtain ⟨c1, c2⟩ := closing j n hj
    rcases eq_or_ne j p with rfl | h1
    · rw [c1 rfl]
      simp only [hpq, hqp, hpl, hpP, hPp, if_true, if_false, reduceCtorEq, Option.some.injEq, ne_eq, not_true_eq_false,
        not_false_eq_true, true_and, false_and, and_false, and_true, and_self]
    · rcases eq_or_ne j q with rfl | h2
      · rw [c2 rfl]
        simp only [h1, hqP, hPq, if_true, if_false, reduceCtorEq, Option.some.injEq, ne_eq, not_true_eq_false,
          not_false_eq_true, true_and, false_and, and_false, and_true, and_self]
      · rcases eq_or_ne j P with rfl | h3
        · rw [c3 n hj]
          simp only [h1, h2, if_true, if_false, reduceCtorEq, Option.some.injEq, ne_eq, not_true_eq_false,
              not_false_eq_true, true_and, false_and, and_false, and_true, and_self]
        · simp only [h1, h2, h3, h3.symm, if_true, if_false, reduceCtorEq, Option.some.injEq, ne_eq, not_true_eq_false,
            not_false_eq_true, true_and, false_and, and_false, and_true, and_self]
  | some o =>
    have hop : o ≠ p := fun h => ho1 (by rw [hor, h])
    have hoq : o ≠ q := fun h => ho2 (by rw [hor, h])
    have hoP : o ≠ P := fun h => ho3 (by rw [hor, h])
    have hPo := hoP.symm
    have hpo := hop.symm
    have hqo := hoq.symm
    simp only [rotate_left, read, put_get, hp, hq, hPs, Option.map_some', deref_of_store hp,
        deref_of_store hq, deref_of_store hPs, hpl, hPc, hor, bind,
        Except.bind, pure, Except.pure, deref_put, lock_put_left, lock_put_right,
        lock_put_parent, hPl2, 
        hpq, hqp, hPp, hPq, hpP, hqP, hop, hoq, hpo, hqo, hPo, hoP, if_true, if_false, Except.map, hup]
    refine ⟨_, rfl, rfl, ?_⟩
    refine mapped_congr (mapped_put (mapped_put (mapped_put (mapped_put (mapped_put (mapped_put (mapped_refl t) _ _) _ _) _ _) _ _) _ _) _ _) ?_
    intro j n hj
    obtain ⟨c1, c2⟩ := closing j n hj
    rcases eq_or_ne j p with rfl | h1
    · rw [c1 rfl]
      simp only [hpq, hqp, hpl, hpP, hPp, hpo, hop, if_true, if_false, reduceCtorEq, Option.some.injEq, ne_eq, not_true_eq_false,
        not_false_eq_true, true_and, false_and, and_false, and_true, and_self]
    · rcases eq_or_ne j q with rfl | h2
      · rw [c2 rfl]
        simp only [h1, hqP, hPq, hqo, if_true, if_false, reduceCtorEq, Option.some.injEq, ne_eq, not_true_eq_false,
          not_false_eq_true, true_and, false_and, and_false, and_true, and_self]
      · rcases eq_or_ne j P with rfl | h3
        · rw [c3 n hj]
          simp only [h1, h2, hPo, hoP, if_true, if_false, reduceCtorEq, Option.some.injEq, ne_eq, not_true_eq_false,
              not_false_eq_true, true_and, false_and, and_false, and_true, and_self]
        · rcases eq_or_ne j o with rfl | h4
          · simp only [h1, h2, h3, h3.symm, if_true, if_false, reduceCtorEq, Option.some.injEq, ne_eq, not_true_eq_false,
              not_false_eq_true, true_and, false_and, and_false, and_true, and_self]
          · simp only [h1, h2, h3, h3.symm, h4, h4.symm, if_true, if_false, reduceCtorEq, Option.some.injEq, ne_eq, not_true_eq_false,
              not_false_eq_true, true_and, false_and, and_false, and_true, and_self]

/-! ### Rotations on trees of references -/

theorem rotate_right_at_nodes (p : Nat) : ∀ T : ref_tree, (T.rotate_right_at p).nodes = T.nodes := by
  intro T
  induction T with
  | leaf => rfl
  | node l x r ihl ihr =>
    simp only [ref_tree.rotate_right_at]
    split_ifs with h
    · cases l with
      | leaf => rfl
      | node a q b => simp [ref_tree.nodes]
    · simp only [ref_tree.nodes, ihl, ihr]

theorem rotate_left_at_nodes (p : Nat) : ∀ T : ref_tree, (T.rotate_left_at p).nodes = T.nodes := by
  intro T
  induction T with
  | leaf => rfl
  | node l x r ihl ihr =>
    simp only [ref_tree.rotate_left_at]
    split_ifs with h
    · cases r with
      | leaf => rfl
      | node b q c => simp [ref_tree.nodes]
    · simp only [ref_tree.nodes, ihl, ihr]

theorem rotate_right_at_of_not_mem (p : Nat) :
    ∀ T : ref_tree, p ∉ T.nodes → T.rotate_right_at p = T := by
  intro T
  induction T with
  | leaf => intro _; rfl
  | node l x r ihl ihr =>
    intro h
    simp only [ref_tree.nodes, List.mem_append, List.mem_cons, not_or] at h
    have hx : ¬ x = p := fun e => h.2.1 e.symm
    simp only [ref_tree.rotate_right_at, hx, if_false, ihl h.1, ihr h.2.2]

theorem rotate_left_at_of_not_mem (p : Nat) :
    ∀ T : ref_tree, p ∉ T.nodes → T.rotate_left_at p = T := by
  intro T
  induction T with
  | leaf => intro _; rfl
  | node l x r ihl ihr =>
    intro h
    simp only [ref_tree.nodes, List.mem_append, List.mem_cons, not_or] at h
    have hx : ¬ x = p := fun e => h.2.1 e.symm
    simp only [ref_tree.rotate_left_at, hx, if_false, ihl h.1, ihr h.2.2]

theorem nodup_node {l r : ref_tree} {x : Nat} (h : (ref_tree.node l x r).nodes.Nodup) :
    l.nodes.Nodup ∧ r.nodes.Nodup ∧ x ∉ l.nodes ∧ x ∉ r.nodes ∧
      ∀ y, y ∈ l.nodes → y ∉ r.nodes := by
  simp only [ref_tree.nodes] at h
  rw [List.nodup_append] at h
  obtain ⟨hl, hxr, hdis⟩ := h
  rw [List.nodup_cons] at hxr
  refine ⟨hl, hxr.2, ?_, hxr.1, ?_⟩
  · intro hx
    exact hdis hx (List.mem_cons_self _ _)
  · intro y hy hyr
    exact hdis hy (List.mem_cons_of_mem _ hyr)

theorem mapped_read_left {t t2 : avl_tree} {g : Nat → avl_tree_node → avl_tree_node}
    (h : mapped t t2 g) {y : Nat} {n : avl_tree_node} (hy : t.store[y]? = some n) :
    t2.read (.left_field y) = (g y n).left := by
  simp [read, h.2 y n hy]

theorem mapped_read_right {t t2 : avl_tree} {g : Nat → avl_tree_node → avl_tree_node}
    (h : mapped t t2 g) {y : Nat} {n : avl_tree_node} (hy : t.store[y]? = some n) :
    t2.read (.right_field y) = (g y n).right := by
  simp [read, h.2 y n hy]

theorem read_left_of_store {t : avl_tree} {y : Nat} {n : avl_tree_node}
    (hy : t.store[y]? = some n) : t.read (.left_field y) = n.left := by
  simp [read, hy]

theorem read_right_of_store {t : avl_tree} {y : Nat} {n : avl_tree_node}
    (hy : t.store[y]? = some n) : t.read (.right_field y) = n.right := by
  simp [read, hy]

theorem store_of_lt {t : avl_tree} {y : Nat} (h : y < t.store.length) :
    ∃ n, t.store[y]? = some n :=
  ⟨t.store[y], List.getElem?_eq_getElem h⟩

/-- A subtree none of whose nodes has its child links changed is still there. -/
theorem reps_frame {t t2 : avl_tree} {g : Nat → avl_tree_node → avl_tree_node}
    (h : mapped t t2 g) {S : ref_tree} {a : ptr} (hr : t.reps S a = true)
    (hg : ∀ y ∈ S.nodes, ∀ n, t.store[y]? = some n →
      (g y n).left = n.left ∧ (g y n).right = n.right) :
    t2.reps S a = true := by
  rw [reps_congr h.1 S a ?_]
  · exact hr
  · intro y hy
    obtain ⟨n, hn⟩ := store_of_lt (nodes_lt_length hr y hy)
    rw [mapped_read_left h hn, mapped_read_right h hn, read_left_of_store hn,
      read_right_of_store hn]
    exact hg y hy n hn
theorem child_mem_left {t : avl_tree} {p q : Nat} {pn : avl_tree_node}
    (hp : t.store[p]? = some pn) (hpl : pn.left = some q) :
    ∀ {S : ref_tree} {a : ptr}, t.reps S a = true → p ∈ S.nodes → q ∈ S.nodes := by
  intro S
  induction S with
  | leaf => intro a _ h; simp [ref_tree.nodes] at h
  | node l x r ihl ihr =>
    intro a h hm
    obtain ⟨_, n, hs, _, hl, hr⟩ := reps_node h
    simp only [ref_tree.nodes, List.mem_append, List.mem_cons] at hm ⊢
    rcases hm with hm | rfl | hm
    · exact Or.inl (ihl hl hm)
    · have : n = pn := Option.some.inj (hs.symm.trans hp)
      subst this
      rw [hpl] at hl
      exact Or.inl (top_mem_nodes (reps_top hl).symm)
    · exact Or.inr (Or.inr (ihr hr hm))

theorem child_mem_right {t : avl_tree} {p q : Nat} {pn : avl_tree_node}
    (hp : t.store[p]? = some pn) (hpl : pn.right = some q) :
    ∀ {S : ref_tree} {a : ptr}, t.reps S a = true → p ∈ S.nodes → q ∈ S.nodes := by
  intro S
  induction S with
  | leaf => intro a _ h; simp [ref_tree.nodes] at h
  | node l x r ihl ihr =>
    intro a h hm
    obtain ⟨_, n, hs, _, hl, hr⟩ := reps_node h
    simp only [ref_tree.nodes, List.mem_append, List.mem_cons] at hm ⊢
    rcases hm with hm | rfl | hm
    · exact Or.inl (ihl hl hm)
    · have : n = pn := Option.some.inj (hs.symm.trans hp)
      subst this
      rw [hpl] at hr
      exact Or.inr (Or.inr (top_mem_nodes (reps_top hr).symm))
    · exact Or.inr (Or.inr (ihr hr hm))

/-- In a parent-consistent tree the parent link of a node refers to what the
tree hangs from or to a node of the tree. -/
theorem parent_mem {t : avl_tree} {p : Nat} :
    ∀ {S : ref_tree} {above : ptr}, t.linked S above = true → p ∈ S.nodes →
      t.parent_of p = above ∨ ∃ P ∈ S.nodes, t.parent_of p = some P := by
  intro S
  induction S with
  | leaf => intro a _ h; simp [ref_tree.nodes] at h
  | node l x r ihl ihr =>
    intro above h hm
    obtain ⟨hx, hl, hr⟩ := linked_node h
    simp only [ref_tree.nodes, List.mem_append, List.mem_cons] at hm
    rcases hm with hm | rfl | hm
    · rcases ihl hl hm with h1 | ⟨P, hP, h1⟩
      · exact Or.inr ⟨x, by simp [ref_tree.nodes], h1⟩
      · exact Or.inr ⟨P, by simp [ref_tree.nodes, hP], h1⟩
    · exact Or.inl hx
    · rcases ihr hr hm with h1 | ⟨P, hP, h1⟩
      · exact Or.inr ⟨x, by simp [ref_tree.nodes], h1⟩
      · exact Or.inr ⟨P, by simp [ref_tree.nodes, hP], h1⟩

theorem reps_rotate_right_at {t t2 : avl_tree} {g : Nat → avl_tree_node → avl_tree_node}
    (hm : mapped t t2 g) (p q : Nat) (pn qn : avl_tree_node)
    (hp : t.store[p]? = some pn) (hq : t.store[q]? = some qn) (hpl : pn.left = some q)
    (hgl : ∀ j n, t.store[j]? = some n → (g j n).left =
      if j = p then qn.right
      else if t.lock pn.parent = some j ∧ n.left = some p then some q else n.left)
    (hgr : ∀ j n, t.store[j]? = some n → (g j n).right =
      if j = q then some p
      else if t.lock pn.parent = some j ∧ n.left ≠ some p ∧ n.right = some p then some q
      else n.right) :
    ∀ (S : ref_tree) (a above : ptr), t.reps S a = true → S.nodes.Nodup →
      t.linked S above = true → p ∈ S.nodes → (∀ P, above = some P → P ∉ S.nodes) →
      t2.reps (S.rotate_right_at p) (if a = some p then some q else a) = true := by
  have hpar : t.parent_of p = t.lock pn.parent := parent_of_store hp
  -- nodes whose child links stay
  have same : ∀ y n, t.store[y]? = some n → y ≠ p → y ≠ q → t.lock pn.parent ≠ some y →
      (g y n).left = n.left ∧ (g y n).right = n.right := by
    intro y n hy h1 h2 h3
    rw [hgl y n hy, hgr y n hy]
    simp only [h1, h2, if_false]
    constructor
    · rw [if_neg]; intro hc; exact h3 hc.1
    · rw [if_neg]; intro hc; exact h3 hc.1
  have frame : ∀ (S : ref_tree) (a : ptr), t.reps S a = true → p ∉ S.nodes → q ∉ S.nodes →
      (∀ P, t.lock pn.parent = some P → P ∉ S.nodes) → t2.reps S a = true := by
    intro S a hr h1 h2 h3
    refine reps_frame hm hr ?_
    intro y hy n hn
    exact same y n hn (fun e => h1 (e ▸ hy)) (fun e => h2 (e ▸ hy))
      (fun e => h3 y e hy)
  intro S
  induction S with
  | leaf => intro a above _ _ _ h; simp [ref_tree.nodes] at h
  | node l x r ihl ihr =>
    intro a above hr hnd hlk hmem habove
    obtain ⟨ha, n, hs, _, hl, hrr⟩ := reps_node hr
    obtain ⟨hndl, hndr, hxl, hxr, hdis⟩ := nodup_node hnd
    obtain ⟨hxpar, hlkl, hlkr⟩ := linked_node hlk
    subst ha
    have hxlt : x < t2.store.length := by
      rw [hm.1]
      simp only [reps, Bool.and_eq_true, decide_eq_true_eq] at hr
      exact hr.1.1.2
    by_cases hxp : x = p
    · -- the rotation is at the top of this subtree
      subst hxp
      have hn : n = pn := Option.some.inj (hs.symm.trans hp)
      subst hn
      rw [hpl] at hl
      have hup : t.lock n.parent = above := by rw [← hpar]; exact hxpar
      have hPS : ∀ P, t.lock n.parent = some P → P ∉ (ref_tree.node l x r).nodes := by
        intro P hP
        exact habove P (by rw [← hup, hP])
      cases l with
      | leaf => simp [reps] at hl
      | node A q2 B =>
        obtain ⟨hq2, qn2, hqs, _, hA, hB⟩ := reps_node hl
        simp only [Option.some.injEq] at hq2
        subst hq2
        have hqn : qn2 = qn := Option.some.inj (hqs.symm.trans hq)
        subst hqn
        obtain ⟨hndA, hndB, hqA, hqB, hAB⟩ := nodup_node hndl
        have hqx : q ≠ x := fun e => hxl (by rw [← e]; simp [ref_tree.nodes])
        have hPq : t.lock n.parent ≠ some q := fun e =>
          hPS q e (by simp [ref_tree.nodes])
        have hPx : t.lock n.parent ≠ some x := fun e =>
          hPS x e (by simp [ref_tree.nodes])
        have hqlt : q < t2.store.length := by
          rw [hm.1]
          simp only [reps, Bool.and_eq_true, decide_eq_true_eq] at hl
          exact hl.1.1.2
        have e1 : t2.read (.left_field q) = qn2.left := by
          rw [mapped_read_left hm hq, hgl q _ hq, if_neg hqx, if_neg (fun hc => hPq hc.1)]
        have e2 : t2.read (.right_field q) = some x := by
          rw [mapped_read_right hm hq, hgr q _ hq, if_pos rfl]
        have e3 : t2.read (.left_field x) = qn2.right := by
          rw [mapped_read_left hm hp, hgl x _ hp, if_pos rfl]
        have e4 : t2.read (.right_field x) = n.right := by
          rw [mapped_read_right hm hp, hgr x _ hp, if_neg (fun e => hqx e.symm),
            if_neg (fun hc => hPx hc.1)]
        have fA : t2.reps A qn2.left = true := by
          refine frame A _ hA ?_ ?_ ?_
          · intro hc; exact hxl (by simp [ref_tree.nodes, hc])
          · exact hqA
          · intro P hP hc; exact hPS P hP (by simp [ref_tree.nodes, hc])
        have fB : t2.reps B qn2.right = true := by
          refine frame B _ hB ?_ ?_ ?_
          · intro hc; exact hxl (by simp [ref_tree.nodes, hc])
          · exact hqB
          · intro P hP hc; exact hPS P hP (by simp [ref_tree.nodes, hc])
        have fr : t2.reps r n.right = true := by
          refine frame r _ hrr hxr ?_ ?_
          · intro hc; exact hdis q (by simp [ref_tree.nodes]) hc
          · intro P hP hc; exact hPS P hP (by simp [ref_tree.nodes, hc])
        simp only [ref_tree.rotate_right_at, if_true, reps, e1, e2, e3, e4, fA, fB, fr,
          hqlt, hxlt, beq_self_eq_true, decide_True, Bool.and_self]
    · -- the rotation is further down
      have hax : ¬ (some x = some p) := fun e => hxp (Option.some.inj e)
      simp only [ref_tree.nodes, List.mem_append, List.mem_cons] at hmem
      have hpx : p ≠ x := fun e => hxp e.symm
      simp only [ref_tree.rotate_right_at, hxp, if_false, hax, reps, hxlt,
        beq_self_eq_true, decide_True, Bool.true_and, Bool.and_eq_true]
      rcases hmem with hmem | hmem | hmem
      · -- in the left subtree
        have hqmem : q ∈ l.nodes := child_mem_left hp hpl hl hmem
        have hpr : p ∉ r.nodes := hdis p hmem
        have hqr : q ∉ r.nodes := hdis q hqmem
        have hqx : q ≠ x := fun e => hxl (e ▸ hqmem)
        have hPr : ∀ P, t.lock pn.parent = some P → P ∉ r.nodes := by
          intro P hP hc
          rw [← hpar] at hP
          rcases parent_mem hlkl hmem with h1 | ⟨P2, hP2, h1⟩
          · rw [h1] at hP
            exact hxr (by rw [Option.some.inj hP]; exact hc)
          · rw [h1] at hP
            exact hdis P (by rw [← Option.some.inj hP]; exact hP2) hc
        have el : t2.read (.left_field x) = if n.left = some p then some q else n.left := by
          rw [mapped_read_left hm hs, hgl x _ hs, if_neg hxp]
          by_cases htop : n.left = some p
          · have hlp : t.parent_of p = some x := by
              cases l with
              | leaf => simp [ref_tree.nodes] at hmem
              | node A y B =>
                have hy := (reps_node hl).1
                rw [htop] at hy
                simp only [Option.some.injEq] at hy
                subst hy
                exact (linked_node hlkl).1
            rw [hpar] at hlp
            simp [htop, hlp]
          · simp [htop]
        have er : t2.read (.right_field x) = n.right := by
          rw [mapped_read_right hm hs, hgr x _ hs, if_neg (fun e => hqx e.symm), if_neg]
          intro hc
          have : r.top = some p := by rw [← reps_top hrr]; exact hc.2.2
          exact hpr (top_mem_nodes this)
        rw [el, er, rotate_right_at_of_not_mem p r hpr]
        exact ⟨ihl _ (some x) hl hndl hlkl hmem
          (fun P hP hc => hxl (by have e := Option.some.inj hP; subst e; exact hc)),
          frame r _ hrr hpr hqr hPr⟩
      · exact absurd hmem hpx
      · -- in the right subtree
        have hqmem : q ∈ r.nodes := child_mem_left hp hpl hrr hmem
        have hpl2 : p ∉ l.nodes := fun hc => hdis p hc hmem
        have hql : q ∉ l.nodes := fun hc => hdis q hc hqmem
        have hqx : q ≠ x := fun e => hxr (e ▸ hqmem)
        have hPl : ∀ P, t.lock pn.parent = some P → P ∉ l.nodes := by
          intro P hP hc
          rw [← hpar] at hP
          rcases parent_mem hlkr hmem with h1 | ⟨P2, hP2, h1⟩
          · rw [h1] at hP
            exact hxl (by rw [Option.some.inj hP]; exact hc)
          · rw [h1] at hP
            exact hdis P hc (by rw [← Option.some.inj hP]; exact hP2)
        have hnl : n.left ≠ some p := by
          intro hc
          have : l.top = some p := by rw [← reps_top hl]; exact hc
          exact hpl2 (top_mem_nodes this)
        have el : t2.read (.left_field x) = n.left := by
          rw [mapped_read_left hm hs, hgl x _ hs, if_neg hxp, if_neg (fun hc => hnl hc.2)]
        have er : t2.read (.right_field x) = if n.right = some p then some q else n.right := by
          rw [mapped_read_right hm hs, hgr x _ hs, if_neg (fun e => hqx e.symm)]
          by_cases htop : n.right = some p
          · have hlp : t.parent_of p = some x := by
              cases r with
              | leaf => simp [ref_tree.nodes] at hmem
              | node A y B =>
                have hy := (reps_node hrr).1
                rw [htop] at hy
                simp only [Option.some.injEq] at hy
                subst hy
                exact (linked_node hlkr).1
            rw [hpar] at hlp
            simp [htop, hlp, hnl]
          · simp [htop]
        rw [el, er, rotate_right_at_of_not_mem p l hpl2]
        exact ⟨frame l _ hl hpl2 hql hPl,
          ihr _ (some x) hrr hndr hlkr hmem
            (fun P hP hc => hxr (by have e := Option.some.inj hP; subst e; exact hc))⟩
theorem parent_mem_top {t : avl_tree} {p : Nat} :
    ∀ {S : ref_tree} {above : ptr}, t.linked S above = true → p ∈ S.nodes →
      (S.top = some p ∧ t.parent_of p = above) ∨ ∃ P ∈ S.nodes, t.parent_of p = some P := by
  intro S
  induction S with
  | leaf => intro a _ h; simp [ref_tree.nodes] at h
  | node l x r ihl ihr =>
    intro above h hm
    obtain ⟨hx, hl, hr⟩ := linked_node h
    simp only [ref_tree.nodes, List.mem_append, List.mem_cons] at hm
    rcases hm with hm | rfl | hm
    · rcases ihl hl hm with ⟨_, h1⟩ | ⟨P, hP, h1⟩
      · exact Or.inr ⟨x, by simp [ref_tree.nodes], h1⟩
      · exact Or.inr ⟨P, by simp [ref_tree.nodes, hP], h1⟩
    · exact Or.inl ⟨rfl, hx⟩
    · rcases ihr hr hm with ⟨_, h1⟩ | ⟨P, hP, h1⟩
      · exact Or.inr ⟨x, by simp [ref_tree.nodes], h1⟩
      · exact Or.inr ⟨P, by simp [ref_tree.nodes, hP], h1⟩

theorem reps_rotate_left_at {t t2 : avl_tree} {g : Nat → avl_tree_node → avl_tree_node}
    (hm : mapped t t2 g) (p q : Nat) (pn qn : avl_tree_node)
    (hp : t.store[p]? = some pn) (hq : t.store[q]? = some qn) (hpl : pn.right = some q)
    (hgl : ∀ j n, t.store[j]? = some n → (g j n).left =
      if j = q then some p
      else if t.lock pn.parent = some j ∧ n.left = some p then some q else n.left)
    (hgr : ∀ j n, t.store[j]? = some n → (g j n).right =
      if j = p then qn.left
      else if t.lock pn.parent = some j ∧ n.left ≠ some p then some q
      else n.right) :
    ∀ (S : ref_tree) (a above : ptr), t.reps S a = true → S.nodes.Nodup →
      t.linked S above = true → p ∈ S.nodes → (∀ P, above = some P → P ∉ S.nodes) →
      t2.reps (S.rotate_left_at p) (if a = some p then some q else a) = true := by
  have hpar : t.parent_of p = t.lock pn.parent := parent_of_store hp
  -- nodes whose child links stay
  have same : ∀ y n, t.store[y]? = some n → y ≠ p → y ≠ q → t.lock pn.parent ≠ some y →
      (g y n).left = n.left ∧ (g y n).right = n.right := by
    intro y n hy h1 h2 h3
    rw [hgl y n hy, hgr y n hy]
    simp only [h1, h2, if_false]
    constructor
    · rw [if_neg]; intro hc; exact h3 hc.1
    · rw [if_neg]; intro hc; exact h3 hc.1
  have frame : ∀ (S : ref_tree) (a : ptr), t.reps S a = true → p ∉ S.nodes → q ∉ S.nodes →
      (∀ P, t.lock pn.parent = some P → P ∉ S.nodes) → t2.reps S a = true := by
    intro S a hr h1 h2 h3
    refine reps_frame hm hr ?_
    intro y hy n hn
    exact same y n hn (fun e => h1 (e ▸ hy)) (fun e => h2 (e ▸ hy))
      (fun e => h3 y e hy)
  intro S
  induction S with
  | leaf => intro a above _ _ _ h; simp [ref_tree.nodes] at h
  | node l x r ihl ihr =>
    intro a above hr hnd hlk hmem habove
    obtain ⟨ha, n, hs, _, hl, hrr⟩ := reps_node hr
    obtain ⟨hndl, hndr, hxl, hxr, hdis⟩ := nodup_node hnd
    obtain ⟨hxpar, hlkl, hlkr⟩ := linked_node hlk
    subst ha
    have hxlt : x < t2.store.length := by
      rw [hm.1]
      simp only [reps, Bool.and_eq_true, decide_eq_true_eq] at hr
      exact hr.1.1.2
    by_cases hxp : x = p
    · -- the rotation is at the top of this subtree
      subst hxp
      have hn : n = pn := Option.some.inj (hs.symm.trans hp)
      subst hn
      rw [hpl] at hrr
      have hup : t.lock n.parent = above := by rw [← hpar]; exact hxpar
      have hPS : ∀ P, t.lock n.parent = some P → P ∉ (ref_tree.node l x r).nodes := by
        intro P hP
        exact habove P (by rw [← hup, hP])
      cases r with
      | leaf => simp [reps] at hrr
      | node B q2 C =>
        obtain ⟨hq2, qn2, hqs, _, hB, hC⟩ := reps_node hrr
        simp only [Option.some.injEq] at hq2
        subst hq2
        have hqn : qn2 = qn := Option.some.inj (hqs.symm.trans hq)
        subst hqn
        obtain ⟨hndB, hndC, hqB, hqC, hBC⟩ := nodup_node hndr
        have hqx : q ≠ x := fun e => hxr (by rw [← e]; simp [ref_tree.nodes])
        have hPq : t.lock n.parent ≠ some q := fun e =>
          hPS q e (by simp [ref_tree.nodes])
        have hPx : t.lock n.parent ≠ some x := fun e =>
          hPS x e (by simp [ref_tree.nodes])
        have hqlt : q < t2.store.length := by
          rw [hm.1]
          simp only [reps, Bool.and_eq_true, decide_eq_true_eq] at hrr
          exact hrr.1.1.2
        have e1 : t2.read (.right_field q) = qn2.right := by
          rw [mapped_read_right hm hq, hgr q _ hq, if_neg hqx, if_neg (fun hc => hPq hc.1)]
        have e2 : t2.read (.left_field q) = some x := by
          rw [mapped_read_left hm hq, hgl q _ hq, if_pos rfl]
        have e3 : t2.read (.right_field x) = qn2.left := by
          rw [mapped_read_right hm hp, hgr x _ hp, if_pos rfl]
        have e4 : t2.read (.left_field x) = n.left := by
          rw [mapped_read_left hm hp, hgl x _ hp, if_neg (fun e => hqx e.symm),
            if_neg (fun hc => hPx hc.1)]
        have fC : t2.reps C qn2.right = true := by
          refine frame C _ hC ?_ ?_ ?_
          · intro hc; exact hxr (by simp [ref_tree.nodes, hc])
          · exact hqC
          · intro P hP hc; exact hPS P hP (by simp [ref_tree.nodes, hc])
        have fB : t2.reps B qn2.left = true := by
          refine frame B _ hB ?_ ?_ ?_
          · intro hc; exact hxr (by simp [ref_tree.nodes, hc])
          · exact hqB
          · intro P hP hc; exact hPS P hP (by simp [ref_tree.nodes, hc])
        have fl : t2.reps l n.left = true := by
          refine frame l _ hl hxl ?_ ?_
          · intro hc; exact hdis q hc (by simp [ref_tree.nodes])
          · intro P hP hc; exact hPS P hP (by simp [ref_tree.nodes, hc])
        simp only [ref_tree.rotate_left_at, if_true, reps, e1, e2, e3, e4, fC, fB, fl,
          hqlt, hxlt, beq_self_eq_true, decide_True, Bool.and_self]
    · -- the rotation is further down
      have hax : ¬ (some x = some p) := fun e => hxp (Option.some.inj e)
      simp only [ref_tree.nodes, List.mem_append, List.mem_cons] at hmem
      have hpx : p ≠ x := fun e => hxp e.symm
      simp only [ref_tree.rotate_left_at, hxp, if_false, hax, reps, hxlt,
        beq_self_eq_true, decide_True, Bool.true_and, Bool.and_eq_true]
      rcases hmem with hmem | hmem | hmem
      · -- in the left subtree
        have hqmem : q ∈ l.nodes := child_mem_right hp hpl hl hmem
        have hpr : p ∉ r.nodes := hdis p hmem
        have hqr : q ∉ r.nodes := hdis q hqmem
        have hqx : q ≠ x := fun e => hxl (e ▸ hqmem)
        have hPr : ∀ P, t.lock pn.parent = some P → P ∉ r.nodes := by
          intro P hP hc
          rw [← hpar] at hP
          rcases parent_mem hlkl hmem with h1 | ⟨P2, hP2, h1⟩
          · rw [h1] at hP
            exact hxr (by rw [Option.some.inj hP]; exact hc)
          · rw [h1] at hP
            exact hdis P (by rw [← Option.some.inj hP]; exact hP2) hc
        have el : t2.read (.left_field x) = if n.left = some p then some q else n.left := by
          rw [mapped_read_left hm hs, hgl x _ hs, if_neg (fun e => hqx e.symm)]
          by_cases htop : n.left = some p
          · have hlp : t.parent_of p = some x := by
              cases l with
              | leaf => simp [ref_tree.nodes] at hmem
              | node A y B =>
                have hy := (reps_node hl).1
                rw [htop] at hy
                simp only [Option.some.injEq] at hy
                subst hy
                exact (linked_node hlkl).1
            rw [hpar] at hlp
            simp [htop, hlp]
          · simp [htop]
        have er : t2.read (.right_field x) = n.right := by
          rw [mapped_read_right hm hs, hgr x _ hs, if_neg hxp, if_neg]
          intro hc
          rcases parent_mem_top hlkl hmem with ⟨htop, _⟩ | ⟨P2, hP2, h1⟩
          · exact hc.2 (by rw [reps_top hl, htop])
          · rw [hpar, hc.1] at h1
            exact hxl (by rw [Option.some.inj h1]; exact hP2)
        rw [el, er, rotate_left_at_of_not_mem p r hpr]
        exact ⟨ihl _ (some x) hl hndl hlkl hmem
          (fun P hP hc => hxl (by have e := Option.some.inj hP; subst e; exact hc)),
          frame r _ hrr hpr hqr hPr⟩
      · exact absurd hmem hpx
      · -- in the right subtree
        have hqmem : q ∈ r.nodes := child_mem_right hp hpl hrr hmem
        have hpl2 : p ∉ l.nodes := fun hc => hdis p hc hmem
        have hql : q ∉ l.nodes := fun hc => hdis q hc hqmem
        have hqx : q ≠ x := fun e => hxr (e ▸ hqmem)
        have hPl : ∀ P, t.lock pn.parent = some P → P ∉ l.nodes := by
          intro P hP hc
          rw [← hpar] at hP
          rcases parent_mem hlkr hmem with h1 | ⟨P2, hP2, h1⟩
          · rw [h1] at hP
            exact hxl (by rw [Option.some.inj hP]; exact hc)
          · rw [h1] at hP
            exact hdis P hc (by rw [← Option.some.inj hP]; exact hP2)
        have hnl : n.left ≠ some p := by
          intro hc
          have : l.top = some p := by rw [← reps_top hl]; exact hc
          exact hpl2 (top_mem_nodes this)
        have el : t2.read (.left_field x) = n.left := by
          rw [mapped_read_left hm hs, hgl x _ hs, if_neg (fun e => hqx e.symm),
            if_neg (fun hc => hnl hc.2)]
        have er : t2.read (.right_field x) = if n.right = some p then some q else n.right := by
          rw [mapped_read_right hm hs, hgr x _ hs, if_neg hxp]
          rcases parent_mem_top hlkr hmem with ⟨htop, hlp⟩ | ⟨P2, hP2, h1⟩
          · have htop2 : n.right = some p := by rw [reps_top hrr, htop]
            rw [hpar] at hlp
            simp [htop2, hlp, hnl]
          · have hne : t.lock pn.parent ≠ some x := by
              intro hc
              rw [hpar, hc] at h1
              exact hxr (by rw [Option.some.inj h1]; exact hP2)
            have htop2 : n.right ≠ some p := by
              intro hc
              cases r with
              | leaf => simp [ref_tree.nodes] at hmem
              | node A y B =>
                have hy := (reps_node hrr).1
                rw [hc] at hy
                simp only [Option.some.injEq] at hy
                subst hy
                have := (linked_node hlkr).1
                rw [hpar] at this
                exact hne this
            simp [htop2, hne]
        rw [el, er, rotate_left_at_of_not_mem p l hpl2]
        exact ⟨frame l _ hl hpl2 hql hPl,
          ihr _ (some x) hrr hndr hlkr hmem
            (fun P hP hc => hxr (by have e := Option.some.inj hP; subst e; exact hc))⟩
theorem subtree_at {t : avl_tree} {p : Nat} :
    ∀ {S : ref_tree} {a above : ptr}, t.reps S a = true → S.nodes.Nodup →
      t.linked S above = true → (∀ P, above = some P → P ∉ S.nodes) → p ∈ S.nodes →
      ∃ l r, t.reps (.node l p r) (some p) = true ∧ (ref_tree.node l p r).nodes.Nodup ∧
        (∀ y ∈ (ref_tree.node l p r).nodes, y ∈ S.nodes) ∧
        (∀ P, t.parent_of p = some P → P ∉ (ref_tree.node l p r).nodes) := by
  intro S
  induction S with
  | leaf => intro a above _ _ _ _ h; simp [ref_tree.nodes] at h
  | node l x r ihl ihr =>
    intro a above hr hnd hlk habove hmem
    obtain ⟨ha, n, hs, _, hl, hrr⟩ := reps_node hr
    obtain ⟨hndl, hndr, hxl, hxr, hdis⟩ := nodup_node hnd
    obtain ⟨hxpar, hlkl, hlkr⟩ := linked_node hlk
    subst ha
    by_cases hxp : x = p
    · subst hxp
      exact ⟨l, r, hr, hnd, fun y hy => hy, fun P hP => habove P (by rw [← hxpar, hP])⟩
    · simp only [ref_tree.nodes, List.mem_append, List.mem_cons] at hmem
      rcases hmem with hmem | hmem | hmem
      · obtain ⟨l2, r2, h1, h2, h3, h4⟩ := ihl hl hndl hlkl
          (fun P hP hc => hxl (by have e := Option.some.inj hP; subst e; exact hc)) hmem
        exact ⟨l2, r2, h1, h2, fun y hy => by simp [ref_tree.nodes, h3 y hy], h4⟩
      · exact absurd hmem.symm hxp
      · obtain ⟨l2, r2, h1, h2, h3, h4⟩ := ihr hrr hndr hlkr
          (fun P hP hc => hxr (by have e := Option.some.inj hP; subst e; exact hc)) hmem
        exact ⟨l2, r2, h1, h2, fun y hy => by simp [ref_tree.nodes, h3 y hy], h4⟩

theorem reps_same_fields {t t2 : avl_tree} (h : same_fields t t2) (T : ref_tree) (a : ptr) :
    t2.reps T a = t.reps T a :=
  reps_congr h.2.1 T a (fun _ _ => ⟨same_fields_read h _, same_fields_read h _⟩)

theorem mapped_key_val {t t2 : avl_tree} {g : Nat → avl_tree_node → avl_tree_node}
    (h : mapped t t2 g) (hg : ∀ j n, (g j n).key = n.key) (x : Nat) :
    t2.key_val x = t.key_val x := by
  cases hx : t.store[x]? with
  | none =>
    have : t2.store[x]? = none := by
      rw [List.getElem?_eq_none_iff] at hx ⊢
      rw [h.1]
      exact hx
    simp [key_val, this, hx]
  | some n => simp [key_val, h.2 x n hx, hx, hg]

theorem in_order_keys_reps {t : avl_tree} {T : ref_tree} (hr : t.reps T t.root = true)
    (hn : T.nodes.Nodup) : t.in_order_keys = .ok (T.nodes.map t.key_val) := by
  have h1 := in_order_from_reps hr (depth_le_store hr hn)
  have h2 : ∀ l : List Nat, (∀ y ∈ l, y < t.store.length) →
      l.filterMap t.key_of = l.map t.key_val := by
    intro l
    induction l with
    | nil => intro _; rfl
    | cons y ys ih =>
      intro h
      obtain ⟨n, hn⟩ := store_of_lt (h y (List.mem_cons_self _ _))
      have hk : t.key_of y = some (t.key_val y) := by simp [key_of, key_val, hn]
      rw [List.filterMap_cons, hk, List.map_cons,
        ih (fun z hz => h z (List.mem_cons_of_mem _ hz))]
  simp only [in_order_keys, in_order_traversal, h1, bind, Except.bind, pure, Except.pure,
    h2 _ (nodes_lt_length hr)]

/-- The root member after a rotation at p, in a parent-consistent tree. -/
theorem root_after_rotation {t : avl_tree} {T : ref_tree} {p q : Nat} {pn : avl_tree_node}
    (hreps : t.reps T t.root = true) (hlink : t.linked T none = true) (hp : p ∈ T.nodes)
    (hps : t.store[p]? = some pn) :
    (if t.lock pn.parent = none then some q else t.root)
      = (if t.root = some p then some q else t.root) := by
  have hpar : t.parent_of p = t.lock pn.parent := parent_of_store hps
  rcases parent_mem_top hlink hp with ⟨htop, hnone⟩ | ⟨P, _, hP⟩
  · rw [← hpar, hnone, reps_top hreps, htop]
    simp
  · rw [← hpar, hP]
    by_cases hroot : t.root = some p
    · exfalso
      cases T with
      | leaf => simp [ref_tree.nodes] at hp
      | node l x r =>
        have hx := (reps_node hreps).1
        rw [hroot] at hx
        simp only [Option.some.injEq] at hx
        subst hx
        have := (linked_node hlink).1
        rw [hP] at this
        exact absurd this (by simp)
    · simp [hroot]
theorem rotate_right_keeps_in_order {t : avl_tree} {T : ref_tree} {p : Nat} (held : List Nat)
    (hreps : t.reps T t.root = true) (hnodup : T.nodes.Nodup)
    (hlink : t.linked T none = true) (hp : p ∈ T.nodes)
    (hchild : t.read (.left_field p) ≠ none) :
    ∃ t2, t.rotate_right (.local_variable p) held = .ok t2 ∧
      t2.reps (T.rotate_right_at p) t2.root = true ∧
      t2.in_order_keys = .ok (T.nodes.map t.key_val) := by
  obtain ⟨l, r, hsub, hnd, hsubset, hpar⟩ :=
    subtree_at hreps hnodup hlink (fun P hP => absurd hP (by simp)) hp
  obtain ⟨_, pn, hps, _, hl, hr⟩ := reps_node hsub
  obtain ⟨hndl, hndr, hxl, hxr, hdis⟩ := nodup_node hnd
  rw [read_left_of_store hps] at hchild
  rw [parent_of_store hps] at hpar
  cases l with
  | leaf => exact absurd (reps_leaf hl) hchild
  | node A q B =>
    obtain ⟨hpl, qn, hqs, _, hA, hB⟩ := reps_node hl
    obtain ⟨hndA, hndB, hqA, hqB, hAB⟩ := nodup_node hndl
    have hqmem : q ∈ (ref_tree.node A q B).nodes := by simp [ref_tree.nodes]
    have hpq : p ≠ q := fun e => hxl (e ▸ hqmem)
    have ho1 : qn.right ≠ some p := by
      intro hc
      have : B.top = some p := by rw [← reps_top hB]; exact hc
      exact hxl (by simp [ref_tree.nodes, top_mem_nodes this])
    have ho2 : qn.right ≠ some q := by
      intro hc
      have : B.top = some q := by rw [← reps_top hB]; exact hc
      exact hqB (top_mem_nodes this)
    have hP1 : t.lock pn.parent ≠ some p := fun e => hpar p e (by simp [ref_tree.nodes])
    have hP2 : t.lock pn.parent ≠ some q := fun e => hpar q e (by simp [ref_tree.nodes])
    have hP3 : ∀ x, t.lock pn.parent = some x → qn.right ≠ some x := by
      intro x hx hc
      have : B.top = some x := by rw [← reps_top hB]; exact hc
      exact hpar x hx (by simp [ref_tree.nodes, top_mem_nodes this])
    obtain ⟨t6, heq, hroot, hm⟩ :=
      rotate_right_local t held p q pn qn hps hqs hpl hpq ho1 ho2 hP1 hP2 hP3
    have h6 := reps_rotate_right_at hm p q pn qn hps hqs hpl (fun _ _ _ => rfl)
      (fun _ _ _ => rfl) T t.root none hreps hnodup hlink hp
      (fun P hP => absurd hP (by simp))
    have hsf := collect_same_fields t6 held
    have hroot2 : (t6.collect held).root = (if t.root = some p then some q else t.root) := by
      rw [hsf.1, hroot]
      exact root_after_rotation hreps hlink hp hps
    have h7 : (t6.collect held).reps (T.rotate_right_at p) (t6.collect held).root = true := by
      rw [hroot2, reps_same_fields hsf]
      exact h6
    refine ⟨_, heq, h7, ?_⟩
    rw [in_order_keys_reps h7 (by rw [rotate_right_at_nodes]; exact hnodup),
      rotate_right_at_nodes]
    congr 1
    apply List.map_congr_left
    intro y _
    rw [same_fields_key_val hsf, mapped_key_val hm (fun _ _ => rfl)]

theorem rotate_left_keeps_in_order {t : avl_tree} {T : ref_tree} {p : Nat} (held : List Nat)
    (hreps : t.reps T t.root = true) (hnodup : T.nodes.Nodup)
    (hlink : t.linked T none = true) (hp : p ∈ T.nodes)
    (hchild : t.read (.right_field p) ≠ none) :
    ∃ t2, t.rotate_left (.local_variable p) held = .ok t2 ∧
      t2.reps (T.rotate_left_at p) t2.root = true ∧
      t2.in_order_keys = .ok (T.nodes.map t.key_val) := by
  obtain ⟨l, r, hsub, hnd, hsubset, hpar⟩ :=
    subtree_at hreps hnodup hlink (fun P hP => absurd hP (by simp)) hp
  obtain ⟨_, pn, hps, _, hl, hr⟩ := reps_node hsub
  obtain ⟨hndl, hndr, hxl, hxr, hdis⟩ := nodup_node hnd
  rw [read_right_of_store hps] at hchild
  rw [parent_of_store hps] at hpar
  cases r with
  | leaf => exact absurd (reps_leaf hr) hchild
  | node B q C =>
    obtain ⟨hpl, qn, hqs, _, hB, hC⟩ := reps_node hr
    obtain ⟨hndB, hndC, hqB, hqC, hBC⟩ := nodup_node hndr
    have hqmem : q ∈ (ref_tree.node B q C).nodes := by simp [ref_tree.nodes]
    have hpq : p ≠ q := fun e => hxr (e ▸ hqmem)
    have ho1 : qn.left ≠ some p := by
      intro hc
      have : B.top = some p := by rw [← reps_top hB]; exact hc
      exact hxr (by simp [ref_tree.nodes, top_mem_nodes this])
    have ho2 : qn.left ≠ some q := by
      intro hc
      have : B.top = some q := by rw [← reps_top hB]; exact hc
      exact hqB (top_mem_nodes this)
    have hP1 : t.lock pn.parent ≠ some p := fun e => hpar p e (by simp [ref_tree.nodes])
    have hP2 : t.lock pn.parent ≠ some q := fun e => hpar q e (by simp [ref_tree.nodes])
    have hP3 : ∀ x, t.lock pn.parent = some x → qn.left ≠ some x := by
      intro x hx hc
      have : B.top = some x := by rw [← reps_top hB]; exact hc
      exact hpar x hx (by simp [ref_tree.nodes, top_mem_nodes this])
    obtain ⟨t6, heq, hroot, hm⟩ :=
      rotate_left_local t held p q pn qn hps hqs hpl hpq ho1 ho2 hP1 hP2 hP3
    have h6 := reps_rotate_left_at hm p q pn qn hps hqs hpl (fun _ _ _ => rfl)
      (fun _ _ _ => rfl) T t.root none hreps hnodup hlink hp
      (fun P hP => absurd hP (by simp))
    have hsf := collect_same_fields t6 held
    have hroot2 : (t6.collect held).root = (if t.root = some p then some q else t.root) := by
      rw [hsf.1, hroot]
      exact root_after_rotation hreps hlink hp hps
    have h7 : (t6.collect held).reps (T.rotate_left_at p) (t6.collect held).root = true := by
      rw [hroot2, reps_same_fields hsf]
      exact h6
    refine ⟨_, heq, h7, ?_⟩
    rw [in_order_keys_reps h7 (by rw [rotate_left_at_nodes]; exact hnodup),
      rotate_left_at_nodes]
    congr 1
    apply List.map_congr_left
    intro y _
    rw [same_fields_key_val hsf, mapped_key_val hm (fun _ _ => rfl)]

/-! ### Rotations called on a child field of the parent -/

theorem linked_top {t : avl_tree} {T : ref_tree} {above : ptr} {p : Nat}
    (h : t.linked T above = true) (ht : T.top = some p) : t.parent_of p = above := by
  cases T with
  | leaf => simp [ref_tree.top] at ht
  | node l x r =>
    simp only [ref_tree.top, Option.some.injEq] at ht
    subst ht
    exact (linked_node h).1

/-- A node that a child field of a node P of the tree refers to has P as its
parent link, and the other child field of P refers to another node. -/
theorem child_of_node {t : avl_tree} {P p : Nat} {Pn : avl_tree_node}
    (hPs : t.store[P]? = some Pn) :
    ∀ {S : ref_tree} {a above : ptr}, t.reps S a = true → S.nodes.Nodup →
      t.linked S above = true → P ∈ S.nodes →
      (Pn.left = some p → t.parent_of p = some P ∧ Pn.right ≠ some p) ∧
      (Pn.right = some p → t.parent_of p = some P ∧ Pn.left ≠ some p) := by
  intro S
  induction S with
  | leaf => intro a above _ _ _ h; simp [ref_tree.nodes] at h
  | node l x r ihl ihr =>
    intro a above hr hnd hlk hmem
    obtain ⟨_, n, hs, _, hl, hrr⟩ := reps_node hr
    obtain ⟨hndl, hndr, hxl, hxr, hdis⟩ := nodup_node hnd
    obtain ⟨_, hlkl, hlkr⟩ := linked_node hlk
    by_cases hxP : x = P
    · subst hxP
      rw [hPs] at hs
      cases hs
      refine ⟨?_, ?_⟩
      · intro hc
        have htl : l.top = some p := by rw [← reps_top hl]; exact hc
        refine ⟨linked_top hlkl htl, ?_⟩
        intro hc2
        have htr : r.top = some p := by rw [← reps_top hrr]; exact hc2
        exact hdis p (top_mem_nodes htl) (top_mem_nodes htr)
      · intro hc
        have htr : r.top = some p := by rw [← reps_top hrr]; exact hc
        refine ⟨linked_top hlkr htr, ?_⟩
        intro hc2
        have htl : l.top = some p := by rw [← reps_top hl]; exact hc2
        exact hdis p (top_mem_nodes htl) (top_mem_nodes htr)
    · simp only [ref_tree.nodes, List.mem_append, List.mem_cons] at hmem
      rcases hmem with hmem | hmem | hmem
      · exact ihl hl hndl hlkl hmem
      · exact absurd hmem.symm hxP
      · exact ihr hrr hndr hlkr hmem

theorem in_order_after_rotate_right {t t6 : avl_tree} {T : ref_tree} {p q : Nat}
    {pn qn : avl_tree_node} {g : Nat → avl_tree_node → avl_tree_node} (held : List Nat)
    (hm : mapped t t6 g) (hkey : ∀ j n, (g j n).key = n.key)
    (hps : t.store[p]? = some pn) (hqs : t.store[q]? = some qn) (hpl : pn.left = some q)
    (hgl : ∀ j n, t.store[j]? = some n → (g j n).left =
      if j = p then qn.right
      else if t.lock pn.parent = some j ∧ n.left = some p then some q else n.left)
    (hgr : ∀ j n, t.store[j]? = some n → (g j n).right =
      if j = q then some p
      else if t.lock pn.parent = some j ∧ n.left ≠ some p ∧ n.right = some p then some q
      else n.right)
    (hroot : t6.root = if t.root = some p then some q else t.root)
    (hreps : t.reps T t.root = true) (hnodup : T.nodes.Nodup)
    (hlink : t.linked T none = true) (hp : p ∈ T.nodes) :
    (t6.collect held).in_order_keys = .ok (T.nodes.map t.key_val) := by
  have h6 := reps_rotate_right_at hm p q pn qn hps hqs hpl hgl hgr T t.root none hreps hnodup
    hlink hp (fun P hP => absurd hP (by simp))
  have hsf := collect_same_fields t6 held
  have h7 : (t6.collect held).reps (T.rotate_right_at p) (t6.collect held).root = true := by
    rw [hsf.1, hroot, reps_same_fields hsf]
    exact h6
  rw [in_order_keys_reps h7 (by rw [rotate_right_at_nodes]; exact hnodup),
    rotate_right_at_nodes]
  congr 1
  apply List.map_congr_left
  intro y _
  rw [same_fields_key_val hsf, mapped_key_val hm hkey]

theorem in_order_after_rotate_left {t t6 : avl_tree} {T : ref_tree} {p q : Nat}
    {pn qn : avl_tree_node} {g : Nat → avl_tree_node → avl_tree_node} (held : List Nat)
    (hm : mapped t t6 g) (hkey : ∀ j n, (g j n).key = n.key)
    (hps : t.store[p]? = some pn) (hqs : t.store[q]? = some qn) (hpl : pn.right = some q)
    (hgl : ∀ j n, t.store[j]? = some n → (g j n).left =
      if j = q then some p
      else if t.lock pn.parent = some j ∧ n.left = some p then some q else n.left)
    (hgr : ∀ j n, t.store[j]? = some n → (g j n).right =
      if j = p then qn.left
      else if t.lock pn.parent = some j ∧ n.left ≠ some p then some q
      else n.right)
    (hroot : t6.root = if t.root = some p then some q else t.root)
    (hreps : t.reps T t.root = true) (hnodup : T.nodes.Nodup)
    (hlink : t.linked T none = true) (hp : p ∈ T.nodes) :
    (t6.collect held).in_order_keys = .ok (T.nodes.map t.key_val) := by
  have h6 := reps_rotate_left_at hm p q pn qn hps hqs hpl hgl hgr T t.root none hreps hnodup
    hlink hp (fun P hP => absurd hP (by simp))
  have hsf := collect_same_fields t6 held
  have h7 : (t6.collect held).reps (T.rotate_left_at p) (t6.collect held).root = true := by
    rw [hsf.1, hroot, reps_same_fields hsf]
    exact h6
  rw [in_order_keys_reps h7 (by rw [rotate_left_at_nodes]; exact hnodup),
    rotate_left_at_nodes]
  congr 1
  apply List.map_congr_left
  intro y _
  rw [same_fields_key_val hsf, mapped_key_val hm hkey]

/-- The call rotate_right(P->left) or rotate_right(P->right) on a node P of the
tree, p being the node the field refers to: the function returns and the
in-order key sequence is as before. -/
theorem rotate_right_on_child_keeps_in_order {t : avl_tree} {T : ref_tree} {p P : Nat}
    (held : List Nat) (s : slot) (hs : s = .left_field P ∨ s = .right_field P)
    (hread : t.read s = some p)
    (hreps : t.reps T t.root = true) (hnodup : T.nodes.Nodup)
    (hlink : t.linked T none = true) (hP : P ∈ T.nodes) (hp : p ∈ T.nodes)
    (hchild : t.read (.left_field p) ≠ none) :
    ∃ t2, t.rotate_right s held = .ok t2 ∧
      t2.in_order_keys = .ok (T.nodes.map t.key_val) := by
  obtain ⟨Pn, hPs⟩ := store_of_lt (nodes_lt_length hreps P hP)
  obtain ⟨hcl, hcr⟩ := child_of_node (p := p) hPs hreps hnodup hlink hP
  obtain ⟨l, r, hsub, hnd, hsubset, hpar⟩ :=
    subtree_at hreps hnodup hlink (fun P hP => absurd hP (by simp)) hp
  obtain ⟨_, pn, hps, _, hl, hr⟩ := reps_node hsub
  obtain ⟨hndl, hndr, hxl, hxr, hdis⟩ := nodup_node hnd
  rw [read_left_of_store hps] at hchild
  cases l with
  | leaf => exact absurd (reps_leaf hl) hchild
  | node A q B =>
    obtain ⟨hpl, qn, hqs, _, hA, hB⟩ := reps_node hl
    obtain ⟨hndA, hndB, hqA, hqB, hAB⟩ := nodup_node hndl
    have hqmem : q ∈ (ref_tree.node A q B).nodes := by simp [ref_tree.nodes]
    have hpq : p ≠ q := fun e => hxl (e ▸ hqmem)
    have ho1 : qn.right ≠ some p := by
      intro hc
      have : B.top = some p := by rw [← reps_top hB]; exact hc
      exact hxl (by simp [ref_tree.nodes, top_mem_nodes this])
    have ho2 : qn.right ≠ some q := by
      intro hc
      have : B.top = some q := by rw [← reps_top hB]; exact hc
      exact hqB (top_mem_nodes this)
    have hparP : t.parent_of p = some P := by
      rcases hs with rfl | rfl
      · rw [read_left_of_store hPs] at hread; exact (hcl hread).1
      · rw [read_right_of_store hPs] at hread; exact (hcr hread).1
    have hPsub := hpar P hparP
    have hPp : P ≠ p := fun e => hPsub (e ▸ by simp [ref_tree.nodes])
    have hPq : P ≠ q := fun e => hPsub (e ▸ by simp [ref_tree.nodes])
    have ho3 : qn.right ≠ some P := by
      intro hc
      have : B.top = some P := by rw [← reps_top hB]; exact hc
      exact hPsub (by simp [ref_tree.nodes, top_mem_nodes this])
    have hup : t.lock pn.parent = some P := by rw [← parent_of_store hps]; exact hparP
    have hrootp : t.root ≠ some p := by
      intro e
      have ht : T.top = some p := by rw [← reps_top hreps]; exact e
      have := linked_top hlink ht
      rw [hparP] at this
      exact absurd this (by simp)
    have closeP : ∀ (n : avl_tree_node), t.store[P]? = some n → n = Pn :=
      fun n hj => Option.some.inj (hj.symm.trans hPs)
    rcases hs with rfl | rfl
    · rw [read_left_of_store hPs] at hread
      obtain ⟨t6, heq, hroot, hm⟩ := rotate_right_on_left_field t held p q P pn qn Pn hps hqs
        hPs hpl hread hup hpq hPp hPq ho1 ho2 ho3
      refine ⟨_, heq, in_order_after_rotate_right held hm (fun _ _ => rfl) hps hqs hpl ?_ ?_
        (by rw [hroot, if_neg hrootp]) hreps hnodup hlink hp⟩
      · intro j n hj
        rw [hup]
        rcases eq_or_ne j P with rfl | h3
        · rw [closeP n hj]
          simp only [hread, hPp, hPq, Option.some.injEq, ne_eq, not_true_eq_false,
            not_false_eq_true, and_self, and_false, false_and, true_and, if_true, if_false]
        · simp only [Option.some.injEq, h3, h3.symm, false_and, if_false]
      · intro j n hj
        rw [hup]
        rcases eq_or_ne j P with rfl | h3
        · rw [closeP n hj]
          simp only [hread, hPp, hPq, Option.some.injEq, ne_eq, not_true_eq_false,
            not_false_eq_true, and_self, and_false, false_and, true_and, if_true, if_false]
        · simp only [Option.some.injEq, h3, h3.symm, false_and, if_false]
    · rw [read_right_of_store hPs] at hread
      have hPl := (hcr hread).2
      obtain ⟨t6, heq, hroot, hm⟩ := rotate_right_on_right_field t held p q P pn qn Pn hps hqs
        hPs hpl hread hPl hup hpq hPp hPq ho1 ho2 ho3
      refine ⟨_, heq, in_order_after_rotate_right held hm (fun _ _ => rfl) hps hqs hpl ?_ ?_
        (by rw [hroot, if_neg hrootp]) hreps hnodup hlink hp⟩
      · intro j n hj
        rw [hup]
        rcases eq_or_ne j P with rfl | h3
        · rw [closeP n hj]
          simp only [hread, hPl, hPp, hPq, Option.some.injEq, ne_eq, not_true_eq_false,
            not_false_eq_true, and_self, and_false, false_and, true_and, if_true, if_false]
        · simp only [Option.some.injEq, h3, h3.symm, false_and, if_false]
      · intro j n hj
        rw [hup]
        rcases eq_or_ne j P with rfl | h3
        · rw [closeP n hj]
          simp only [hread, hPl, hPp, hPq, Option.some.injEq, ne_eq, not_true_eq_false,
            not_false_eq_true, and_self, and_false, false_and, true_and, if_true, if_false]
        · simp only [Option.some.injEq, h3, h3.symm, false_and, if_false]

/-- The call rotate_left(P->left) or rotate_left(P->right) on a node P of the
tree, the mirror image of rotate_right_on_child_keeps_in_order. -/
theorem rotate_left_on_child_keeps_in_order {t : avl_tree} {T : ref_tree} {p P : Nat}
    (held : List Nat) (s : slot) (hs : s = .left_field P ∨ s = .right_field P)
    (hread : t.read s = some p)
    (hreps : t.reps T t.root = true) (hnodup : T.nodes.Nodup)
    (hlink : t.linked T none = true) (hP : P ∈ T.nodes) (hp : p ∈ T.nodes)
    (hchild : t.read (.right_field p) ≠ none) :
    ∃ t2, t.rotate_left s held = .ok t2 ∧
      t2.in_order_keys = .ok (T.nodes.map t.key_val) := by
  obtain ⟨Pn, hPs⟩ := store_of_lt (nodes_lt_length hreps P hP)
  obtain ⟨hcl, hcr⟩ := child_of_node (p := p) hPs hreps hnodup hlink hP
  obtain ⟨l, r, hsub, hnd, hsubset, hpar⟩ :=
    subtree_at hreps hnodup hlink (fun P hP => absurd hP (by simp)) hp
  obtain ⟨_, pn, hps, _, hl, hr⟩ := reps_node hsub
  obtain ⟨hndl, hndr, hxl, hxr, hdis⟩ := nodup_node hnd
  rw [read_right_of_store hps] at hchild
  cases r with
  | leaf => exact absurd (reps_leaf hr) hchild
  | node B q C =>
    obtain ⟨hpl, qn, hqs, _, hB, hC⟩ := reps_node hr
    obtain ⟨hndB, hndC, hqB, hqC, hBC⟩ := nodup_node hndr
    have hqmem : q ∈ (ref_tree.node B q C).nodes := by simp [ref_tree.nodes]
    have hpq : p ≠ q := fun e => hxr (e ▸ hqmem)
    have ho1 : qn.left ≠ some p := by
      intro hc
      have : B.top = some p := by rw [← reps_top hB]; exact hc
      exact hxr (by simp [ref_tree.nodes, top_mem_nodes this])
    have ho2 : qn.left ≠ some q := by
      intro hc
      have : B.top = some q := by rw [← reps_top hB]; exact hc
      exact hqB (top_mem_nodes this)
    have hparP : t.parent_of p = some P := by
      rcases hs with rfl | rfl
      · rw [read_left_of_store hPs] at hread; exact (hcl hread).1
      · rw [read_right_of_store hPs] at hread; exact (hcr hread).1
    have hPsub := hpar P hparP
    have hPp : P ≠ p := fun e => hPsub (e ▸ by simp [ref_tree.nodes])
    have hPq : P ≠ q := fun e => hPsub (e ▸ by simp [ref_tree.nodes])
    have ho3 : qn.left ≠ some P := by
      intro hc
      have : B.top = some P := by rw [← reps_top hB]; exact hc
      exact hPsub (by simp [ref_tree.nodes, top_mem_nodes this])
    have hup : t.lock pn.parent = some P := by rw [← parent_of_store hps]; exact hparP
    have hrootp : t.root ≠ some p := by
      intro e
      have ht : T.top = some p := by rw [← reps_top hreps]; exact e
      have := linked_top hlink ht
      rw [hparP] at this
      exact absurd this (by simp)
    have closeP : ∀ (n : avl_tree_node), t.store[P]? = some n → n = Pn :=
      fun n hj => Option.some.inj (hj.symm.trans hPs)
    rcases hs with rfl | rfl
    · rw [read_left_of_store hPs] at hread
      obtain ⟨t6, heq, hroot, hm⟩ := rotate_left_on_left_field t held p q P pn qn Pn hps hqs
        hPs hpl hread hup hpq hPp hPq ho1 ho2 ho3
      refine ⟨_, heq, in_order_after_rotate_left held hm (fun _ _ => rfl) hps hqs hpl ?_ ?_
        (by rw [hroot, if_neg hrootp]) hreps hnodup hlink hp⟩
      · intro j n hj
        rw [hup]
        rcases eq_or_ne j P with rfl | h3
        · rw [closeP n hj]
          simp only [hread, hPp, hPq, Option.some.injEq, ne_eq, not_true_eq_false,
            not_false_eq_true, and_self, and_false, false_and, true_and, if_true, if_false]
        · simp only [Option.some.injEq, h3, h3.symm, false_and, if_false]
      · intro j n hj
        rw [hup]
        rcases eq_or_ne j P with rfl | h3
        · rw [closeP n hj]
          simp only [hread, hPp, hPq, Option.some.injEq, ne_eq, not_true_eq_false,
            not_false_eq_true, and_self, and_false, false_and, true_and, if_true, if_false]
        · simp only [Option.some.injEq, h3, h3.symm, false_and, if_false]
    · rw [read_right_of_store hPs] at hread
      have hPl := (hcr hread).2
      obtain ⟨t6, heq, hroot, hm⟩ := rotate_left_on_right_field t held p q P pn qn Pn hps hqs
        hPs hpl hread hPl hup hpq hPp hPq ho1 ho2 ho3
      refine ⟨_, heq, in_order_after_rotate_left held hm (fun _ _ => rfl) hps hqs hpl ?_ ?_
        (by rw [hroot, if_neg hrootp]) hreps hnodup hlink hp⟩
      · intro j n hj
        rw [hup]
        rcases eq_or_ne j P with rfl | h3
        · rw [closeP n hj]
          simp only [hread, hPl, hPp, hPq, Option.some.injEq, ne_eq, not_true_eq_false,
            not_false_eq_true, and_self, and_false, false_and, true_and, if_true, if_false]
        · simp only [Option.some.injEq, h3, h3.symm, false_and, if_false]
      · intro j n hj
        rw [hup]
        rcases eq_or_ne j P with rfl | h3
        · rw [closeP n hj]
          simp only [hread, hPl, hPp, hPq, Option.some.injEq, ne_eq, not_true_eq_false,
            not_false_eq_true, and_self, and_false, false_and, true_and, if_true, if_false]
        · simp only [Option.some.injEq, h3, h3.symm, false_and, if_false]
/-- C11: in a parent-consistent tree, for every node p reachable from the
root, rotate_right(p) (when the left child of p exists) and rotate_left(p)
(when its right child exists) return and leave the in-order key sequence of
the whole tree, read from the root after the call, as it was; p may be the
root, a left child or a right child.  The argument of the call is any
reference that holds p as in the call sites of insert: a local variable, or
the left or right field of a node of the tree (then the parent of p), which
the rotation overwrites and reads again. -/
theorem rotation_preserves_in_order (t : avl_tree) (T : ref_tree) (p : Nat) (s : slot)
    (held : List Nat)
    (hreps : t.reps T t.root = true) (hnodup : T.nodes.Nodup)
    (hlink : t.linked T none = true) (hp : p ∈ T.nodes)
    (hs : t.read s = some p)
    (hown : ∀ P, s = .left_field P ∨ s = .right_field P → P ∈ T.nodes) :
    ∃ keys, t.in_order_keys = .ok keys ∧
      (t.read (.left_field p) ≠ none →
        ∃ t2, t.rotate_right s held = .ok t2 ∧ t2.in_order_keys = .ok keys) ∧
      (t.read (.right_field p) ≠ none →
        ∃ t2, t.rotate_left s held = .ok t2 ∧ t2.in_order_keys = .ok keys) := by
  refine ⟨T.nodes.map t.key_val, in_order_keys_reps hreps hnodup, ?_, ?_⟩
  · intro hchild
    cases s with
    | local_variable x =>
      simp only [read, Option.some.injEq] at hs
      subst hs
      obtain ⟨t2, h1, _, h3⟩ := rotate_right_keeps_in_order held hreps hnodup hlink hp hchild
      exact ⟨t2, h1, h3⟩
    | left_field P =>
      exact rotate_right_on_child_keeps_in_order held _ (Or.inl rfl) hs hreps hnodup hlink
        (hown P (Or.inl rfl)) hp hchild
    | right_field P =>
      exact rotate_right_on_child_keeps_in_order held _ (Or.inr rfl) hs hreps hnodup hlink
        (hown P (Or.inr rfl)) hp hchild
  · intro hchild
    cases s with
    | local_variable x =>
      simp only [read, Option.some.injEq] at hs
      subst hs
      obtain ⟨t2, h1, _, h3⟩ := rotate_left_keeps_in_order held hreps hnodup hlink hp hchild
      exact ⟨t2, h1, h3⟩
    | left_field P =>
      exact rotate_left_on_child_keeps_in_order held _ (Or.inl rfl) hs hreps hnodup hlink
        (hown P (Or.inl rfl)) hp hchild
    | right_field P =>
      exact rotate_left_on_child_keeps_in_order held _ (Or.inr rfl) hs hreps hnodup hlink
        (hown P (Or.inr rfl)) hp hchild
/-- C11 at two concrete calls: rotate_left(current->left) in the state in
which insert(20), after insert(30) and insert(10), calls it (p is node 1 with
key 10, the left child of the root), and the rotations at the root (node 1,
key 20) of the tree of the inserts 10, 20, 30 through a local variable. -/
theorem rotation_preserves_in_order_witness :
    (tree_30_10_20_before_rotation.reps ref_30_10_20_before_rotation
        tree_30_10_20_before_rotation.root = true ∧
      ref_30_10_20_before_rotation.nodes.Nodup ∧
      tree_30_10_20_before_rotation.linked ref_30_10_20_before_rotation none = true ∧
      1 ∈ ref_30_10_20_before_rotation.nodes ∧
      tree_30_10_20_before_rotation.read (.left_field 0) = some 1 ∧
      (∀ P, slot.left_field 0 = .left_field P ∨ slot.left_field 0 = .right_field P →
        P ∈ ref_30_10_20_before_rotation.nodes) ∧
      ∃ keys, tree_30_10_20_before_rotation.in_order_keys = .ok keys ∧
        (tree_30_10_20_before_rotation.read (.left_field 1) ≠ none →
          ∃ t2, tree_30_10_20_before_rotation.rotate_right (.left_field 0) [0] = .ok t2 ∧
            t2.in_order_keys = .ok keys) ∧
        (tree_30_10_20_before_rotation.read (.right_field 1) ≠ none →
          ∃ t2, tree_30_10_20_before_rotation.rotate_left (.left_field 0) [0] = .ok t2 ∧
            t2.in_order_keys = .ok keys)) ∧
    (tree_10_20_30.reps ref_10_20_30 tree_10_20_30.root = true ∧
      ref_10_20_30.nodes.Nodup ∧ tree_10_20_30.linked ref_10_20_30 none = true ∧
      1 ∈ ref_10_20_30.nodes ∧
      ∃ keys, tree_10_20_30.in_order_keys = .ok keys ∧
        (tree_10_20_30.read (.left_field 1) ≠ none →
          ∃ t2, tree_10_20_30.rotate_right (.local_variable 1) [] = .ok t2 ∧
            t2.in_order_keys = .ok keys) ∧
        (tree_10_20_30.read (.right_field 1) ≠ none →
          ∃ t2, tree_10_20_30.rotate_left (.local_variable 1) [] = .ok t2 ∧
            t2.in_order_keys = .ok keys)) :=
  have hown : ∀ P, slot.left_field 0 = .left_field P ∨ slot.left_field 0 = .right_field P →
      P ∈ ref_30_10_20_before_rotation.nodes := by
    intro P hP
    rcases hP with h | h
    · cases h
      decide
    · cases h
  ⟨⟨rfl, by decide, rfl, by decide, rfl, hown,
      rotation_preserves_in_order tree_30_10_20_before_rotation ref_30_10_20_before_rotation 1
        (.left_field 0) [0] rfl (by decide) rfl (by decide) rfl hown⟩,
    ⟨rfl, by decide, rfl, by decide,
      rotation_preserves_in_order tree_10_20_30 ref_10_20_30 1 (.local_variable 1) [] rfl
        (by decide) rfl (by decide) rfl (fun P hP => by rcases hP with h | h <;> cases h)⟩⟩
/-! ### Rebalancing on trees of references -/

theorem depth_pos_iff {T : ref_tree} : 0 < T.depth ↔ T ≠ .leaf := by
  cases T with
  | leaf => simp [ref_tree.depth]
  | node l x r => simp [ref_tree.depth]

theorem nodes_plug : ∀ (fs : List frame) (S : ref_tree),
    (ref_tree.plug fs S).nodes = ref_tree.ctx_before fs ++ S.nodes ++ ref_tree.ctx_after fs := by
  intro fs
  induction fs with
  | nil => intro S; simp [ref_tree.plug, ref_tree.ctx_before, ref_tree.ctx_after]
  | cons f fs ih =>
    intro S
    rw [ref_tree.plug, ih]
    cases hd : f.dir <;>
      simp [frame.fill, hd, ref_tree.nodes, ref_tree.ctx_before, ref_tree.ctx_after]

theorem nodup_plug_congr {fs : List frame} {S S2 : ref_tree}
    (h : (ref_tree.plug fs S).nodes.Nodup) (hp : S2.nodes.Perm S.nodes) :
    (ref_tree.plug fs S2).nodes.Nodup := by
  rw [nodes_plug] at h ⊢
  exact (List.Perm.nodup_iff ((hp.append_left _).append_right _)).mpr h

theorem mem_plug_congr {fs : List frame} {S S2 : ref_tree}
    (hp : ∀ y, y ∈ S2.nodes ↔ y ∈ S.nodes) (y : Nat) :
    y ∈ (ref_tree.plug fs S2).nodes ↔ y ∈ (ref_tree.plug fs S).nodes := by
  simp only [nodes_plug, List.mem_append, hp]

theorem lock_fades_none {t t2 : avl_tree} (h : fades t t2) {a : ptr}
    (ha : t.lock a = none) : t2.lock a = none := by
  cases a with
  | none => rfl
  | some i =>
    cases hi : t.store[i]? with
    | none => simp [lock, same_fields_get_none h.1 hi]
    | some n =>
      obtain ⟨b, hb⟩ := h.1.2.2 i n hi
      have hl : n.live = false := by
        simp only [lock, hi] at ha
        cases hn : n.live
        · rfl
        · simp [hn] at ha
      have hb2 : b = false := by
        cases hbv : b
        · rfl
        · have := h.2 i n _ hi hb (by simp [hbv])
          rw [hl] at this
          exact absurd this (by simp)
      simp [lock, hb, hb2]

theorem lock_cases (t : avl_tree) (a : ptr) : t.lock a = none ∨ t.lock a = a := by
  cases a with
  | none => left; rfl
  | some i =>
    simp only [lock]
    cases t.store[i]? with
    | none => left; rfl
    | some n => cases n.live <;> simp

theorem parent_of_fades {t t2 : avl_tree} (h : fades t t2) {x : Nat}
    (hx : ∀ P, t.parent_of x = some P → t2.lock (some P) = some P) :
    t2.parent_of x = t.parent_of x := by
  cases hs : t.store[x]? with
  | none => simp [parent_of, hs, same_fields_get_none h.1 hs]
  | some n =>
    obtain ⟨b, hb⟩ := h.1.2.2 x n hs
    simp only [parent_of, hs, hb] at hx ⊢
    rcases lock_cases t n.parent with h0 | h1
    · rw [h0]
      exact lock_fades_none h h0
    · cases hp : n.parent with
      | none => simp [lock]
      | some P =>
        rw [hp] at h1 hx
        rw [h1]
        exact hx P h1

theorem mem_ctx_nodes_cons {f : frame} {fs : List frame} {y : Nat} :
    y ∈ ctx_nodes (f :: fs) ↔ y = f.x ∨ y ∈ f.sib.nodes ∨ y ∈ ctx_nodes fs := by
  cases hd : f.dir <;>
    simp only [ctx_nodes, ref_tree.ctx_before, ref_tree.ctx_after, hd, List.mem_append,
      List.mem_cons, List.mem_singleton, Bool.false_eq_true, if_false, if_true,
      List.not_mem_nil, or_false, false_or] <;> tauto

theorem hangs_lt {t : avl_tree} :
    ∀ {fs : List frame} {a : ptr}, t.hangs fs a → ∀ y ∈ ctx_nodes fs, y < t.store.length := by
  intro fs
  induction fs with
  | nil => intro a _ y hy; simp [ctx_nodes, ref_tree.ctx_before, ref_tree.ctx_after] at hy
  | cons f fs ih =>
    intro a h y hy
    simp only [hangs] at h
    rcases mem_ctx_nodes_cons.mp hy with rfl | hy | hy
    · exact h.1
    · cases hd : f.dir
      · simp only [hd, Bool.false_eq_true, if_false] at h
        exact nodes_lt_length h.2.1.2 y hy
      · simp only [hd, if_true] at h
        exact nodes_lt_length h.2.1.2 y hy
    · exact ih h.2.2 y hy

theorem reps_node_of {t : avl_tree} {l r : ref_tree} {x : Nat} {n : avl_tree_node}
    (hx : t.store[x]? = some n) (hl : t.reps l n.left = true) (hr : t.reps r n.right = true) :
    t.reps (.node l x r) (some x) = true := by
  have hlt : x < t.store.length := by
    by_contra hc
    rw [List.getElem?_eq_none (by omega)] at hx
    exact absurd hx (by simp)
  simp only [reps, Bool.and_eq_true, beq_self_eq_true, true_and, decide_eq_true_eq,
    read_left_of_store hx, read_right_of_store hx]
  exact ⟨⟨hlt, hl⟩, hr⟩

theorem settled_fades {t t2 : avl_tree} {C : ref_tree} {above : ptr}
    (h : settled t C above) (hf : fades t t2)
    (ha : ∀ P, above = some P → t2.lock (some P) = some P) :
    settled t2 C above := by
  intro y hy
  obtain ⟨n, hn, hb, hp⟩ := h y hy
  obtain ⟨b, hb2⟩ := hf.1.2.2 y n hn
  refine ⟨_, hb2, hb, ?_⟩
  rw [parent_of_fades hf, hp]
  intro P hP
  rw [hp] at hP
  exact ha P hP

theorem reps_extend {t t2 : avl_tree}
    (hext : ∀ (j : Nat) (n : avl_tree_node), t.store[j]? = some n → t2.store[j]? = some n) :
    ∀ (T : ref_tree) (p : ptr), t.reps T p = true → t2.reps T p = true := by
  intro T
  induction T with
  | leaf => intro p h; exact h
  | node l x r ihl ihr =>
    intro p h
    obtain ⟨hp, n, hns, _, hl, hr⟩ := reps_node h
    subst hp
    exact reps_node_of (hext x n hns) (ihl _ hl) (ihr _ hr)

theorem read_extend {t t2 : avl_tree}
    (hext : ∀ (j : Nat) (n : avl_tree_node), t.store[j]? = some n → t2.store[j]? = some n)
    {y : Nat}
    (hy : y < t.store.length) :
    t2.read (.left_field y) = t.read (.left_field y) ∧
      t2.read (.right_field y) = t.read (.right_field y) := by
  obtain ⟨n, hn⟩ := store_of_lt hy
  rw [read_left_of_store hn, read_right_of_store hn, read_left_of_store (hext y n hn),
    read_right_of_store (hext y n hn)]
  exact ⟨rfl, rfl⟩

theorem hangs_extend {t t2 : avl_tree}
    (hext : ∀ (j : Nat) (n : avl_tree_node), t.store[j]? = some n → t2.store[j]? = some n)
    (hlen : t.store.length ≤ t2.store.length) (hroot : t2.root = t.root) :
    ∀ (fs : List frame) (a : ptr), t.hangs fs a → t2.hangs fs a := by
  intro fs
  induction fs with
  | nil => intro a h; simp only [hangs] at h ⊢; rw [hroot]; exact h
  | cons f fs ih =>
    intro a h
    simp only [hangs] at h ⊢
    obtain ⟨h1, h2, h3⟩ := h
    obtain ⟨e1, e2⟩ := read_extend hext h1
    rw [e1, e2]
    refine ⟨lt_of_lt_of_le h1 hlen, ?_, ih _ h3⟩
    cases hd : f.dir
    · simp only [hd, Bool.false_eq_true, if_false] at h2 ⊢
      exact ⟨h2.1, reps_extend hext _ _ h2.2⟩
    · simp only [hd, if_true] at h2 ⊢
      exact ⟨h2.1, reps_extend hext _ _ h2.2⟩

end avl_tree

end forest
